import Mathlib

/-!
Data-json-optimizer: a shallow embedding of `src/data-json-optimizer.js`.

The JavaScript module merges every `components/**/data.json` fragment of an
application into one document and writes it twice: with the original keys and
with camel-cased keys.  This file embeds

* `sortFiles`                (source lines 32-37),
* the merge loop of `createFinalDataJsonFiles` (source lines 59-61),
* `formatKeyAsCamelCase`     (source lines 93-107), on values and, for the
  independence of the two outputs, in place on a heap,
* `createFinalDataJsonFiles` (source lines 50-75) as the list of its calls of
  `writeFile`,

together with the lodash functions they call (`_.sortBy`, `_.merge`, `_.each`,
`_.camelCase`, `_.isObject`, `_.isNumber`, `_.cloneDeep`), which are modelled
after lodash 4.17, and `JSON.stringify`.

Conventions of the embedding:

* JavaScript values are the type `Val`.  Numbers are modelled by integers: the
  code never computes with a number, it only tests truthiness and equality.
* An object is the list of its own properties in the order in which JavaScript
  enumerates them (`Object.keys`, `for in`, `JSON.stringify`): the array
  indices first, in ascending order, then the other names in creation order
  (`Canonical`).  Assigning to an existing property keeps its place, a new
  array index is inserted among the indices, another new name comes last
  (`setProp`), `delete` removes the property.
* The module is an ES module, hence strict-mode code.
* An array is the list of its elements.  When `_.merge` merges a plain object
  onto an array it sets the properties of the object on the array itself: those
  named by an index become elements, the others named properties of the array,
  which `_.cloneDeep`, `_.each` and `JSON.stringify` pass over.  `Val` does not
  carry the named properties of an array (`mergeOntoArray`).
* Where real lodash throws or leaves the values described by `Val` (the
  property name `__proto__` is treated specially by some lodash versions; a
  property `length` or `constructor` set on an array), the model answers
  `none`.  `none` is also the answer of a fuel-indexed function that ran out of
  fuel; the top-level functions supply enough fuel
  (`formatKeyAsCamelCase_eq_renameKeys`), and the merge of fragments in which no
  mapping has a key `__proto__`, `length` or `constructor` is never `none`
  (`mergeFragments_tame`), nor is the merge of fragments without arrays and
  without the key `__proto__` (`mergeFragments_defined`).
-/

namespace DataJsonOptimizer

/-! ## Values -/

/-- JavaScript values that the module can meet.  `fn name` is the built-in
function found under `name` on `Object.prototype` (e.g. `toString`). -/
inductive Val where
  | undefined
  | null
  | bool (b : Bool)
  | num (n : Int)
  | str (s : String)
  | fn (name : String)
  | arr (xs : List Val)
  | obj (es : List (String × Val))
  deriving Repr, Inhabited

mutual
/-- Decidable equality of values. -/
def Val.decEq : (a b : Val) → Decidable (a = b)
  | .undefined, .undefined => isTrue rfl
  | .null, .null => isTrue rfl
  | .bool a, .bool b =>
    if h : a = b then isTrue (by rw [h]) else isFalse (by intro e; cases e; exact h rfl)
  | .num a, .num b =>
    if h : a = b then isTrue (by rw [h]) else isFalse (by intro e; cases e; exact h rfl)
  | .str a, .str b =>
    if h : a = b then isTrue (by rw [h]) else isFalse (by intro e; cases e; exact h rfl)
  | .fn a, .fn b =>
    if h : a = b then isTrue (by rw [h]) else isFalse (by intro e; cases e; exact h rfl)
  | .arr a, .arr b =>
    match Val.decEqList a b with
    | isTrue h => isTrue (by rw [h])
    | isFalse h => isFalse (by intro e; cases e; exact h rfl)
  | .obj a, .obj b =>
    match Val.decEqEntries a b with
    | isTrue h => isTrue (by rw [h])
    | isFalse h => isFalse (by intro e; cases e; exact h rfl)
  | .undefined, .null | .undefined, .bool _ | .undefined, .num _ | .undefined, .str _
  | .undefined, .fn _ | .undefined, .arr _ | .undefined, .obj _
  | .null, .undefined | .null, .bool _ | .null, .num _ | .null, .str _
  | .null, .fn _ | .null, .arr _ | .null, .obj _
  | .bool _, .undefined | .bool _, .null | .bool _, .num _ | .bool _, .str _
  | .bool _, .fn _ | .bool _, .arr _ | .bool _, .obj _
  | .num _, .undefined | .num _, .null | .num _, .bool _ | .num _, .str _
  | .num _, .fn _ | .num _, .arr _ | .num _, .obj _
  | .str _, .undefined | .str _, .null | .str _, .bool _ | .str _, .num _
  | .str _, .fn _ | .str _, .arr _ | .str _, .obj _
  | .fn _, .undefined | .fn _, .null | .fn _, .bool _ | .fn _, .num _
  | .fn _, .str _ | .fn _, .arr _ | .fn _, .obj _
  | .arr _, .undefined | .arr _, .null | .arr _, .bool _ | .arr _, .num _
  | .arr _, .str _ | .arr _, .fn _ | .arr _, .obj _
  | .obj _, .undefined | .obj _, .null | .obj _, .bool _ | .obj _, .num _
  | .obj _, .str _ | .obj _, .fn _ | .obj _, .arr _ => isFalse (by intro e; cases e)
/-- Decidable equality of lists of values. -/
def Val.decEqList : (a b : List Val) → Decidable (a = b)
  | [], [] => isTrue rfl
  | [], _ :: _ => isFalse (by intro e; cases e)
  | _ :: _, [] => isFalse (by intro e; cases e)
  | x :: xs, y :: ys =>
    match Val.decEq x y, Val.decEqList xs ys with
    | isTrue h1, isTrue h2 => isTrue (by rw [h1, h2])
    | isFalse h, _ => isFalse (by intro e; cases e; exact h rfl)
    | _, isFalse h => isFalse (by intro e; cases e; exact h rfl)
/-- Decidable equality of property lists. -/
def Val.decEqEntries : (a b : List (String × Val)) → Decidable (a = b)
  | [], [] => isTrue rfl
  | [], _ :: _ => isFalse (by intro e; cases e)
  | _ :: _, [] => isFalse (by intro e; cases e)
  | (k, x) :: xs, (l, y) :: ys =>
    if hk : k = l then
      match Val.decEq x y, Val.decEqEntries xs ys with
      | isTrue h1, isTrue h2 => isTrue (by rw [hk, h1, h2])
      | isFalse h, _ => isFalse (by intro e; cases e; exact h rfl)
      | _, isFalse h => isFalse (by intro e; cases e; exact h rfl)
    else isFalse (by intro e; cases e; exact hk rfl)
end

instance : DecidableEq Val := Val.decEq

/-- JavaScript truthiness (`undefined`, `null`, `false`, `0` and `''` are
falsy). -/
def truthy : Val → Bool
  | .undefined => false
  | .null => false
  | .bool b => b
  | .num n => n != 0
  | .str s => s != ""
  | .fn _ => true
  | .arr _ => true
  | .obj _ => true

/-- lodash `_.isObject`: true of objects, arrays and functions. -/
def isObject : Val → Bool
  | .fn _ => true
  | .arr _ => true
  | .obj _ => true
  | _ => false

/-- The scalars of JSON: `null`, booleans, numbers and strings. -/
def isScalar : Val → Bool
  | .null => true
  | .bool _ => true
  | .num _ => true
  | .str _ => true
  | _ => false

/-- The array index denoted by a property name: `some n` when `key` is the
canonical decimal form of an integer `n < 2^32 - 1`. -/
def arrayIndex (key : String) : Option Nat :=
  match key.toList with
  | [] => none
  | c :: cs =>
    if (c :: cs).all Char.isDigit && (c != '0' || cs.isEmpty) then
      let n := (c :: cs).foldl (fun acc d => 10 * acc + (d.toNat - 48)) 0
      if n < 4294967295 then some n else none
    else none

/-- The enumeration order of property names, as a strict order: an array
index comes before every larger index and before every name that is not an
index; names that are not indices are enumerated in creation order. -/
def keyBefore (a b : String) : Bool :=
  match arrayIndex a, arrayIndex b with
  | some i, some j => decide (i < j)
  | some _, none => true
  | none, _ => false

/-- The properties are listed in enumeration order: no property comes after one
that it has to precede. -/
def Canonical (es : List (String × Val)) : Prop :=
  es.Pairwise fun e f => keyBefore f.1 e.1 = false

instance (es : List (String × Val)) : Decidable (Canonical es) := by
  unfold Canonical
  infer_instance

/-- The own property `key` of an object, if it has one. -/
def getOwn (es : List (String × Val)) (key : String) : Option Val :=
  match es with
  | [] => none
  | (k, v) :: rest => if k = key then some v else getOwn rest key

/-- The assignment `object[key] = value`: an existing property keeps its
place, a new property is enumerated after the properties that it does not have
to precede. -/
def setProp (es : List (String × Val)) (key : String) (value : Val) :
    List (String × Val) :=
  match es with
  | [] => [(key, value)]
  | (k, v) :: rest =>
    if k = key then (k, value) :: rest
    else if keyBefore key k then (key, value) :: (k, v) :: rest
    else (k, v) :: setProp rest key value

/-- The statement `delete object[key]`. -/
def deleteProp (es : List (String × Val)) (key : String) : List (String × Val) :=
  es.filter (fun e => e.1 != key)

/-- The property names that every plain object inherits from
`Object.prototype`. -/
def inheritedNames : List String :=
  ["constructor", "hasOwnProperty", "isPrototypeOf", "propertyIsEnumerable",
   "toLocaleString", "toString", "valueOf", "__defineGetter__", "__defineSetter__",
   "__lookupGetter__", "__lookupSetter__", "__proto__"]

/-- The property read `object[key]` on a plain object: the own property, else
the inherited built-in, else `undefined`. -/
def getProp (es : List (String × Val)) (key : String) : Val :=
  match getOwn es key with
  | some v => v
  | none => if key ∈ inheritedNames then .fn key else .undefined

/-! ## `sortFiles` -/

/-- The value of `(o.match(/\//g) || []).length`: the number of `/` in `o`. -/
def slashCount (o : String) : Nat :=
  (o.toList.filter (fun c => c == '/')).length

/-- Insertion of `a` in front of the first element whose criterion is not
smaller than the criterion of `a`. -/
def orderedInsert {α : Type} (f : α → Nat) (a : α) : List α → List α
  | [] => [a]
  | b :: l => if f a ≤ f b then a :: b :: l else b :: orderedInsert f a l

/-- lodash `_.sortBy(collection, iteratee)` for a numeric iteratee: the
elements in ascending order of `iteratee`, elements of equal criterion in
their original order (lodash breaks ties by the original index).  Every stable
sort computes this function; the model is insertion sort from the right. -/
def sortBy {α : Type} (iteratee : α → Nat) : List α → List α
  | [] => []
  | a :: l => orderedInsert iteratee a (sortBy iteratee l)

/-- Source lines 32-37: `_.sortBy(files, o => (o.match(/\//g) || []).length)`. -/
def sortFiles (files : List String) : List String :=
  sortBy slashCount files

/-! ## Paths and JSON documents -/

/-- One step of a path into a document: a property name of a mapping or an
index of an array. -/
inductive Step where
  | key (k : String)
  | idx (i : Nat)
  deriving Repr, DecidableEq

/-- The value one step below `v`, if there is one. -/
def child : Val → Step → Option Val
  | .obj es, .key k => getOwn es k
  | .arr xs, .idx i => xs[i]?
  | _, _ => none

/-- The value found in `v` at the end of a path. -/
def getPath (v : Val) : List Step → Option Val
  | [] => some v
  | s :: rest => (child v s).bind fun w => getPath w rest

mutual
/-- A parsed JSON document: scalars, arrays and mappings, the keys of every
mapping pairwise different and in enumeration order. -/
def isJson : Val → Bool
  | .null => true
  | .bool _ => true
  | .num _ => true
  | .str _ => true
  | .arr xs => isJsonList xs
  | .obj es => decide ((es.map Prod.fst).Nodup ∧ Canonical es) && isJsonEntries es
  | _ => false
/-- Every element is a JSON document. -/
def isJsonList : List Val → Bool
  | [] => true
  | x :: xs => isJson x && isJsonList xs
/-- Every property value is a JSON document. -/
def isJsonEntries : List (String × Val) → Bool
  | [] => true
  | (_, v) :: es => isJson v && isJsonEntries es
end

/-- A fragment that is a mapping, as the `data.json` files are. -/
def isMapping : Val → Bool
  | .obj _ => true
  | _ => false

/-! ## The merge loop of `createFinalDataJsonFiles` (lodash `_.merge`) -/

/-- lodash `assignMergeValue(object, key, value)`: assigns `value` unless it is
`undefined` and `key in object`.  (The test `eq(object[key], value)` only skips
assignments that would not change the object.) -/
def assignMergeValue (object : List (String × Val)) (key : String) (value : Val) :
    List (String × Val) :=
  match value with
  | .undefined =>
    if (getOwn object key).isSome || decide (key ∈ inheritedNames) then object
    else setProp object key .undefined
  | v => setProp object key v

/-- What `object[key]` holds as own property after `assignMergeValue`. -/
def assignedProp (objValue : Option Val) (key : String) (value : Val) : Option Val :=
  match value with
  | .undefined =>
    if objValue.isSome || decide (key ∈ inheritedNames) then objValue else some .undefined
  | v => some v

/-- The value stored at an array index by `assignMergeValue`. -/
def assignedElem (objValue : Option Val) (value : Val) : Val :=
  match value with
  | .undefined => objValue.getD .undefined
  | v => v

/-- The length of an array-like object (lodash `isArrayLike`): the own
property `length` when it is an integer between `0` and
`Number.MAX_SAFE_INTEGER`. -/
def arrayLikeLength (es : List (String × Val)) : Option Nat :=
  match getOwn es "length" with
  | some (.num n) => if 0 ≤ n ∧ n ≤ 9007199254740991 then some n.toNat else none
  | _ => none

/-- lodash `copyArray(object)` of an array-like object of length `n`: the
values `object[0]`, ..., `object[n-1]`. -/
def copyArray (es : List (String × Val)) (n : Nat) : List Val :=
  (List.range n).map fun i => getProp es (toString i)

/-- The assignment `array[i] = value`.  Beyond the end the array grows; the
positions that are skipped are holes, which read as `undefined` and for which
`JSON.stringify` writes `null` as it does for `undefined`. -/
def setElem (array : List Val) (i : Nat) (value : Val) : List Val :=
  if i < array.length then array.set i value
  else array ++ List.replicate (i - array.length) .undefined ++ [value]

/-- The property names that the model does not follow onto an array: lodash
treats `__proto__` specially, an assignment to `length` resizes the array or
throws, and an own property `constructor` makes `_.cloneDeep` throw. -/
def specialNames : List String :=
  ["__proto__", "length", "constructor"]

mutual
/-- A value with no function inside and no mapping that has one of the
`specialNames` as a key. -/
def isTame : Val → Bool
  | .fn _ => false
  | .arr xs => isTameList xs
  | .obj es => isTameEntries es
  | _ => true
/-- Every element is tame. -/
def isTameList : List Val → Bool
  | [] => true
  | x :: xs => isTame x && isTameList xs
/-- Every property has an ordinary name and holds a tame value. -/
def isTameEntries : List (String × Val) → Bool
  | [] => true
  | (k, v) :: es => !decide (k ∈ specialNames) && isTame v && isTameEntries es
end

mutual
/-- The value that lodash `baseMerge` computes for one key from the value
`objValue` that the destination holds there (`none`: no own property) and the
source value (`baseMergeDeep` for objects and arrays, the source value itself
for the rest).
* A plain source object is merged into the destination object, into the
  destination array itself (`mergeOntoArray`), or into a fresh `{}` when the
  destination holds a scalar, a function or nothing.
* A source array is merged index by index into the destination array, into the
  `copyArray` of an array-like destination object (`Array(n)` throws for
  `n > 2^32 - 1`: `none`), or else into a fresh `[]`.
* Functions never occur in fragments (`none`). -/
def mergeValue (objValue : Option Val) : Val → Option Val
  | .obj ss =>
    match objValue with
    | some (.obj os) => (mergeProps os ss).map Val.obj
    | some (.arr os) => (mergeOntoArray os ss).map Val.arr
    | _ => (mergeProps [] ss).map Val.obj
  | .arr ss =>
    match objValue with
    | some (.arr os) => (mergeElems os ss).map Val.arr
    | some (.obj os) =>
      match arrayLikeLength os with
      | some n =>
        if n ≤ 4294967295 then (mergeElems (copyArray os n) ss).map Val.arr else none
      | none => (mergeElems [] ss).map Val.arr
    | _ => (mergeElems [] ss).map Val.arr
  | .fn _ => none
  | v => some v
/-- lodash `baseMerge(object, source)` for a plain source object: every
property of the source, in turn, is merged into the destination.  The property
name `__proto__` is outside the model. -/
def mergeProps (object : List (String × Val)) :
    List (String × Val) → Option (List (String × Val))
  | [] => some object
  | (key, srcValue) :: rest =>
    if key = "__proto__" then none
    else (mergeValue (getOwn object key) srcValue).bind fun newValue =>
      mergeProps (assignMergeValue object key newValue) rest
/-- lodash `baseMerge(array, source)` for a source array: index by index. -/
def mergeElems (array : List Val) : List Val → Option (List Val)
  | [] => some array
  | srcValue :: rest =>
    (mergeValue array.head? srcValue).bind fun newValue =>
      (mergeElems array.tail rest).map fun r =>
        assignedElem array.head? newValue :: r
/-- lodash `baseMerge(array, source)` for a plain source object whose
destination is an array (`baseMergeDeep` takes the array itself as the new
value when the source value is a plain object): every property of the source,
in turn, is merged into the array.
* A property named by an array index is merged into the element at that index
  and assigned there.
* A property of another name is set on the array as a named property.  Named
  properties of an array are read by a later merge under the same name only:
  `_.cloneDeep`, `_.each` and `JSON.stringify` (source lines 63-68) go through
  the indices of an array.  `Val` does not carry them, so the array is left as
  it is; the model follows this for a tame source value, which can be merged
  into whatever the name holds without an exception.
* The `specialNames` are outside the model (`none`). -/
def mergeOntoArray (array : List Val) : List (String × Val) → Option (List Val)
  | [] => some array
  | (key, srcValue) :: rest =>
    match arrayIndex key with
    | some i =>
      (mergeValue array[i]? srcValue).bind fun newValue =>
        mergeOntoArray (setElem array i (assignedElem array[i]? newValue)) rest
    | none =>
      if key ∈ specialNames || !isTame srcValue then none
      else mergeOntoArray array rest
end

/-- The properties that `baseMerge` reads from a top-level source: those of a
mapping, the indices of an array, none of a number or boolean.  A non-empty
string (it would contribute its characters) is outside the model. -/
def sourceEntries : Val → Option (List (String × Val))
  | .obj ss => some ss
  | .arr xs => some (xs.enum.map fun p => (toString p.1, p.2))
  | .str _ => none
  | .fn _ => none
  | _ => some []

/-- lodash `_.merge(object, ...sources)`: every truthy source, in turn, is
merged into `object`. -/
def merge (object : List (String × Val)) : List Val → Option (List (String × Val))
  | [] => some object
  | source :: rest =>
    if truthy source then
      ((sourceEntries source).bind (mergeProps object)).bind fun o => merge o rest
    else merge object rest

/-- Source lines 59-61, the loop
`_.forEach(files, file => { gameData = _.merge({}, gameData, require(file)) })`
started with `gameData`; `fragments` are the values of `require(file)` in the
order of `files`. -/
def mergeLoop (gameData : Val) : List Val → Option Val
  | [] => some gameData
  | fragment :: rest =>
    (merge [] [gameData, fragment]).bind fun o => mergeLoop (.obj o) rest

/-- The merged document `gameData` of `createFinalDataJsonFiles` after the
loop of source lines 59-61 (`let gameData` is `undefined` before it). -/
def mergeFragments (fragments : List Val) : Option Val :=
  mergeLoop .undefined fragments

mutual
/-- A document made of scalars and mappings only, no mapping with the key
`__proto__`: on such fragments the merge stays inside the model. -/
def isPlain : Val → Bool
  | .null => true
  | .bool _ => true
  | .num _ => true
  | .str _ => true
  | .obj es => isPlainEntries es
  | _ => false
/-- Every property is named otherwise than `__proto__` and holds a plain
document. -/
def isPlainEntries : List (String × Val) → Bool
  | [] => true
  | (k, v) :: es => (k != "__proto__") && isPlain v && isPlainEntries es
end

/-! ## lodash `_.camelCase` -/

/-- The ordinal suffix that lodash accepts after a number ending in the digit
`d`: `1st`, `2nd`, `3rd` and `th` after another digit (`upper`: the upper-case
forms `1ST`, ...). -/
def ordinalSuffix (upper : Bool) (d : Char) : List Char :=
  let s := if d = '1' then ['s', 't'] else if d = '2' then ['n', 'd']
    else if d = '3' then ['r', 'd'] else ['t', 'h']
  if upper then s.map Char.toUpper else s

/-- The lookahead that ends an ordinal: the end of the string, a character that
is neither a letter nor a digit, or a letter of the other case. -/
def ordinalEnds (upper : Bool) (rest : List Char) : Bool :=
  match rest with
  | [] => true
  | c :: _ => !(c.isDigit || (if upper then c.isUpper else c.isLower))

/-- The word that lodash `unicodeWords` matches at a position, and the rest of
the string behind it; `none` when the position holds a separator.
* lower-case letter: the run of lower-case letters;
* upper-case letter followed by a lower-case letter: that letter and the run
  of lower-case letters;
* run of upper-case letters: the whole run, but without its last letter when a
  lower-case letter follows (`XMLHttp` gives `XML`, `Http`);
* digit: the run of digits, with the ordinal suffix when one follows. -/
def nextWord (c : Char) (cs : List Char) : Option (List Char) × List Char :=
  if c.isLower then
    (some (c :: cs.takeWhile Char.isLower), cs.dropWhile Char.isLower)
  else if c.isUpper then
    let us := cs.takeWhile Char.isUpper
    let r := cs.dropWhile Char.isUpper
    match r with
    | l :: _ =>
      if l.isLower then
        match us.reverse with
        | [] => (some (c :: r.takeWhile Char.isLower), r.dropWhile Char.isLower)
        | u :: pre => (some (c :: pre.reverse), u :: r)
      else (some (c :: us), r)
    | [] => (some (c :: us), r)
  else if c.isDigit then
    let ds := c :: cs.takeWhile Char.isDigit
    let r := cs.dropWhile Char.isDigit
    let d := ds.getLast?.getD c
    if r.take 2 = ordinalSuffix true d && ordinalEnds true (r.drop 2) then
      (some (ds ++ r.take 2), r.drop 2)
    else if r.take 2 = ordinalSuffix false d && ordinalEnds false (r.drop 2) then
      (some (ds ++ r.take 2), r.drop 2)
    else (some ds, r)
  else (none, cs)

/-- The words of a string, scanned from the left; `fuel` bounds the number of
positions visited (every step consumes a character). -/
def wordsAux : Nat → List Char → List (List Char)
  | 0, _ => []
  | _ + 1, [] => []
  | fuel + 1, c :: cs =>
    match nextWord c cs with
    | (some w, rest) => w :: wordsAux fuel rest
    | (none, rest) => wordsAux fuel rest

/-- lodash `_.words` on an ASCII string (where `asciiWords` and `unicodeWords`
agree). -/
def words (cs : List Char) : List (List Char) :=
  wordsAux cs.length cs

/-- lodash `capitalize` of a lower-case word. -/
def capitalize : List Char → List Char
  | [] => []
  | c :: cs => c.toUpper :: cs

/-- lodash `_.camelCase(string)`: the apostrophes are removed, the string is
split into words, every word is put in lower case, every word but the first is
capitalized, and the words are joined.

The model is lodash 4.17 on ASCII strings, on which `deburr` is the identity.
A character outside ASCII is treated here as a separator, which is not what
lodash does: statements about all keys are made for an arbitrary function in
the place of `_.camelCase`, and this function is applied to ASCII keys. -/
def camelCase (key : String) : String :=
  let ws := (words (key.toList.filter fun c => c != Char.ofNat 39)).map
    fun w => w.map Char.toLower
  match ws with
  | [] => ""
  | w :: rest => String.mk (w ++ (rest.map capitalize).flatten)

/-! ## `formatKeyAsCamelCase` -/

/-- The nesting depth of a value. -/
def depth : Val → Nat
  | .arr xs => depthList xs + 1
  | .obj es => depthEntries es + 1
  | _ => 0
where
  /-- The largest depth of an element. -/
  depthList : List Val → Nat
    | [] => 0
    | x :: xs => max (depth x) (depthList xs)
  /-- The largest depth of a property value. -/
  depthEntries : List (String × Val) → Nat
    | [] => 0
    | (_, v) :: es => max (depth v) (depthEntries es)

/-- A loop `for (k of keys) state = step(state, k)` whose body can fail. -/
def forEachM {σ κ : Type} (step : σ → κ → Option σ) : σ → List κ → Option σ
  | s, [] => some s
  | s, k :: ks => (step s k).bind fun t => forEachM step t ks

/-- Element-wise application of a function that can fail. -/
def traverse {α β : Type} (f : α → Option β) : List α → Option (List β)
  | [] => some []
  | a :: l => (f a).bind fun b => (traverse f l).map fun r => b :: r

/-- Source lines 98-105, the value assigned to `collection[ccKey]`, where
`format` stands for the recursive call, `o` is the value under `key`,
`oldValue` is `collection[ccKey]` and `same` tells whether `ccKey` is `key`.
Then `oldValue` is the very object `o`, which the first call of `format` has
already renamed in place when the second call receives it. -/
def formatValue (format : Val → Option Val) (same : Bool) (o oldValue : Val) :
    Option Val :=
  if isObject o then
    (format o).bind fun formattedValue =>
      if truthy oldValue then format (if same then formattedValue else oldValue)
      else some formattedValue
  else some (if truthy oldValue then oldValue else o)

/-- Source lines 95-105, one call of the iteratee for a property name `key`:
`ccKey = camelCase(key)`, `oldValue = collection[ccKey]`, `delete
collection[key]`, `collection[ccKey] = ...`.  Assigning to `__proto__` is
outside the model. -/
def formatKey (format : Val → Option Val) (camelCase : String → String)
    (collection : List (String × Val)) (key : String) :
    Option (List (String × Val)) :=
  let ccKey := camelCase key
  if ccKey = "__proto__" then none
  else
    (formatValue format (ccKey == key) (getProp collection key)
        (getProp collection ccKey)).map
      fun v => setProp (deleteProp collection key) ccKey v

/-- `formatKeyAsCamelCase` with a bound on the nesting of calls.
`_.each(collection, iteratee)` returns `collection` after calling the iteratee
* on every index of an array (`key` is a number, so `ccKey` is `key`);
* on the indices `0 .. length-1` of an array-like object, one with a property
  `length` that is a valid length;
* on every own property name of another object, in enumeration order, the
  names being read before the first call;
* never on `undefined`, `null`, a boolean, a number or a function.
A non-empty string is array-like and `delete collection[0]` throws a
`TypeError` on it in strict mode (`none`). -/
def formatAux (camelCase : String → String) : Nat → Val → Option Val
  | 0, _ => none
  | fuel + 1, collection =>
    match collection with
    | .arr xs =>
      (traverse (fun o => formatValue (formatAux camelCase fuel) true o o) xs).map Val.arr
    | .obj es =>
      match arrayLikeLength es with
      | some length =>
        (forEachM (formatKey (formatAux camelCase fuel) id) es
          ((List.range length).map toString)).map Val.obj
      | none =>
        (forEachM (formatKey (formatAux camelCase fuel) camelCase) es
          (es.map Prod.fst)).map Val.obj
    | .str s => if s = "" then some (.str s) else none
    | v => some v

/-- Source lines 93-107: `formatKeyAsCamelCase(collection)`, with the function
`_.camelCase` as a parameter.  The nesting of calls is bounded by the depth of
the collection. -/
def formatKeyAsCamelCase (camelCase : String → String) (collection : Val) :
    Option Val :=
  formatAux camelCase (depth collection + 1) collection

/-- The object after assigning the given properties, one after the other. -/
def assignAll (object es : List (String × Val)) : List (String × Val) :=
  es.foldl (fun o e => setProp o e.1 e.2) object

/-- The object built by assigning the given properties one after the other. -/
def fromEntries (es : List (String × Val)) : List (String × Val) :=
  assignAll [] es

mutual
/-- The reference renaming, "map camelCase over all keys recursively": every
array keeps its elements, renamed; every mapping is rebuilt by assigning, for
every property `k: v` in turn, the renamed `v` to `camelCase(k)`; every other
value is unchanged. -/
def renameKeys (camelCase : String → String) : Val → Val
  | .arr xs => .arr (renameKeysList camelCase xs)
  | .obj es =>
    .obj (fromEntries ((renameKeysEntries camelCase es).map
      fun e => (camelCase e.1, e.2)))
  | v => v
/-- The reference renaming of every element. -/
def renameKeysList (camelCase : String → String) : List Val → List Val
  | [] => []
  | x :: xs => renameKeys camelCase x :: renameKeysList camelCase xs
/-- The reference renaming of every property value. -/
def renameKeysEntries (camelCase : String → String) :
    List (String × Val) → List (String × Val)
  | [] => []
  | (k, v) :: es => (k, renameKeys camelCase v) :: renameKeysEntries camelCase es
end

/-! ## `createFinalDataJsonFiles` -/

/-- The hexadecimal digit of a number below 16, in lower case. -/
def hexDigit (n : Nat) : Char :=
  if n < 10 then Char.ofNat (48 + n) else Char.ofNat (87 + n)

/-- The characters that `JSON.stringify` writes for one character of a string:
the quotation mark and the backslash are escaped with a backslash, the control
characters are written as `\b`, `\f`, `\n`, `\r`, `\t` or `\u00XX`. -/
def quoteChar (c : Char) : List Char :=
  if c = Char.ofNat 34 then [Char.ofNat 92, Char.ofNat 34]
  else if c = Char.ofNat 92 then [Char.ofNat 92, Char.ofNat 92]
  else if c = Char.ofNat 8 then [Char.ofNat 92, 'b']
  else if c = Char.ofNat 12 then [Char.ofNat 92, 'f']
  else if c = Char.ofNat 10 then [Char.ofNat 92, 'n']
  else if c = Char.ofNat 13 then [Char.ofNat 92, 'r']
  else if c = Char.ofNat 9 then [Char.ofNat 92, 't']
  else if c.toNat < 32 then
    [Char.ofNat 92, 'u', '0', '0', hexDigit (c.toNat / 16), hexDigit (c.toNat % 16)]
  else [c]

/-- The JSON text of a string (`QuoteJSONString`). -/
def quote (s : String) : String :=
  String.mk (Char.ofNat 34 :: (s.toList.map quoteChar).flatten ++ [Char.ofNat 34])

mutual
/-- The text that `JSON.stringify(value, null, '\t')` writes for a value nested
under the indentation `indent`, `none` when the value is `undefined` or a
function.  A number is written in decimal (the embedding has integers only).
An array writes `null` for an element without text; a mapping leaves out a
property without text; both are written on one line when empty. -/
def serialize (indent : String) : Val → Option String
  | .undefined => none
  | .fn _ => none
  | .null => some "null"
  | .bool b => some (if b then "true" else "false")
  | .num n => some (toString n)
  | .str s => some (quote s)
  | .arr xs =>
    match serializeElems (indent ++ "\t") xs with
    | [] => some "[]"
    | parts =>
      some ("[\n" ++ indent ++ "\t" ++ (",\n" ++ indent ++ "\t").intercalate parts
        ++ "\n" ++ indent ++ "]")
  | .obj es =>
    match serializeProps (indent ++ "\t") es with
    | [] => some "\x7b\x7d"
    | parts =>
      some ("\x7b\n" ++ indent ++ "\t" ++ (",\n" ++ indent ++ "\t").intercalate parts
        ++ "\n" ++ indent ++ "\x7d")
/-- The texts of the elements of an array. -/
def serializeElems (indent : String) : List Val → List String
  | [] => []
  | x :: xs => (serialize indent x).getD "null" :: serializeElems indent xs
/-- The texts `"key": value` of the properties of a mapping, in enumeration
order. -/
def serializeProps (indent : String) : List (String × Val) → List String
  | [] => []
  | (k, v) :: es =>
    match serialize indent v with
    | none => serializeProps indent es
    | some t => (quote k ++ ": " ++ t) :: serializeProps indent es
end

/-- `JSON.stringify(value, null, '\t')`; `none` is the result `undefined`. -/
def jsonStringify (value : Val) : Option String :=
  serialize "" value

mutual
/-- lodash `_.cloneDeep(value)` of a document: a new array for every array and
a new mapping for every mapping, with the clones of the elements and property
values. -/
def cloneDeep : Val → Val
  | .arr xs => .arr (cloneDeepList xs)
  | .obj es => .obj (cloneDeepEntries es)
  | v => v
/-- The clones of the elements. -/
def cloneDeepList : List Val → List Val
  | [] => []
  | x :: xs => cloneDeep x :: cloneDeepList xs
/-- The clones of the property values. -/
def cloneDeepEntries : List (String × Val) → List (String × Val)
  | [] => []
  | (k, v) :: es => (k, cloneDeep v) :: cloneDeepEntries es
end

/-- A call `writeFile(outputFile, content)` of source lines 65-68, with the
path relative to `appPath`; `content` is `none` when `JSON.stringify` has
returned `undefined`. -/
structure WriteCall where
  outputFile : String
  content : Option String
  deriving Repr, DecidableEq

/-- Source lines 59-61 with a `require` that can throw (`none`): the loop over
the sorted files.  The result is `none` when `require` has thrown.  The state
`gameData` is `none` when lodash has left the model (or has thrown itself). -/
def requireAndMerge (require : String → Option Val) :
    Option Val → List String → Option (Option Val)
  | gameData, [] => some gameData
  | gameData, file :: rest =>
    match require file with
    | none => none
    | some fragment =>
      requireAndMerge require
        (gameData.bind fun g => (merge [] [g, fragment]).map Val.obj) rest

/-- Source lines 50-75, `createFinalDataJsonFiles(appPath)`: the calls of
`writeFile` that it makes, in order.  `dataFiles` is the result of `glob.sync`,
`require` gives the content of a fragment file (`none`: it throws).
* An exception of `require` is caught at line 69: nothing is written and the
  function returns (`some []`).
* Where the merge or the renaming leaves the model the result is `none`. -/
def createFinalDataJsonFiles (camelCase : String → String)
    (require : String → Option Val) (dataFiles : List String) :
    Option (List WriteCall) :=
  let files := sortFiles dataFiles
  match requireAndMerge require (some .undefined) files with
  | none => some []
  | some none => none
  | some (some gameData) =>
    match formatKeyAsCamelCase camelCase (cloneDeep gameData) with
    | none => none
    | some gameDataInCamelCase =>
      some [⟨"data/game-data.json", jsonStringify gameData⟩,
        ⟨"data/game-data-in-camel-case.json", jsonStringify gameDataInCamelCase⟩]

/-! ## Objects in a heap

`formatKeyAsCamelCase` renames the keys of its argument in place, and
`createFinalDataJsonFiles` serialises `gameData` after the renaming of its
clone.  To state that the renaming does not reach `gameData`, arrays and
mappings are placed in a heap: a value is a scalar or the address of a cell. -/

/-- A JavaScript value with the objects replaced by their addresses. -/
inductive HVal where
  | undefined
  | null
  | bool (b : Bool)
  | num (n : Int)
  | str (s : String)
  | fn (name : String)
  | ref (address : Nat)
  deriving Repr, DecidableEq

/-- An object in the heap: an array or a mapping (properties in enumeration
order). -/
inductive Cell where
  | arr (xs : List HVal)
  | obj (es : List (String × HVal))
  deriving Repr, DecidableEq

/-- The heap: the cell at address `a` is the element `a` of the list. -/
abbrev Heap := List Cell

/-- The values that a cell holds. -/
def cellVals : Cell → List HVal
  | .arr xs => xs
  | .obj es => es.map Prod.snd

mutual
/-- Allocation of a document: every array and mapping gets a new cell behind
the cells of its elements; the result is the new heap and the value (the
address of the document). -/
def store : Heap → Val → Heap × HVal
  | h, .undefined => (h, .undefined)
  | h, .null => (h, .null)
  | h, .bool b => (h, .bool b)
  | h, .num n => (h, .num n)
  | h, .str s => (h, .str s)
  | h, .fn name => (h, .fn name)
  | h, .arr xs =>
    match storeList h xs with
    | (h1, ys) => (h1 ++ [Cell.arr ys], .ref h1.length)
  | h, .obj es =>
    match storeEntries h es with
    | (h1, fs) => (h1 ++ [Cell.obj fs], .ref h1.length)
/-- Allocation of the elements of an array. -/
def storeList : Heap → List Val → Heap × List HVal
  | h, [] => (h, [])
  | h, x :: xs =>
    match store h x with
    | (h1, y) =>
      match storeList h1 xs with
      | (h2, ys) => (h2, y :: ys)
/-- Allocation of the property values of a mapping. -/
def storeEntries : Heap → List (String × Val) → Heap × List (String × HVal)
  | h, [] => (h, [])
  | h, (k, v) :: es =>
    match store h v with
    | (h1, y) =>
      match storeEntries h1 es with
      | (h2, fs) => (h2, (k, y) :: fs)
end

/-- The document found in the heap under a value, read to the given depth. -/
def load (h : Heap) : Nat → HVal → Option Val
  | _, .undefined => some .undefined
  | _, .null => some .null
  | _, .bool b => some (.bool b)
  | _, .num n => some (.num n)
  | _, .str s => some (.str s)
  | _, .fn name => some (.fn name)
  | 0, .ref _ => none
  | fuel + 1, .ref a =>
    match h[a]? with
    | some (.arr xs) => (traverse (load h fuel) xs).map Val.arr
    | some (.obj es) =>
      (traverse (fun e => (load h fuel e.2).map fun v => (e.1, v)) es).map Val.obj
    | none => none

/-- An address is reachable from a value: the value is the address, or the
address is reachable from a value held by the cell at the value's address. -/
inductive Reach (h : Heap) : HVal → Nat → Prop where
  | here (a : Nat) : Reach h (.ref a) a
  | step (a : Nat) (cell : Cell) (x : HVal) (b : Nat) :
      h[a]? = some cell → x ∈ cellVals cell → Reach h x b → Reach h (.ref a) b

/-- JavaScript truthiness of a heap value (every object is truthy). -/
def hTruthy : HVal → Bool
  | .undefined => false
  | .null => false
  | .bool b => b
  | .num n => n != 0
  | .str s => s != ""
  | .fn _ => true
  | .ref _ => true

/-- lodash `_.isObject` of a heap value. -/
def hIsObject : HVal → Bool
  | .fn _ => true
  | .ref _ => true
  | _ => false

/-- The own property `key` of a mapping cell. -/
def hGetOwn (es : List (String × HVal)) (key : String) : Option HVal :=
  match es with
  | [] => none
  | (k, v) :: rest => if k = key then some v else hGetOwn rest key

/-- The property read `object[key]` on a mapping cell. -/
def hGetProp (es : List (String × HVal)) (key : String) : HVal :=
  match hGetOwn es key with
  | some v => v
  | none => if key ∈ inheritedNames then .fn key else .undefined

/-- The assignment `object[key] = value` on a mapping cell (see `setProp`). -/
def hSetProp (es : List (String × HVal)) (key : String) (value : HVal) :
    List (String × HVal) :=
  match es with
  | [] => [(key, value)]
  | (k, v) :: rest =>
    if k = key then (k, value) :: rest
    else if keyBefore key k then (key, value) :: (k, v) :: rest
    else (k, v) :: hSetProp rest key value

/-- The statement `delete object[key]` on a mapping cell. -/
def hDeleteProp (es : List (String × HVal)) (key : String) : List (String × HVal) :=
  es.filter (fun e => e.1 != key)

/-- The length of an array-like mapping cell (see `arrayLikeLength`). -/
def hArrayLikeLength (es : List (String × HVal)) : Option Nat :=
  match hGetOwn es "length" with
  | some (.num n) => if 0 ≤ n ∧ n ≤ 9007199254740991 then some n.toNat else none
  | _ => none

/-- The statement `delete collection[key]` on the mapping at address `a`. -/
def deleteAt (h : Heap) (a : Nat) (key : String) : Option Heap :=
  match h[a]? with
  | some (.obj es) => some (h.set a (.obj (hDeleteProp es key)))
  | _ => none

/-- The statement `collection[key] = value` on the mapping at address `a`. -/
def assignAt (h : Heap) (a : Nat) (key : String) (value : HVal) : Option Heap :=
  match h[a]? with
  | some (.obj es) => some (h.set a (.obj (hSetProp es key value)))
  | _ => none

/-- The statement `collection[i] = value` on the array at address `a`
(`delete collection[i]` is the assignment of `undefined`: an empty slot reads
as `undefined`). -/
def assignIndexAt (h : Heap) (a : Nat) (i : Nat) (value : HVal) : Option Heap :=
  match h[a]? with
  | some (.arr xs) => some (h.set a (.arr (xs.set i value)))
  | _ => none

/-- Source lines 95-105 in the heap, one call of the iteratee for the property
name `key` of the mapping at address `a`.  `format` stands for the recursive
call, which renames its argument in place and returns it: `formattedValue` is
`o`, and `formatKeyAsCamelCase(oldValue)` is `oldValue`. -/
def formatKeyInPlace (format : Heap → HVal → Option Heap) (camelCase : String → String)
    (a : Nat) (h : Heap) (key : String) : Option Heap :=
  match h[a]? with
  | some (.obj es) =>
    let ccKey := camelCase key
    if ccKey = "__proto__" then none
    else
      let o := hGetProp es key
      let oldValue := hGetProp es ccKey
      if hIsObject o then
        (format h o).bind fun h1 =>
          (deleteAt h1 a key).bind fun h2 =>
            (if hTruthy oldValue then format h2 oldValue else some h2).bind fun h3 =>
              assignAt h3 a ccKey (if hTruthy oldValue then oldValue else o)
      else
        (deleteAt h a key).bind fun h2 =>
          assignAt h2 a ccKey (if hTruthy oldValue then oldValue else o)
  | _ => none

/-- Source lines 95-105 in the heap, one call of the iteratee for the index `i`
of the array at address `a` (`ccKey` is `key`, `oldValue` is `o`). -/
def formatIndexInPlace (format : Heap → HVal → Option Heap) (a : Nat) (h : Heap)
    (i : Nat) : Option Heap :=
  match h[a]? with
  | some (.arr xs) =>
    let o := xs.getD i .undefined
    if hIsObject o then
      (format h o).bind fun h1 =>
        (assignIndexAt h1 a i .undefined).bind fun h2 =>
          (if hTruthy o then format h2 o else some h2).bind fun h3 =>
            assignIndexAt h3 a i o
    else
      (assignIndexAt h a i .undefined).bind fun h2 => assignIndexAt h2 a i o
  | _ => none

/-- `formatKeyAsCamelCase(collection)` in the heap, with a bound on the nesting
of calls: the heap after the call (the call returns `collection`).  See
`formatAux` for the cases of `_.each`. -/
def formatInPlaceAux (camelCase : String → String) : Nat → Heap → HVal → Option Heap
  | 0, _, _ => none
  | fuel + 1, h, collection =>
    match collection with
    | .ref a =>
      match h[a]? with
      | some (.arr xs) =>
        forEachM (formatIndexInPlace (formatInPlaceAux camelCase fuel) a) h
          (List.range xs.length)
      | some (.obj es) =>
        match hArrayLikeLength es with
        | some length =>
          forEachM (formatKeyInPlace (formatInPlaceAux camelCase fuel) id a) h
            ((List.range length).map toString)
        | none =>
          forEachM (formatKeyInPlace (formatInPlaceAux camelCase fuel) camelCase a) h
            (es.map Prod.fst)
      | none => none
    | .str s => if s = "" then some h else none
    | _ => some h

/-- `formatKeyAsCamelCase(collection)` in the heap; the nesting of calls is
bounded by the number of cells. -/
def formatInPlace (camelCase : String → String) (h : Heap) (collection : HVal) :
    Option Heap :=
  formatInPlaceAux camelCase (h.length + 1) h collection

/-- Every address in the value is at least `N`. -/
def Above (N : Nat) : HVal → Prop
  | .ref a => N ≤ a
  | _ => True

/-- Every address in the value is below `N`. -/
def Below (N : Nat) : HVal → Prop
  | .ref a => a < N
  | _ => True

/-- The cells from address `N` on hold addresses from `N` on only. -/
def ClosedAbove (h : Heap) (N : Nat) : Prop :=
  ∀ a cell, N ≤ a → h[a]? = some cell → ∀ x ∈ cellVals cell, Above N x

/-- The cells below address `N` hold addresses below `N` only. -/
def ClosedBelow (h : Heap) (N : Nat) : Prop :=
  ∀ a cell, a < N → h[a]? = some cell → ∀ x ∈ cellVals cell, Below N x

/-- The heap `h'` has the cells of `h` below `N`, and its cells from `N` on
hold addresses from `N` on only. -/
def FramePres (N : Nat) (h h' : Heap) : Prop :=
  (∀ b, b < N → h'[b]? = h[b]?) ∧ ClosedAbove h' N

/-- The call `format` changes no cell below `N` when it is given an object
from `N` on. -/
def FormatOK (N : Nat) (format : Heap → HVal → Option Heap) : Prop :=
  ∀ h x h', ClosedAbove h N → Above N x → format h x = some h' → FramePres N h h'

/-- A key that `formatKeyAsCamelCase` renames to its camelCase form without
meeting another property: its camelCase form is a fixed point of `camelCase`,
neither the key nor its camelCase form is `length` (an object with a numeric
`length` is iterated as an array), the form is not `__proto__`, and the form is
not a name inherited from `Object.prototype` unless it is the key itself. -/
def keyRenamable (camelCase : String → String) (k : String) : Bool :=
  decide (camelCase (camelCase k) = camelCase k) && decide (k ≠ "length") &&
    decide (camelCase k ≠ "length") && decide (camelCase k ≠ "__proto__") &&
    (decide (camelCase k = k) || !decide (camelCase k ∈ inheritedNames))

mutual
/-- A document that `formatKeyAsCamelCase` renames key by key: in every
mapping, at every depth, the properties are in enumeration order, no two keys
have the same camelCase form, and every key is `keyRenamable`. -/
def renamable (camelCase : String → String) : Val → Bool
  | .arr xs => renamableList camelCase xs
  | .obj es =>
    decide (Canonical es) && decide ((es.map fun e => camelCase e.1).Nodup) &&
      es.all (fun e => keyRenamable camelCase e.1) && renamableEntries camelCase es
  | _ => true
/-- Every element is `renamable`. -/
def renamableList (camelCase : String → String) : List Val → Bool
  | [] => true
  | x :: xs => renamable camelCase x && renamableList camelCase xs
/-- Every property value is `renamable`. -/
def renamableEntries (camelCase : String → String) : List (String × Val) → Bool
  | [] => true
  | (_, v) :: es => renamable camelCase v && renamableEntries camelCase es
end

/-! ## Lemmas on `sortBy` -/

section SortLemmas

variable {α : Type} (f : α → Nat)

theorem orderedInsert_perm (a : α) (l : List α) :
    (orderedInsert f a l).Perm (a :: l) := by
  induction l with
  | nil => exact List.Perm.refl _
  | cons b l ih =>
    unfold orderedInsert
    split
    · exact List.Perm.refl _
    · exact (List.Perm.cons b ih).trans (List.Perm.swap a b l)

theorem sortBy_perm (l : List α) : (sortBy f l).Perm l := by
  induction l with
  | nil => exact List.Perm.refl _
  | cons a l ih =>
    exact (orderedInsert_perm f a (sortBy f l)).trans (List.Perm.cons a ih)

theorem orderedInsert_pairwise (a : α) (l : List α)
    (h : l.Pairwise (fun x y => f x ≤ f y)) :
    (orderedInsert f a l).Pairwise (fun x y => f x ≤ f y) := by
  induction l with
  | nil => simp [orderedInsert]
  | cons b l ih =>
    have hb := List.pairwise_cons.1 h
    unfold orderedInsert
    split
    · rename_i hab
      refine List.pairwise_cons.2 ⟨?_, h⟩
      intro y hy
      rcases List.mem_cons.1 hy with rfl | hy
      · exact hab
      · exact le_trans hab (hb.1 y hy)
    · rename_i hab
      refine List.pairwise_cons.2 ⟨?_, ih hb.2⟩
      intro y hy
      rcases List.mem_cons.1 ((orderedInsert_perm f a l).subset hy) with rfl | hy
      · exact Nat.le_of_lt (Nat.lt_of_not_le hab)
      · exact hb.1 y hy

theorem sortBy_pairwise (l : List α) :
    (sortBy f l).Pairwise (fun x y => f x ≤ f y) := by
  induction l with
  | nil => exact List.Pairwise.nil
  | cons a l ih => exact orderedInsert_pairwise f a _ ih

theorem orderedInsert_filter_ne (a : α) (l : List α) (c : Nat) (h : f a ≠ c) :
    (orderedInsert f a l).filter (fun x => decide (f x = c))
      = l.filter (fun x => decide (f x = c)) := by
  induction l with
  | nil => simp [orderedInsert, h]
  | cons b l ih =>
    unfold orderedInsert
    split
    · simp [List.filter_cons, h]
    · simp only [List.filter_cons, ih]

theorem orderedInsert_filter_eq (a : α) (l : List α)
    (hl : l.Pairwise (fun x y => f x ≤ f y)) :
    (orderedInsert f a l).filter (fun x => decide (f x = f a))
      = a :: l.filter (fun x => decide (f x = f a)) := by
  induction l with
  | nil => simp [orderedInsert]
  | cons b l ih =>
    have hb := List.pairwise_cons.1 hl
    unfold orderedInsert
    split
    · simp [List.filter_cons]
    · rename_i hab
      have hne : f b ≠ f a := fun e => hab (le_of_eq e.symm)
      simp only [List.filter_cons, hne, decide_False, Bool.false_eq_true, if_false]
      exact ih hb.2

theorem sortBy_filter (l : List α) (c : Nat) :
    (sortBy f l).filter (fun x => decide (f x = c))
      = l.filter (fun x => decide (f x = c)) := by
  induction l with
  | nil => rfl
  | cons a l ih =>
    show (orderedInsert f a (sortBy f l)).filter _ = _
    by_cases h : f a = c
    · subst h
      rw [orderedInsert_filter_eq f a _ (sortBy_pairwise f l), ih]
      simp [List.filter_cons]
    · rw [orderedInsert_filter_ne f a _ c h, ih]
      simp [List.filter_cons, h]

end SortLemmas

/-! ## Theorems on `sortFiles` -/

/-- C3: the result of `sortFiles` is ascending in the number of `/`: of every
two adjacent elements of the result the first has at most as many `/` as the
second; and the documented example `['a/b/c', 'a/b', 'a/b/c/d']` is sorted to
`['a/b', 'a/b/c', 'a/b/c/d']`. -/
theorem sortFiles_ascending :
    (∀ files : List String,
        (sortFiles files).Chain' (fun p q => slashCount p ≤ slashCount q)) ∧
      sortFiles ["a/b/c", "a/b", "a/b/c/d"] = ["a/b", "a/b/c", "a/b/c/d"] := by
  refine ⟨fun files => ?_, by decide⟩
  exact List.Pairwise.chain' (sortBy_pairwise slashCount files)

/-- C4: `sortFiles` is stable: for every number of `/`, the paths with that
number of `/` appear in the result in the same relative order as in the
input. -/
theorem sortFiles_stable (files : List String) (c : Nat) :
    (sortFiles files).filter (fun p => decide (slashCount p = c))
      = files.filter (fun p => decide (slashCount p = c)) :=
  sortBy_filter slashCount files c

/-- C5: the result of `sortFiles` is a permutation of its input (same paths,
same multiplicities); `sortFiles` is a total function, and the empty list is
sorted to the empty list. -/
theorem sortFiles_perm :
    (∀ files : List String, (sortFiles files).Perm files) ∧ sortFiles [] = [] :=
  ⟨fun files => sortBy_perm slashCount files, rfl⟩

/-! ## Lemmas on properties -/

theorem getOwn_eq_none {es : List (String × Val)} {k : String} :
    getOwn es k = none ↔ k ∉ es.map Prod.fst := by
  induction es with
  | nil => simp [getOwn]
  | cons e es ih =>
    obtain ⟨k', v⟩ := e
    by_cases h : k' = k
    · simp [getOwn, h]
    · simp [getOwn, h, ih, Ne.symm h]

theorem getOwn_setProp (es : List (String × Val)) (k k' : String) (v : Val) :
    getOwn (setProp es k v) k' = if k = k' then some v else getOwn es k' := by
  induction es with
  | nil => simp [setProp, getOwn]
  | cons e es ih =>
    obtain ⟨k0, v0⟩ := e
    by_cases h0 : k0 = k
    · subst h0
      by_cases h1 : k0 = k' <;> simp [setProp, getOwn, h1]
    · by_cases hb : keyBefore k k0 = true
      · by_cases h1 : k = k'
        · subst h1
          simp [setProp, getOwn, h0, hb]
        · simp [setProp, getOwn, h0, hb, h1]
      · by_cases h1 : k0 = k'
        · subst h1
          simp [setProp, getOwn, h0, hb, Ne.symm h0]
        · simp [setProp, getOwn, h0, hb, h1, ih]

theorem setProp_of_not_mem (es : List (String × Val)) (k : String) (v : Val)
    (h : k ∉ es.map Prod.fst) (hb : ∀ e ∈ es, keyBefore k e.1 = false) :
    setProp es k v = es ++ [(k, v)] := by
  induction es with
  | nil => rfl
  | cons e es ih =>
    obtain ⟨k0, v0⟩ := e
    have h0 : k0 ≠ k := fun e => h (by simp [e])
    have h1 : k ∉ es.map Prod.fst := fun hm => h (by simp at hm ⊢; exact Or.inr hm)
    have h2 : keyBefore k k0 = false := hb (k0, v0) (by simp)
    simp [setProp, h0, h2, ih h1 (fun e he => hb e (List.mem_cons_of_mem _ he))]

theorem mem_setProp {es : List (String × Val)} {c : String} {v : Val}
    {e : String × Val} (h : e ∈ setProp es c v) : e = (c, v) ∨ e ∈ es := by
  induction es with
  | nil => simpa [setProp] using h
  | cons e0 es ih =>
    obtain ⟨k0, v0⟩ := e0
    by_cases h0 : k0 = c
    · subst h0
      simp only [setProp, if_true, List.mem_cons] at h
      rcases h with h | h
      · exact Or.inl h
      · exact Or.inr (List.mem_cons_of_mem _ h)
    · by_cases hb : keyBefore c k0 = true
      · simp only [setProp, h0, hb, if_false, if_true, List.mem_cons] at h
        rcases h with h | h | h
        · exact Or.inl h
        · exact Or.inr (by simp [h])
        · exact Or.inr (List.mem_cons_of_mem _ h)
      · simp only [setProp, h0, hb, if_false, List.mem_cons, Bool.false_eq_true] at h
        rcases h with h | h
        · exact Or.inr (by simp [h])
        · rcases ih h with h | h
          · exact Or.inl h
          · exact Or.inr (List.mem_cons_of_mem _ h)

theorem mem_of_getOwn {es : List (String × Val)} {k : String} {v : Val}
    (h : getOwn es k = some v) : (k, v) ∈ es := by
  induction es with
  | nil => simp [getOwn] at h
  | cons e es ih =>
    obtain ⟨k0, v0⟩ := e
    by_cases h0 : k0 = k
    · simp [getOwn, h0] at h
      simp [h0, h]
    · simp [getOwn, h0] at h
      exact List.mem_cons_of_mem _ (ih h)

theorem getOwn_assignMergeValue_ne (es : List (String × Val)) (k k' : String) (v : Val)
    (h : k ≠ k') : getOwn (assignMergeValue es k v) k' = getOwn es k' := by
  unfold assignMergeValue
  split
  · split
    · rfl
    · simp [getOwn_setProp, h]
  · simp [getOwn_setProp, h]

theorem getOwn_assignMergeValue_self (es : List (String × Val)) (k : String) (v : Val) :
    getOwn (assignMergeValue es k v) k = assignedProp (getOwn es k) k v := by
  unfold assignMergeValue assignedProp
  split
  · split
    · rfl
    · simp [getOwn_setProp]
  · simp [getOwn_setProp]

theorem assignedProp_of_isScalar_or_isObject (c : Option Val) (k : String) (v : Val)
    (h : v ≠ .undefined) : assignedProp c k v = some v := by
  cases v <;> simp [assignedProp] at h ⊢

theorem assignedElem_of_ne (c : Option Val) (v : Val) (h : v ≠ .undefined) :
    assignedElem c v = v := by
  cases v <;> simp [assignedElem] at h ⊢

theorem isJson_of_getOwn {es : List (String × Val)} (h : isJsonEntries es = true)
    {k : String} {v : Val} (hk : getOwn es k = some v) : isJson v = true := by
  induction es with
  | nil => simp [getOwn] at hk
  | cons e es ih =>
    obtain ⟨k0, v0⟩ := e
    simp only [isJsonEntries, Bool.and_eq_true] at h
    by_cases h0 : k0 = k
    · simp [getOwn, h0] at hk
      subst hk
      exact h.1
    · simp [getOwn, h0] at hk
      exact ih h.2 hk

theorem isJson_of_getElem {xs : List Val} (h : isJsonList xs = true)
    {i : Nat} {v : Val} (hi : xs[i]? = some v) : isJson v = true := by
  induction xs generalizing i with
  | nil => simp at hi
  | cons x xs ih =>
    simp only [isJsonList, Bool.and_eq_true] at h
    cases i with
    | zero =>
      simp at hi
      subst hi
      exact h.1
    | succ i =>
      simp at hi
      exact ih h.2 hi

theorem isJson_child {v w : Val} (h : isJson v = true) {st : Step}
    (hc : child v st = some w) : isJson w = true := by
  cases v <;> cases st <;> simp [child] at hc
  · rename_i xs i
    exact isJson_of_getElem (by simpa [isJson] using h) hc
  · rename_i es k
    simp only [isJson, Bool.and_eq_true] at h
    exact isJson_of_getOwn h.2 hc

theorem isJson_ne_undefined {v : Val} (h : isJson v = true) : v ≠ .undefined := by
  intro e
  subst e
  simp [isJson] at h


/-! ## Lemmas on the merge -/

theorem mergeValue_scalar (c : Option Val) {s : Val} (h : isScalar s = true) :
    mergeValue c s = some s := by
  cases s <;> simp [isScalar] at h <;> simp [mergeValue]

theorem mergeValue_ne_undefined {c : Option Val} {src r : Val}
    (hj : isJson src = true) (h : mergeValue c src = some r) : r ≠ .undefined := by
  cases src <;> simp [isJson] at hj
  case null => simp [mergeValue] at h; subst h; simp
  case bool => simp [mergeValue] at h; subst h; simp
  case num => simp [mergeValue] at h; subst h; simp
  case str => simp [mergeValue] at h; subst h; simp
  case arr ss =>
    intro e
    subst e
    unfold mergeValue at h
    split at h
    · simp at h
    · split at h
      · split at h <;> simp at h
      · simp at h
    · simp at h
  case obj ss =>
    intro e
    subst e
    unfold mergeValue at h
    split at h <;> simp at h

theorem mergeProps_spec (ss : List (String × Val)) :
    ∀ (os r : List (String × Val)), (ss.map Prod.fst).Nodup →
      mergeProps os ss = some r →
      (∀ k b, getOwn ss k = some b → ∃ nv, mergeValue (getOwn os k) b = some nv ∧
        getOwn r k = assignedProp (getOwn os k) k nv) ∧
      (∀ k, getOwn ss k = none → getOwn r k = getOwn os k) := by
  induction ss with
  | nil =>
    intro os r _ h
    simp [mergeProps] at h
    subst h
    simp [getOwn]
  | cons e rest ih =>
    obtain ⟨key, sv⟩ := e
    intro os r hnd h
    simp only [List.map_cons, List.nodup_cons] at hnd
    unfold mergeProps at h
    split at h
    · simp at h
    · rename_i hproto
      cases hv : mergeValue (getOwn os key) sv with
      | none => simp [hv] at h
      | some nv0 =>
        simp only [hv, Option.bind_some] at h
        obtain ⟨ih1, ih2⟩ := ih _ r hnd.2 h
        refine ⟨?_, ?_⟩
        · intro k b hk
          by_cases hkk : key = k
          · subst hkk
            simp [getOwn] at hk
            subst hk
            refine ⟨nv0, hv, ?_⟩
            rw [ih2 key (getOwn_eq_none.2 hnd.1), getOwn_assignMergeValue_self]
          · simp [getOwn, hkk] at hk
            obtain ⟨nv, h1, h2⟩ := ih1 k b hk
            rw [getOwn_assignMergeValue_ne _ _ _ _ hkk] at h1 h2
            exact ⟨nv, h1, h2⟩
        · intro k hk
          by_cases hkk : key = k
          · simp [getOwn, hkk] at hk
          · simp [getOwn, hkk] at hk
            rw [ih2 k hk, getOwn_assignMergeValue_ne _ _ _ _ hkk]

theorem mergeElems_spec (ss : List Val) :
    ∀ (os r : List Val), mergeElems os ss = some r →
      r.length = max os.length ss.length ∧
      (∀ (i : Nat) b, ss[i]? = some b → ∃ nv, mergeValue os[i]? b = some nv ∧
        r[i]? = some (assignedElem os[i]? nv)) ∧
      (∀ i : Nat, ss.length ≤ i → r[i]? = os[i]?) := by
  induction ss with
  | nil =>
    intro os r h
    simp [mergeElems] at h
    subst h
    simp
  | cons sv rest ih =>
    intro os r h
    unfold mergeElems at h
    cases hv : mergeValue os.head? sv with
    | none => simp [hv] at h
    | some nv0 =>
      cases hr : mergeElems os.tail rest with
      | none => simp [hv, hr] at h
      | some r0 =>
        simp only [hv, hr, Option.map_some', Option.some_bind, Option.some.injEq] at h
        subst h
        obtain ⟨hl, h1, h2⟩ := ih _ r0 hr
        have hh : os.head? = os[0]? := by cases os <;> simp
        have ht : ∀ i, os.tail[i]? = os[i + 1]? := by intro i; cases os <;> simp
        refine ⟨?_, ?_, ?_⟩
        · simp only [List.length_cons, hl, List.length_tail]
          cases os <;> simp
          omega
        · intro i b hb
          cases i with
          | zero =>
            simp at hb
            subst hb
            exact ⟨nv0, by rw [← hh]; exact hv, by simp [hh]⟩
          | succ i =>
            simp at hb
            obtain ⟨nv, ha, hb2⟩ := h1 i b hb
            rw [ht] at ha hb2
            exact ⟨nv, ha, by simpa using hb2⟩
        · intro i hi
          cases i with
          | zero => simp at hi
          | succ i =>
            simp at hi
            simpa [ht] using h2 i hi


theorem mergeValue_obj_obj {os ss : List (String × Val)} {r : Val}
    (h : mergeValue (some (.obj os)) (.obj ss) = some r) :
    ∃ rs, r = .obj rs ∧ mergeProps os ss = some rs := by
  simp only [mergeValue, Option.map_eq_some'] at h
  obtain ⟨rs, h1, h2⟩ := h
  exact ⟨rs, h2.symm, h1⟩

theorem mergeValue_arr_arr {os ss : List Val} {r : Val}
    (h : mergeValue (some (.arr os)) (.arr ss) = some r) :
    ∃ rs, r = .arr rs ∧ mergeElems os ss = some rs := by
  simp only [mergeValue, Option.map_eq_some'] at h
  obtain ⟨rs, h1, h2⟩ := h
  exact ⟨rs, h2.symm, h1⟩

theorem mergeLoop_append (fs l : List Val) :
    ∀ g, mergeLoop g (fs ++ l) = (mergeLoop g fs).bind fun g' => mergeLoop g' l := by
  induction fs with
  | nil => intro g; simp [mergeLoop]
  | cons f fs ih =>
    intro g
    simp only [List.cons_append, mergeLoop]
    cases merge [] [g, f] with
    | none => simp
    | some o => simp [ih]

theorem merge_single (o ss : List (String × Val)) :
    merge o [.obj ss] = mergeProps o ss := by
  simp [merge, truthy, sourceEntries]

theorem merge_pair (g : Val) (ss : List (String × Val)) :
    merge [] [g, .obj ss]
      = (if truthy g then (sourceEntries g).bind (mergeProps []) else some []).bind
          fun o => mergeProps o ss := by
  by_cases hg : truthy g = true
  · rw [merge]
    simp only [hg, if_true, merge_single]
  · rw [merge]
    simp only [hg, Bool.false_eq_true, if_false, merge_single, Option.some_bind]

/-- The last step of the loop merges the last fragment into a copy of the
document merged so far. -/
theorem mergeLoop_last {g : Val} {ss : List (String × Val)} {merged : Val}
    (h : mergeLoop g [.obj ss] = some merged) :
    ∃ o, (if truthy g then (sourceEntries g).bind (mergeProps []) else some []) = some o ∧
      mergeValue (some (.obj o)) (.obj ss) = some merged := by
  simp only [mergeLoop, merge_pair, Option.bind_eq_some] at h
  obtain ⟨r, ⟨o, ho, h1⟩, h2⟩ := h
  simp only [Option.some.injEq] at h2
  subst h2
  exact ⟨o, ho, by simp [mergeValue, h1]⟩


mutual
/-- Merging a JSON value where the destination holds nothing copies it. -/
theorem mergeValue_fresh : ∀ (v r : Val), isJson v = true →
    mergeValue none v = some r → r = v
  | .undefined, _, hj, _ => by simp [isJson] at hj
  | .fn _, _, hj, _ => by simp [isJson] at hj
  | .null, r, _, h => by simp [mergeValue] at h; exact h.symm
  | .bool _, r, _, h => by simp [mergeValue] at h; exact h.symm
  | .num _, r, _, h => by simp [mergeValue] at h; exact h.symm
  | .str _, r, _, h => by simp [mergeValue] at h; exact h.symm
  | .arr ss, r, hj, h => by
    simp only [mergeValue, Option.map_eq_some'] at h
    obtain ⟨rs, h1, h2⟩ := h
    subst h2
    rw [mergeElems_fresh ss rs (by simpa [isJson] using hj) h1]
  | .obj ss, r, hj, h => by
    simp only [mergeValue, Option.map_eq_some'] at h
    obtain ⟨rs, h1, h2⟩ := h
    subst h2
    simp only [isJson, Bool.and_eq_true, decide_eq_true_eq] at hj
    rw [mergeProps_fresh ss [] rs hj.2 hj.1.1 (by simpa using hj.1.2) (by simp) h1]
    simp
/-- Merging JSON properties under new names appends them. -/
theorem mergeProps_fresh : ∀ (ss os r : List (String × Val)),
    isJsonEntries ss = true → (ss.map Prod.fst).Nodup → Canonical (os ++ ss) →
    (∀ k ∈ ss.map Prod.fst, k ∉ os.map Prod.fst) →
    mergeProps os ss = some r → r = os ++ ss
  | [], os, r, _, _, _, _, h => by simp [mergeProps] at h; simp [h]
  | (key, sv) :: rest, os, r, hj, hnd, hcan, hdis, h => by
    have hbefore : ∀ e ∈ os, keyBefore key e.1 = false := fun e he =>
      (List.pairwise_append.1 hcan).2.2 e he (key, sv) (by simp)
    simp only [isJsonEntries, Bool.and_eq_true] at hj
    simp only [List.map_cons, List.nodup_cons] at hnd
    have hfresh : key ∉ os.map Prod.fst := hdis key (by simp)
    unfold mergeProps at h
    split at h
    · simp at h
    · rw [getOwn_eq_none.2 hfresh] at h
      simp only [Option.bind_eq_some] at h
      obtain ⟨nv, h1, h2⟩ := h
      have hnv := mergeValue_fresh sv nv hj.1 h1
      subst hnv
      have ha : assignMergeValue os key nv = os ++ [(key, nv)] := by
        have hne := isJson_ne_undefined hj.1
        cases nv <;> simp [assignMergeValue] at hne ⊢ <;>
          exact setProp_of_not_mem _ _ _ hfresh hbefore
      rw [ha] at h2
      have := mergeProps_fresh rest (os ++ [(key, nv)]) r hj.2 hnd.2
        (by simpa using hcan) (by
        intro k hk
        simp only [List.map_append, List.map_cons, List.map_nil, List.mem_append,
          List.mem_singleton, not_or]
        refine ⟨hdis k (by simp [hk]), ?_⟩
        intro e
        subst e
        exact hnd.1 hk) h2
      simp [this]
/-- Merging JSON elements into an empty array copies them. -/
theorem mergeElems_fresh : ∀ (ss r : List Val), isJsonList ss = true →
    mergeElems [] ss = some r → r = ss
  | [], r, _, h => by simp [mergeElems] at h; exact h
  | sv :: rest, r, hj, h => by
    simp only [isJsonList, Bool.and_eq_true] at hj
    simp only [mergeElems, List.head?_nil, List.tail_nil, Option.bind_eq_some,
      Option.map_eq_some'] at h
    obtain ⟨nv, h1, rs, h2, h3⟩ := h
    have hnv := mergeValue_fresh sv nv hj.1 h1
    subst hnv
    have hrs := mergeElems_fresh rest rs hj.2 h2
    subst hrs
    rw [← h3, assignedElem_of_ne _ _ (isJson_ne_undefined hj.1)]
end

/-- For two JSON mappings the loop computes the merge of the second fragment
onto the first. -/
theorem mergeFragments_pair {as bs : List (String × Val)} {merged : Val}
    (hA : isJson (.obj as) = true)
    (h : mergeFragments [.obj as, .obj bs] = some merged) :
    mergeValue (some (.obj as)) (.obj bs) = some merged := by
  have hsplit : mergeFragments [.obj as, .obj bs]
      = (mergeLoop .undefined [.obj as]).bind fun g => mergeLoop g [.obj bs] :=
    mergeLoop_append [.obj as] [.obj bs] .undefined
  rw [hsplit] at h
  simp only [Option.bind_eq_some] at h
  obtain ⟨g, hg, h2⟩ := h
  obtain ⟨o, ho, h3⟩ := mergeLoop_last hg
  simp only [truthy, Bool.false_eq_true, if_false, Option.some.injEq] at ho
  subst ho
  have hg' := mergeValue_fresh (.obj as) g hA (by
    simpa [mergeValue] using h3)
  subst hg'
  obtain ⟨o, ho, h4⟩ := mergeLoop_last h2
  simp only [truthy, if_true, sourceEntries, Option.some_bind] at ho
  have ho' := mergeValue_fresh (.obj as) (.obj o) hA (by simp [mergeValue, ho])
  simp only [Val.obj.injEq] at ho'
  subst ho'
  exact h4


theorem getPath_append (p q : List Step) :
    ∀ v, getPath v (p ++ q) = (getPath v p).bind fun w => getPath w q := by
  induction p with
  | nil => intro v; simp [getPath]
  | cons st rest ih =>
    intro v
    simp only [List.cons_append, getPath]
    cases child v st with
    | none => simp
    | some w => simp [ih]

theorem isJson_getPath (p : List Step) :
    ∀ {v w : Val}, isJson v = true → getPath v p = some w → isJson w = true := by
  induction p with
  | nil =>
    intro v w hj h
    simp [getPath] at h
    subst h
    exact hj
  | cons st rest ih =>
    intro v w hj h
    simp only [getPath, Option.bind_eq_some] at h
    obtain ⟨u, hu, h2⟩ := h
    exact ih (isJson_child hj hu) h2

/-- One step down a path that both the destination and the source have: the
merged value holds there the merge of the source's child onto the
destination's child. -/
theorem mergeValue_child_both {a src r : Val} (hj : isJson src = true)
    (h : mergeValue (some a) src = some r) {st : Step} {a1 b1 : Val}
    (ha : child a st = some a1) (hb : child src st = some b1) :
    ∃ nv, mergeValue (some a1) b1 = some nv ∧ child r st = some nv := by
  have hbj := isJson_child hj hb
  cases a <;> cases st <;> simp [child] at ha
  case arr.idx os i =>
    cases src <;> simp [child] at hb
    rename_i ss
    obtain ⟨rs, hr, hm⟩ := mergeValue_arr_arr h
    subst hr
    obtain ⟨nv, h1, h2⟩ := (mergeElems_spec ss os rs hm).2.1 i b1 hb
    rw [assignedElem_of_ne _ _ (mergeValue_ne_undefined hbj h1)] at h2
    rw [ha] at h1
    exact ⟨nv, h1, h2⟩
  case obj.key os k =>
    cases src <;> simp [child] at hb
    rename_i ss
    obtain ⟨rs, hr, hm⟩ := mergeValue_obj_obj h
    subst hr
    simp only [isJson, Bool.and_eq_true, decide_eq_true_eq] at hj
    obtain ⟨nv, h1, h2⟩ := (mergeProps_spec ss os rs hj.1.1 hm).1 k b1 hb
    rw [assignedProp_of_isScalar_or_isObject _ _ _ (mergeValue_ne_undefined hbj h1)] at h2
    rw [ha] at h1
    exact ⟨nv, h1, h2⟩

/-- At the end of a path that both the destination and the source have, the
merged value holds the merge of the two values found there. -/
theorem mergeValue_getPath_both (path : List Step) :
    ∀ (a src r a1 b1 : Val), isJson src = true → mergeValue (some a) src = some r →
      getPath a path = some a1 → getPath src path = some b1 →
      ∃ nv, mergeValue (some a1) b1 = some nv ∧ getPath r path = some nv := by
  induction path with
  | nil =>
    intro a src r a1 b1 _ h ha hb
    simp [getPath] at ha hb
    subst ha
    subst hb
    exact ⟨r, h, rfl⟩
  | cons st rest ih =>
    intro a src r a1 b1 hj h ha hb
    simp only [getPath, Option.bind_eq_some] at ha hb
    obtain ⟨a0, ha0, ha2⟩ := ha
    obtain ⟨b0, hb0, hb2⟩ := hb
    obtain ⟨nv0, h1, h2⟩ := mergeValue_child_both hj h ha0 hb0
    obtain ⟨nv, h3, h4⟩ := ih a0 b0 nv0 a1 b1 (isJson_child hj hb0) h1 ha2 hb2
    exact ⟨nv, h3, by simp [getPath, h2, h4]⟩

theorem isMapping_iff {v : Val} : isMapping v = true ↔ ∃ es, v = .obj es := by
  cases v <;> simp [isMapping]

/-! ## The merge of tame fragments is defined -/

theorem isTameEntries_iff {es : List (String × Val)} :
    isTameEntries es = true ↔ ∀ e ∈ es, e.1 ∉ specialNames ∧ isTame e.2 = true := by
  induction es with
  | nil => simp [isTameEntries]
  | cons e es ih =>
    obtain ⟨k, v⟩ := e
    simp [isTameEntries, ih, and_assoc]

theorem isTameList_iff {xs : List Val} :
    isTameList xs = true ↔ ∀ x ∈ xs, isTame x = true := by
  induction xs with
  | nil => simp [isTameList]
  | cons x xs ih => simp [isTameList, ih]

theorem isTame_setElem {xs : List Val} (h : ∀ x ∈ xs, isTame x = true) {v : Val}
    (hv : isTame v = true) (i : Nat) : ∀ x ∈ setElem xs i v, isTame x = true := by
  intro x hx
  unfold setElem at hx
  split at hx
  · rcases List.mem_or_eq_of_mem_set hx with h1 | h1
    · exact h x h1
    · rw [h1]
      exact hv
  · simp only [List.mem_append, List.mem_replicate, List.mem_singleton] at hx
    rcases hx with (h1 | ⟨_, h1⟩) | h1
    · exact h x h1
    · rw [h1]
      rfl
    · rw [h1]
      exact hv

theorem isTame_assignedElem {cur : Option Val} (hc : ∀ c, cur = some c → isTame c = true)
    {nv : Val} (hv : isTame nv = true) : isTame (assignedElem cur nv) = true := by
  unfold assignedElem
  split
  · cases cur with
    | none => rfl
    | some c => exact hc c rfl
  · exact hv

theorem isTame_assignMergeValue {os : List (String × Val)}
    (hos : ∀ e ∈ os, e.1 ∉ specialNames ∧ isTame e.2 = true) {key : String}
    (hk : key ∉ specialNames) {nv : Val} (hv : isTame nv = true) :
    ∀ e ∈ assignMergeValue os key nv, e.1 ∉ specialNames ∧ isTame e.2 = true := by
  intro e he
  unfold assignMergeValue at he
  split at he
  · split at he
    · exact hos e he
    · rcases mem_setProp he with rfl | he
      · exact ⟨hk, rfl⟩
      · exact hos e he
  · rcases mem_setProp he with rfl | he
    · exact ⟨hk, hv⟩
    · exact hos e he

theorem arrayLikeLength_of_tame {os : List (String × Val)}
    (hos : ∀ e ∈ os, e.1 ∉ specialNames ∧ isTame e.2 = true) :
    arrayLikeLength os = none := by
  have hlen : getOwn os "length" = none := by
    cases h : getOwn os "length" with
    | none => rfl
    | some v => exact absurd (by simp [specialNames]) (hos _ (mem_of_getOwn h)).1
  simp [arrayLikeLength, hlen]

mutual
/-- Merging a tame value onto nothing or onto a tame value gives a tame
value. -/
theorem mergeValue_tame : ∀ (src : Val) (cur : Option Val), isTame src = true →
    (∀ c, cur = some c → isTame c = true) →
    ∃ r, mergeValue cur src = some r ∧ isTame r = true
  | .fn _, _, h, _ => by simp [isTame] at h
  | .undefined, _, _, _ => ⟨.undefined, by simp [mergeValue], rfl⟩
  | .null, _, _, _ => ⟨.null, by simp [mergeValue], rfl⟩
  | .bool b, _, _, _ => ⟨.bool b, by simp [mergeValue], rfl⟩
  | .num n, _, _, _ => ⟨.num n, by simp [mergeValue], rfl⟩
  | .str t, _, _, _ => ⟨.str t, by simp [mergeValue], rfl⟩
  | .arr ss, cur, h, hcur => by
    have hss : isTameList ss = true := by simpa [isTame] using h
    have fresh : ∃ r, (mergeElems [] ss).map Val.arr = some r ∧ isTame r = true := by
      obtain ⟨r, hr, hp⟩ := mergeElems_tame ss [] hss (by simp)
      exact ⟨.arr r, by simp [hr], by simpa [isTame] using isTameList_iff.2 hp⟩
    cases cur with
    | none => simpa [mergeValue] using fresh
    | some c =>
      have hc := hcur c rfl
      cases c with
      | arr os =>
        obtain ⟨r, hr, hp⟩ := mergeElems_tame ss os hss
          (isTameList_iff.1 (by simpa [isTame] using hc))
        exact ⟨.arr r, by simp [mergeValue, hr], by simpa [isTame] using isTameList_iff.2 hp⟩
      | obj os =>
        have hlen := arrayLikeLength_of_tame (isTameEntries_iff.1 (by simpa [isTame] using hc))
        simpa [mergeValue, hlen] using fresh
      | undefined => simpa [mergeValue] using fresh
      | null => simpa [mergeValue] using fresh
      | bool _ => simpa [mergeValue] using fresh
      | num _ => simpa [mergeValue] using fresh
      | str _ => simpa [mergeValue] using fresh
      | fn _ => simpa [mergeValue] using fresh
  | .obj ss, cur, h, hcur => by
    have hss : isTameEntries ss = true := by simpa [isTame] using h
    have fresh : ∃ r, (mergeProps [] ss).map Val.obj = some r ∧ isTame r = true := by
      obtain ⟨r, hr, hp⟩ := mergeProps_tame ss [] hss (by simp)
      exact ⟨.obj r, by simp [hr], by simpa [isTame] using isTameEntries_iff.2 hp⟩
    cases cur with
    | none => simpa [mergeValue] using fresh
    | some c =>
      have hc := hcur c rfl
      cases c with
      | obj os =>
        obtain ⟨r, hr, hp⟩ := mergeProps_tame ss os hss
          (isTameEntries_iff.1 (by simpa [isTame] using hc))
        exact ⟨.obj r, by simp [mergeValue, hr],
          by simpa [isTame] using isTameEntries_iff.2 hp⟩
      | arr os =>
        obtain ⟨r, hr, hp⟩ := mergeOntoArray_tame ss os hss
          (isTameList_iff.1 (by simpa [isTame] using hc))
        exact ⟨.arr r, by simp [mergeValue, hr], by simpa [isTame] using isTameList_iff.2 hp⟩
      | undefined => simpa [mergeValue] using fresh
      | null => simpa [mergeValue] using fresh
      | bool _ => simpa [mergeValue] using fresh
      | num _ => simpa [mergeValue] using fresh
      | str _ => simpa [mergeValue] using fresh
      | fn _ => simpa [mergeValue] using fresh
/-- Merging tame properties into a tame mapping gives a tame mapping. -/
theorem mergeProps_tame : ∀ (ss os : List (String × Val)), isTameEntries ss = true →
    (∀ e ∈ os, e.1 ∉ specialNames ∧ isTame e.2 = true) →
    ∃ r, mergeProps os ss = some r ∧ ∀ e ∈ r, e.1 ∉ specialNames ∧ isTame e.2 = true
  | [], os, _, hos => ⟨os, by simp [mergeProps], hos⟩
  | (key, sv) :: rest, os, hss, hos => by
    simp only [isTameEntries, Bool.and_eq_true, Bool.not_eq_true', decide_eq_false_iff_not]
      at hss
    obtain ⟨⟨hkey, hsv⟩, hrest⟩ := hss
    have hproto : key ≠ "__proto__" := fun e => hkey (by simp [e, specialNames])
    obtain ⟨nv, hnv, hpnv⟩ := mergeValue_tame sv (getOwn os key) hsv
      (fun c hc => (hos _ (mem_of_getOwn hc)).2)
    obtain ⟨r, hr, hp⟩ := mergeProps_tame rest (assignMergeValue os key nv) hrest
      (isTame_assignMergeValue hos hkey hpnv)
    exact ⟨r, by simp [mergeProps, hproto, hnv, hr], hp⟩
/-- Merging tame elements into a tame array gives a tame array. -/
theorem mergeElems_tame : ∀ (ss os : List Val), isTameList ss = true →
    (∀ x ∈ os, isTame x = true) →
    ∃ r, mergeElems os ss = some r ∧ ∀ x ∈ r, isTame x = true
  | [], os, _, hos => ⟨os, by simp [mergeElems], hos⟩
  | sv :: rest, os, hss, hos => by
    simp only [isTameList, Bool.and_eq_true] at hss
    have hhead : ∀ c, os.head? = some c → isTame c = true :=
      fun c hc => hos c (List.mem_of_mem_head? hc)
    obtain ⟨nv, hnv, hpnv⟩ := mergeValue_tame sv os.head? hss.1 hhead
    obtain ⟨r, hr, hp⟩ := mergeElems_tame rest os.tail hss.2
      (fun x hx => hos x (List.mem_of_mem_tail hx))
    refine ⟨assignedElem os.head? nv :: r, by simp [mergeElems, hnv, hr], ?_⟩
    intro x hx
    rcases List.mem_cons.1 hx with rfl | hx
    · exact isTame_assignedElem hhead hpnv
    · exact hp x hx
/-- Merging tame properties into a tame array gives a tame array. -/
theorem mergeOntoArray_tame : ∀ (ss : List (String × Val)) (os : List Val),
    isTameEntries ss = true → (∀ x ∈ os, isTame x = true) →
    ∃ r, mergeOntoArray os ss = some r ∧ ∀ x ∈ r, isTame x = true
  | [], os, _, hos => ⟨os, by simp [mergeOntoArray], hos⟩
  | (key, sv) :: rest, os, hss, hos => by
    simp only [isTameEntries, Bool.and_eq_true, Bool.not_eq_true', decide_eq_false_iff_not]
      at hss
    obtain ⟨⟨hkey, hsv⟩, hrest⟩ := hss
    cases hi : arrayIndex key with
    | some i =>
      have helem : ∀ c, os[i]? = some c → isTame c = true :=
        fun c hc => hos c (List.getElem?_mem hc)
      obtain ⟨nv, hnv, hpnv⟩ := mergeValue_tame sv os[i]? hsv helem
      obtain ⟨r, hr, hp⟩ := mergeOntoArray_tame rest
        (setElem os i (assignedElem os[i]? nv)) hrest
        (isTame_setElem hos (isTame_assignedElem helem hpnv) i)
      exact ⟨r, by simp [mergeOntoArray, hi, hnv, hr], hp⟩
    | none =>
      obtain ⟨r, hr, hp⟩ := mergeOntoArray_tame rest os hrest hos
      exact ⟨r, by simp [mergeOntoArray, hi, hkey, hsv, hr], hp⟩
end

/-- The merge loop over tame mappings is defined at every step. -/
theorem mergeLoop_tame (fragments : List Val) :
    ∀ (gameData : Val), (gameData = .undefined ∨
        (isMapping gameData = true ∧ isTame gameData = true)) →
      (∀ f ∈ fragments, isMapping f = true ∧ isTame f = true) →
      ∃ merged, mergeLoop gameData fragments = some merged := by
  induction fragments with
  | nil => intro g _ _; exact ⟨g, rfl⟩
  | cons f rest ih =>
    intro g hg hfr
    obtain ⟨hfm, hfp⟩ := hfr f (by simp)
    obtain ⟨ss, rfl⟩ := isMapping_iff.1 hfm
    have hss : isTameEntries ss = true := by simpa [isTame] using hfp
    have hstart : ∃ o, (if truthy g then (sourceEntries g).bind (mergeProps []) else some [])
        = some o ∧ ∀ e ∈ o, e.1 ∉ specialNames ∧ isTame e.2 = true := by
      rcases hg with rfl | ⟨hgm, hgp⟩
      · exact ⟨[], by simp [truthy], by simp⟩
      · obtain ⟨gs, rfl⟩ := isMapping_iff.1 hgm
        have hgs : isTameEntries gs = true := by simpa [isTame] using hgp
        obtain ⟨o, ho, hp⟩ := mergeProps_tame gs [] hgs (by simp)
        exact ⟨o, by simp [truthy, sourceEntries, ho], hp⟩
    obtain ⟨o, ho, hpo⟩ := hstart
    obtain ⟨r, hr, hpr⟩ := mergeProps_tame ss o hss hpo
    obtain ⟨merged, hm⟩ := ih (.obj r)
      (Or.inr ⟨rfl, by simpa [isTame] using isTameEntries_iff.2 hpr⟩)
      (fun f' hf' => hfr f' (List.mem_cons_of_mem _ hf'))
    refine ⟨merged, ?_⟩
    simp only [mergeLoop, merge_pair, ho, Option.some_bind, hr]
    exact hm

/-- On fragments that are tame mappings (no mapping with a key `__proto__`,
`length` or `constructor`) the merge loop stays inside the model and does not
throw: it returns a document. -/
theorem mergeFragments_tame (fragments : List Val)
    (h : ∀ f ∈ fragments, isMapping f = true ∧ isTame f = true) :
    ∃ merged, mergeFragments fragments = some merged :=
  mergeLoop_tame fragments .undefined (Or.inl rfl) h

/-- Every scalar of the source is found at the same path of the merged value,
unless somewhere on the path the destination holds an array where the source
holds a mapping.  The destination is tame (no key `length`), so that no
mapping of the destination is taken for an array. -/
theorem mergeValue_getPath_of_noClash (path : List Step) :
    ∀ (a : Option Val) (src r s : Val), isJson src = true →
      (∀ c, a = some c → isTame c = true) →
      mergeValue a src = some r → getPath src path = some s → isScalar s = true →
      (∀ q t xs ss, path = q ++ t → a.bind (fun c => getPath c q) = some (.arr xs) →
        getPath src q = some (.obj ss) → False) →
      getPath r path = some s := by
  induction path with
  | nil =>
    intro a src r s _ _ h hp hs _
    simp [getPath] at hp
    subst hp
    rw [mergeValue_scalar a hs] at h
    simpa [getPath] using h.symm
  | cons st rest ih =>
    intro a src r s hj ha h hp hs hfree
    simp only [getPath, Option.bind_eq_some] at hp
    obtain ⟨b, hb, hrest⟩ := hp
    have hbj := isJson_child hj hb
    cases src <;> cases st <;> simp [child] at hb
    case arr.idx ss i =>
      have key : ∀ os rs, mergeElems os ss = some rs →
          (∀ c, os[i]? = some c → isTame c = true) →
          (∀ q t xs ss', rest = q ++ t →
            (os[i]?).bind (fun c => getPath c q) = some (.arr xs) →
            getPath b q = some (.obj ss') → False) →
          getPath (.arr rs) (.idx i :: rest) = some s := by
        intro os rs hm htame hfree'
        obtain ⟨nv, h1, h2⟩ := (mergeElems_spec ss os rs hm).2.1 i b hb
        rw [assignedElem_of_ne _ _ (mergeValue_ne_undefined hbj h1)] at h2
        simp only [getPath, child, h2, Option.some_bind]
        exact ih _ b nv s hbj htame h1 hrest hs hfree'
      have fresh : ∀ rs, mergeElems [] ss = some rs →
          getPath (.arr rs) (.idx i :: rest) = some s := fun rs hm =>
        key [] rs hm (by simp) (by simp)
      cases a with
      | none =>
        simp only [mergeValue, Option.map_eq_some'] at h
        obtain ⟨rs, h1, h2⟩ := h
        subst h2
        exact fresh rs h1
      | some c =>
        cases c with
        | arr os =>
          obtain ⟨rs, hr, hm⟩ := mergeValue_arr_arr h
          subst hr
          refine key os rs hm
            (fun c hc => isTameList_iff.1 (by simpa [isTame] using ha _ rfl) c
              (List.getElem?_mem hc)) ?_
          intro q t xs ss' hq h1 h2
          refine hfree (.idx i :: q) t xs ss' (by simp [hq]) ?_ ?_
          · simpa [getPath, child] using h1
          · simpa [getPath, child, hb] using h2
        | obj os =>
          have hlen := arrayLikeLength_of_tame
            (isTameEntries_iff.1 (by simpa [isTame] using ha _ rfl))
          simp only [mergeValue, hlen, Option.map_eq_some'] at h
          obtain ⟨rs, h1, h2⟩ := h
          subst h2
          exact fresh rs h1
        | undefined =>
          simp only [mergeValue, Option.map_eq_some'] at h
          obtain ⟨rs, h1, h2⟩ := h
          subst h2
          exact fresh rs h1
        | null =>
          simp only [mergeValue, Option.map_eq_some'] at h
          obtain ⟨rs, h1, h2⟩ := h
          subst h2
          exact fresh rs h1
        | bool _ =>
          simp only [mergeValue, Option.map_eq_some'] at h
          obtain ⟨rs, h1, h2⟩ := h
          subst h2
          exact fresh rs h1
        | num _ =>
          simp only [mergeValue, Option.map_eq_some'] at h
          obtain ⟨rs, h1, h2⟩ := h
          subst h2
          exact fresh rs h1
        | str _ =>
          simp only [mergeValue, Option.map_eq_some'] at h
          obtain ⟨rs, h1, h2⟩ := h
          subst h2
          exact fresh rs h1
        | fn _ =>
          simp only [mergeValue, Option.map_eq_some'] at h
          obtain ⟨rs, h1, h2⟩ := h
          subst h2
          exact fresh rs h1
    case obj.key ss k =>
      simp only [isJson, Bool.and_eq_true, decide_eq_true_eq] at hj
      have key : ∀ os rs, mergeProps os ss = some rs →
          (∀ c, getOwn os k = some c → isTame c = true) →
          (∀ q t xs ss', rest = q ++ t →
            (getOwn os k).bind (fun c => getPath c q) = some (.arr xs) →
            getPath b q = some (.obj ss') → False) →
          getPath (.obj rs) (.key k :: rest) = some s := by
        intro os rs hm htame hfree'
        obtain ⟨nv, h1, h2⟩ := (mergeProps_spec ss os rs hj.1.1 hm).1 k b hb
        rw [assignedProp_of_isScalar_or_isObject _ _ _ (mergeValue_ne_undefined hbj h1)] at h2
        simp only [getPath, child, h2, Option.some_bind]
        exact ih _ b nv s hbj htame h1 hrest hs hfree'
      have fresh : ∀ rs, mergeProps [] ss = some rs →
          getPath (.obj rs) (.key k :: rest) = some s := fun rs hm =>
        key [] rs hm (by simp [getOwn]) (by simp [getOwn])
      cases a with
      | none =>
        simp only [mergeValue, Option.map_eq_some'] at h
        obtain ⟨rs, h1, h2⟩ := h
        subst h2
        exact fresh rs h1
      | some c =>
        cases c with
        | obj os =>
          obtain ⟨rs, hr, hm⟩ := mergeValue_obj_obj h
          subst hr
          refine key os rs hm
            (fun c hc => (isTameEntries_iff.1 (by simpa [isTame] using ha _ rfl) _
              (mem_of_getOwn hc)).2) ?_
          intro q t xs ss' hq h1 h2
          refine hfree (.key k :: q) t xs ss' (by simp [hq]) ?_ ?_
          · simpa [getPath, child] using h1
          · simpa [getPath, child, hb] using h2
        | arr os =>
          exact (hfree [] (.key k :: rest) os ss (by simp) (by simp [getPath])
            (by simp [getPath])).elim
        | undefined =>
          simp only [mergeValue, Option.map_eq_some'] at h
          obtain ⟨rs, h1, h2⟩ := h
          subst h2
          exact fresh rs h1
        | null =>
          simp only [mergeValue, Option.map_eq_some'] at h
          obtain ⟨rs, h1, h2⟩ := h
          subst h2
          exact fresh rs h1
        | bool _ =>
          simp only [mergeValue, Option.map_eq_some'] at h
          obtain ⟨rs, h1, h2⟩ := h
          subst h2
          exact fresh rs h1
        | num _ =>
          simp only [mergeValue, Option.map_eq_some'] at h
          obtain ⟨rs, h1, h2⟩ := h
          subst h2
          exact fresh rs h1
        | str _ =>
          simp only [mergeValue, Option.map_eq_some'] at h
          obtain ⟨rs, h1, h2⟩ := h
          subst h2
          exact fresh rs h1
        | fn _ =>
          simp only [mergeValue, Option.map_eq_some'] at h
          obtain ⟨rs, h1, h2⟩ := h
          subst h2
          exact fresh rs h1

/-! ## Theorems on the merge -/

/-- C1 (counterexample): merging `A = {x: {y: 1}}` and then the deeper fragment
`B = {x: {y: 2, z: 3}}` gives `{x: {y: 2, z: 3}}`, not `{x: {y: 1, z: 3}}`: at
the path `x.y`, where both fragments set a scalar, the merged document holds
the value of `B`, not the value of `A`. -/
theorem merge_precedence_counterexample :
    mergeFragments [.obj [("x", .obj [("y", .num 1)])],
        .obj [("x", .obj [("y", .num 2), ("z", .num 3)])]]
      = some (.obj [("x", .obj [("y", .num 2), ("z", .num 3)])]) ∧
    mergeFragments [.obj [("x", .obj [("y", .num 1)])],
        .obj [("x", .obj [("y", .num 2), ("z", .num 3)])]]
      ≠ some (.obj [("x", .obj [("y", .num 1), ("z", .num 3)])]) ∧
    getPath (.obj [("x", .obj [("y", .num 1)])]) [.key "x", .key "y"] = some (.num 1) ∧
    getPath (.obj [("x", .obj [("y", .num 2), ("z", .num 3)])]) [.key "x", .key "y"]
      = some (.num 2) ∧
    (mergeFragments [.obj [("x", .obj [("y", .num 1)])],
        .obj [("x", .obj [("y", .num 2), ("z", .num 3)])]]).bind
      (fun merged => getPath merged [.key "x", .key "y"]) = some (.num 2) := by
  decide

/-- C1 (amended): for two JSON mapping fragments `A` (merged first,
shallower) and `B` (merged second, deeper) in which no mapping has a key
`__proto__`, `length` or `constructor`, the merge returns a document.  It holds
the value of `B` at every path where both fragments set a scalar (the deeper
fragment wins).  The keys that only `B` has are added: at every path where both
hold a mapping, a key that only the mapping of `B` has holds the value of `B`,
and every scalar of `B` is found at its path unless somewhere on that path `A`
holds an array where `B` holds a mapping.  The first two facts are true of
every document that the merge returns for two JSON mapping fragments.  Folding
`{x: {y: 1}}` then `{x: {y: 2, z: 3}}` gives `{x: {y: 2, z: 3}}`. -/
theorem merge_precedence_deeper_wins :
    (∀ (A B : Val), isMapping A = true ∧ isJson A = true ∧ isTame A = true →
      isMapping B = true ∧ isJson B = true ∧ isTame B = true →
      ∃ merged, mergeFragments [A, B] = some merged ∧
        (∀ path a b, getPath A path = some a → isScalar a = true →
          getPath B path = some b → isScalar b = true → getPath merged path = some b) ∧
        (∀ path as bs k v, getPath A path = some (.obj as) →
          getPath B path = some (.obj bs) → getOwn bs k = some v → getOwn as k = none →
          getPath merged (path ++ [.key k]) = some v) ∧
        (∀ path b, getPath B path = some b → isScalar b = true →
          (∀ q t xs ss, path = q ++ t → getPath A q = some (.arr xs) →
            getPath B q = some (.obj ss) → False) →
          getPath merged path = some b)) ∧
    (∀ (A B merged : Val), isMapping A = true ∧ isJson A = true →
      isMapping B = true ∧ isJson B = true →
      mergeFragments [A, B] = some merged →
      (∀ path a b, getPath A path = some a → isScalar a = true →
        getPath B path = some b → isScalar b = true → getPath merged path = some b) ∧
      (∀ path as bs k v, getPath A path = some (.obj as) →
        getPath B path = some (.obj bs) → getOwn bs k = some v → getOwn as k = none →
        getPath merged (path ++ [.key k]) = some v)) ∧
    mergeFragments [.obj [("x", .obj [("y", .num 1)])],
        .obj [("x", .obj [("y", .num 2), ("z", .num 3)])]]
      = some (.obj [("x", .obj [("y", .num 2), ("z", .num 3)])]) := by
  have returned : ∀ (A B merged : Val), isMapping A = true ∧ isJson A = true →
      isMapping B = true ∧ isJson B = true →
      mergeFragments [A, B] = some merged →
      (∀ path a b, getPath A path = some a → isScalar a = true →
        getPath B path = some b → isScalar b = true → getPath merged path = some b) ∧
      (∀ path as bs k v, getPath A path = some (.obj as) →
        getPath B path = some (.obj bs) → getOwn bs k = some v → getOwn as k = none →
        getPath merged (path ++ [.key k]) = some v) := by
    intro A B merged hA hB hm
    obtain ⟨es, rfl⟩ := isMapping_iff.1 hA.1
    obtain ⟨fs, rfl⟩ := isMapping_iff.1 hB.1
    have h := mergeFragments_pair hA.2 hm
    refine ⟨?_, ?_⟩
    · intro path a b hpa _ hpb hs
      obtain ⟨nv, h1, h2⟩ := mergeValue_getPath_both path _ _ _ _ _ hB.2 h hpa hpb
      rw [mergeValue_scalar _ hs] at h1
      simp only [Option.some.injEq] at h1
      rw [h2, h1]
    · intro path as bs k v hpa hpb hb ha
      obtain ⟨nv, h1, h2⟩ := mergeValue_getPath_both path _ _ _ _ _ hB.2 h hpa hpb
      obtain ⟨rs, hr, hrs⟩ := mergeValue_obj_obj h1
      subst hr
      have hbs := isJson_getPath path hB.2 hpb
      simp only [isJson, Bool.and_eq_true, decide_eq_true_eq] at hbs
      obtain ⟨nv, h3, h4⟩ := (mergeProps_spec bs as rs hbs.1.1 hrs).1 k v hb
      rw [ha] at h3 h4
      have hv := isJson_of_getOwn hbs.2 hb
      have hnv := mergeValue_fresh v nv hv h3
      subst hnv
      rw [getPath_append, h2]
      simp only [Option.some_bind, getPath, child, h4,
        assignedProp_of_isScalar_or_isObject _ _ _ (isJson_ne_undefined hv)]
  refine ⟨?_, returned, by decide⟩
  intro A B hA hB
  obtain ⟨merged, hm⟩ := mergeFragments_tame [A, B] (by
    intro f hf
    simp only [List.mem_cons, List.mem_singleton, List.not_mem_nil, or_false] at hf
    rcases hf with rfl | rfl
    · exact ⟨hA.1, hA.2.2⟩
    · exact ⟨hB.1, hB.2.2⟩)
  obtain ⟨h1, h2⟩ := returned A B merged ⟨hA.1, hA.2.1⟩ ⟨hB.1, hB.2.1⟩ hm
  refine ⟨merged, hm, h1, h2, ?_⟩
  intro path b hpb hs hfree
  obtain ⟨es, rfl⟩ := isMapping_iff.1 hA.1
  obtain ⟨fs, rfl⟩ := isMapping_iff.1 hB.1
  exact mergeValue_getPath_of_noClash path (some (.obj es)) (.obj fs) merged b hB.2.1
    (fun c hc => by
      simp only [Option.some.injEq] at hc
      subst hc
      exact hA.2.2)
    (mergeFragments_pair hA.2.1 hm) hpb hs
    (fun q t xs ss hq h3 h4 => hfree q t xs ss hq (by simpa using h3) h4)

/-- Instance of `merge_precedence_deeper_wins` at fragments that extend the
specification's example by a key `a`, under which the first fragment holds an
array and the second a mapping: the merge returns a document; the path `x.y`,
set by both, holds `2`, and the key `z`, which only the second fragment has
below `x`, is added. -/
theorem merge_precedence_deeper_wins_witness :
    (∃ merged, mergeFragments
        [.obj [("x", .obj [("y", .num 1)]), ("a", .arr [.num 1, .num 2])],
          .obj [("x", .obj [("y", .num 2), ("z", .num 3)]), ("a", .obj [("q", .num 1)])]]
        = some merged ∧
      (∀ path a b,
        getPath (.obj [("x", .obj [("y", .num 1)]), ("a", .arr [.num 1, .num 2])]) path
          = some a → isScalar a = true →
        getPath (.obj [("x", .obj [("y", .num 2), ("z", .num 3)]),
          ("a", .obj [("q", .num 1)])]) path = some b → isScalar b = true →
        getPath merged path = some b) ∧
      (∀ path as bs k v,
        getPath (.obj [("x", .obj [("y", .num 1)]), ("a", .arr [.num 1, .num 2])]) path
          = some (.obj as) →
        getPath (.obj [("x", .obj [("y", .num 2), ("z", .num 3)]),
          ("a", .obj [("q", .num 1)])]) path = some (.obj bs) →
        getOwn bs k = some v → getOwn as k = none →
        getPath merged (path ++ [.key k]) = some v) ∧
      (∀ path b,
        getPath (.obj [("x", .obj [("y", .num 2), ("z", .num 3)]),
          ("a", .obj [("q", .num 1)])]) path = some b → isScalar b = true →
        (∀ q t xs ss, path = q ++ t →
          getPath (.obj [("x", .obj [("y", .num 1)]), ("a", .arr [.num 1, .num 2])]) q
            = some (.arr xs) →
          getPath (.obj [("x", .obj [("y", .num 2), ("z", .num 3)]),
            ("a", .obj [("q", .num 1)])]) q = some (.obj ss) → False) →
        getPath merged path = some b)) ∧
    getPath (.obj [("x", .obj [("y", .num 2), ("z", .num 3)]), ("a", .arr [.num 1, .num 2])])
        [.key "x", .key "y"] = some (.num 2) ∧
    getPath (.obj [("x", .obj [("y", .num 2), ("z", .num 3)]), ("a", .arr [.num 1, .num 2])])
        ([.key "x"] ++ [.key "z"]) = some (.num 3) :=
  ⟨merge_precedence_deeper_wins.1
      (.obj [("x", .obj [("y", .num 1)]), ("a", .arr [.num 1, .num 2])])
      (.obj [("x", .obj [("y", .num 2), ("z", .num 3)]), ("a", .obj [("q", .num 1)])])
      (by decide) (by decide),
    (merge_precedence_deeper_wins.2.1
      (.obj [("x", .obj [("y", .num 1)]), ("a", .arr [.num 1, .num 2])])
      (.obj [("x", .obj [("y", .num 2), ("z", .num 3)]), ("a", .obj [("q", .num 1)])])
      (.obj [("x", .obj [("y", .num 2), ("z", .num 3)]), ("a", .arr [.num 1, .num 2])])
      (by decide) (by decide) (by decide)).1 [.key "x", .key "y"] (.num 1) (.num 2)
      (by decide) (by decide) (by decide) (by decide),
    (merge_precedence_deeper_wins.2.1
      (.obj [("x", .obj [("y", .num 1)]), ("a", .arr [.num 1, .num 2])])
      (.obj [("x", .obj [("y", .num 2), ("z", .num 3)]), ("a", .obj [("q", .num 1)])])
      (.obj [("x", .obj [("y", .num 2), ("z", .num 3)]), ("a", .arr [.num 1, .num 2])])
      (by decide) (by decide) (by decide)).2 [.key "x"] [("y", .num 1)]
      [("y", .num 2), ("z", .num 3)] "z" (.num 3)
      (by decide) (by decide) (by decide) (by decide)⟩

/-- C2 (the code at the failing input): the parent fragment
`components/data.json = {a: [1, 2]}` and the child fragment
`components/a/data.json = {a: {x: 1}}`.  `_.merge` takes the array of the parent
as the merged value of `a` and sets the child's `x` on it as a named property,
which neither `_.cloneDeep` nor `JSON.stringify` reads.  Both written files hold
the document `{a: [1, 2]}`: the scalar `1` that the child holds at `a.x` is not
found there, against "child values should not change". -/
theorem child_value_lost_on_array :
    getPath (.obj [("a", .obj [("x", .num 1)])]) [.key "a", .key "x"] = some (.num 1) ∧
    mergeFragments [.obj [("a", .arr [.num 1, .num 2])], .obj [("a", .obj [("x", .num 1)])]]
      = some (.obj [("a", .arr [.num 1, .num 2])]) ∧
    getPath (.obj [("a", .arr [.num 1, .num 2])]) [.key "a", .key "x"] = none ∧
    createFinalDataJsonFiles camelCase
        (fun f =>
          if f = "components/data.json" then some (.obj [("a", .arr [.num 1, .num 2])])
          else if f = "components/a/data.json" then some (.obj [("a", .obj [("x", .num 1)])])
          else none)
        ["components/a/data.json", "components/data.json"]
      = some [⟨"data/game-data.json", some "\x7b\n\t\x22a\x22: [\n\t\t1,\n\t\t2\n\t]\n\x7d"⟩,
          ⟨"data/game-data-in-camel-case.json",
            some "\x7b\n\t\x22a\x22: [\n\t\t1,\n\t\t2\n\t]\n\x7d"⟩] := by
  decide


/-- C9 (counterexample): merging `A = {a: [1, 2]}` and then `B = {a: [3]}`
gives `{a: [3, 2]}`: the array at `a` is not the array of `A`, the element `0`
of the array of `B` has been merged into it. -/
theorem arrays_atomic_counterexample :
    mergeFragments [.obj [("a", .arr [.num 1, .num 2])], .obj [("a", .arr [.num 3])]]
      = some (.obj [("a", .arr [.num 3, .num 2])]) ∧
    getPath (.obj [("a", .arr [.num 1, .num 2])]) [.key "a"]
      = some (.arr [.num 1, .num 2]) ∧
    getPath (.obj [("a", .arr [.num 3])]) [.key "a"] = some (.arr [.num 3]) ∧
    (mergeFragments [.obj [("a", .arr [.num 1, .num 2])],
        .obj [("a", .arr [.num 3])]]).bind (fun merged => getPath merged [.key "a"])
      ≠ some (.arr [.num 1, .num 2]) := by
  decide

/-- C9 (amended): arrays are merged index by index.  When two JSON mapping
fragments `A` (merged first) and `B` (merged second) both hold an array at the
same path, the merged document holds an array there whose length is the larger
of the two lengths; at an index of the array of `B` it holds the merge of the
element of `B` onto the element of `A` (the element of `B` itself when that is
a scalar), and beyond the array of `B` it holds the elements of `A`. -/
theorem arrays_merged_by_index (A B merged : Val) (path : List Step)
    (as bs : List Val)
    (hA : isMapping A = true ∧ isJson A = true)
    (hB : isMapping B = true ∧ isJson B = true)
    (hm : mergeFragments [A, B] = some merged)
    (hpa : getPath A path = some (.arr as))
    (hpb : getPath B path = some (.arr bs)) :
    ∃ rs, getPath merged path = some (.arr rs) ∧
      rs.length = max as.length bs.length ∧
      (∀ (i : Nat) b, bs[i]? = some b →
        ∃ nv, mergeValue as[i]? b = some nv ∧ rs[i]? = some nv) ∧
      (∀ (i : Nat) b, bs[i]? = some b → isScalar b = true → rs[i]? = some b) ∧
      (∀ i : Nat, bs.length ≤ i → rs[i]? = as[i]?) := by
  obtain ⟨es, rfl⟩ := isMapping_iff.1 hA.1
  obtain ⟨fs, rfl⟩ := isMapping_iff.1 hB.1
  have h := mergeFragments_pair hA.2 hm
  obtain ⟨nv, h1, h2⟩ := mergeValue_getPath_both path _ _ _ _ _ hB.2 h hpa hpb
  obtain ⟨rs, hr, hrs⟩ := mergeValue_arr_arr h1
  subst hr
  obtain ⟨hl, hi, hk⟩ := mergeElems_spec bs as rs hrs
  have hbs : isJsonList bs = true := by
    simpa [isJson] using isJson_getPath path hB.2 hpb
  have hgen : ∀ (i : Nat) b, bs[i]? = some b →
      ∃ nv, mergeValue as[i]? b = some nv ∧ rs[i]? = some nv := by
    intro i b hb
    obtain ⟨nv, h3, h4⟩ := hi i b hb
    rw [assignedElem_of_ne _ _
      (mergeValue_ne_undefined (isJson_of_getElem hbs hb) h3)] at h4
    exact ⟨nv, h3, h4⟩
  refine ⟨rs, h2, hl, hgen, ?_, hk⟩
  intro i b hb hs
  obtain ⟨nv, h3, h4⟩ := hgen i b hb
  rw [mergeValue_scalar _ hs] at h3
  simp only [Option.some.injEq] at h3
  rw [h4, h3]

/-- Instance of `arrays_merged_by_index`: `{a: [1, 2]}` and `{a: [3]}`. -/
theorem arrays_merged_by_index_witness :
    ∃ rs, getPath (.obj [("a", .arr [.num 3, .num 2])]) [.key "a"] = some (.arr rs) ∧
      rs.length = max [Val.num 1, Val.num 2].length [Val.num 3].length ∧
      (∀ (i : Nat) b, [Val.num 3][i]? = some b →
        ∃ nv, mergeValue [Val.num 1, Val.num 2][i]? b = some nv ∧ rs[i]? = some nv) ∧
      (∀ (i : Nat) b, [Val.num 3][i]? = some b → isScalar b = true → rs[i]? = some b) ∧
      (∀ i : Nat, [Val.num 3].length ≤ i → rs[i]? = [Val.num 1, Val.num 2][i]?) :=
  arrays_merged_by_index (.obj [("a", .arr [.num 1, .num 2])])
    (.obj [("a", .arr [.num 3])]) (.obj [("a", .arr [.num 3, .num 2])]) [.key "a"]
    [.num 1, .num 2] [.num 3] (by decide) (by decide) (by decide) (by decide) (by decide)

/-- C10: for two JSON mapping fragments `A` (merged first) and `B` (merged
second) and a path at which both hold a mapping: a key of the mapping of `B`
that the mapping of `A` lacks holds in the merged document the value of `B`,
and a key of the mapping of `A` that the mapping of `B` lacks holds the value
of `A`. -/
theorem merge_adds_and_keeps (A B merged : Val) (path : List Step)
    (as bs : List (String × Val)) (k : String) (v : Val)
    (hA : isMapping A = true ∧ isJson A = true)
    (hB : isMapping B = true ∧ isJson B = true)
    (hm : mergeFragments [A, B] = some merged)
    (hpa : getPath A path = some (.obj as))
    (hpb : getPath B path = some (.obj bs)) :
    (getOwn bs k = some v → getOwn as k = none →
      getPath merged (path ++ [.key k]) = some v) ∧
    (getOwn as k = some v → getOwn bs k = none →
      getPath merged (path ++ [.key k]) = some v) := by
  obtain ⟨es, rfl⟩ := isMapping_iff.1 hA.1
  obtain ⟨fs, rfl⟩ := isMapping_iff.1 hB.1
  have h := mergeFragments_pair hA.2 hm
  obtain ⟨nv, h1, h2⟩ := mergeValue_getPath_both path _ _ _ _ _ hB.2 h hpa hpb
  obtain ⟨rs, hr, hrs⟩ := mergeValue_obj_obj h1
  subst hr
  have hbs := isJson_getPath path hB.2 hpb
  simp only [isJson, Bool.and_eq_true, decide_eq_true_eq] at hbs
  obtain ⟨hin, hout⟩ := mergeProps_spec bs as rs hbs.1.1 hrs
  have hstep : getPath merged (path ++ [.key k]) = getOwn rs k := by
    rw [getPath_append, h2]
    simp only [Option.some_bind, getPath, child]
    cases getOwn rs k <;> rfl
  refine ⟨?_, ?_⟩
  · intro hb ha
    obtain ⟨nv, h3, h4⟩ := hin k v hb
    rw [ha] at h3 h4
    have hv := isJson_of_getOwn hbs.2 hb
    have := mergeValue_fresh v nv hv h3
    subst this
    rw [hstep, h4, assignedProp_of_isScalar_or_isObject _ _ _ (isJson_ne_undefined hv)]
  · intro ha hb
    rw [hstep, hout k hb, ha]

/-- Instance of `merge_adds_and_keeps`: below `x`, the key `z` comes from the
second fragment only and the key `w` from the first fragment only. -/
theorem merge_adds_and_keeps_witness :
    getPath (.obj [("x", .obj [("y", .num 2), ("w", .null), ("z", .arr [.num 3])])])
        ([.key "x"] ++ [.key "z"]) = some (.arr [.num 3]) ∧
    getPath (.obj [("x", .obj [("y", .num 2), ("w", .null), ("z", .arr [.num 3])])])
        ([.key "x"] ++ [.key "w"]) = some .null :=
  ⟨(merge_adds_and_keeps (.obj [("x", .obj [("y", .num 1), ("w", .null)])])
      (.obj [("x", .obj [("y", .num 2), ("z", .arr [.num 3])])])
      (.obj [("x", .obj [("y", .num 2), ("w", .null), ("z", .arr [.num 3])])])
      [.key "x"] [("y", .num 1), ("w", .null)] [("y", .num 2), ("z", .arr [.num 3])]
      "z" (.arr [.num 3]) (by decide) (by decide) (by decide) (by decide)
      (by decide)).1 (by decide) (by decide),
    (merge_adds_and_keeps (.obj [("x", .obj [("y", .num 1), ("w", .null)])])
      (.obj [("x", .obj [("y", .num 2), ("z", .arr [.num 3])])])
      (.obj [("x", .obj [("y", .num 2), ("w", .null), ("z", .arr [.num 3])])])
      [.key "x"] [("y", .num 1), ("w", .null)] [("y", .num 2), ("z", .arr [.num 3])]
      "w" .null (by decide) (by decide) (by decide) (by decide)
      (by decide)).2 (by decide) (by decide)⟩

/-! ## Lemmas on the enumeration order -/

theorem keyBefore_irrefl (a : String) : keyBefore a a = false := by
  unfold keyBefore
  cases arrayIndex a <;> simp

theorem keyBefore_of_before_of_not {c a e : String} (h1 : keyBefore c a = true)
    (h2 : keyBefore e a = false) : keyBefore c e = true := by
  unfold keyBefore at *
  cases hc : arrayIndex c <;> cases ha : arrayIndex a <;> cases he : arrayIndex e <;>
    simp [hc, ha, he] at h1 h2 ⊢
  omega

theorem keyBefore_false_of_before_of_not {c a e : String} (h1 : keyBefore c a = false)
    (h2 : keyBefore a e = false) : keyBefore c e = false := by
  unfold keyBefore at *
  cases hc : arrayIndex c <;> cases ha : arrayIndex a <;> cases he : arrayIndex e <;>
    simp [hc, ha, he] at h1 h2 ⊢
  omega

theorem mem_keys_setProp (es : List (String × Val)) (c k : String) (v : Val) :
    k ∈ (setProp es c v).map Prod.fst ↔ k = c ∨ k ∈ es.map Prod.fst := by
  induction es with
  | nil => simp [setProp]
  | cons e es ih =>
    obtain ⟨k0, v0⟩ := e
    by_cases h0 : k0 = c
    · subst h0
      simp [setProp]
    · by_cases hb : keyBefore c k0 = true
      · simp [setProp, h0, hb]
      · simp only [setProp, h0, hb, if_false, List.map_cons, List.mem_cons, ih,
          Bool.false_eq_true]
        tauto

theorem mem_setProp_of_not_mem {es : List (String × Val)} {c : String} {v : Val}
    (hc : c ∉ es.map Prod.fst) {e : String × Val} :
    e ∈ setProp es c v ↔ e = (c, v) ∨ e ∈ es := by
  refine ⟨mem_setProp, ?_⟩
  induction es with
  | nil => simp [setProp]
  | cons e0 es ih =>
    obtain ⟨k0, v0⟩ := e0
    have h0 : k0 ≠ c := fun h => hc (by simp [h])
    have hc' : c ∉ es.map Prod.fst := fun h => hc (by simp at h ⊢; exact Or.inr h)
    intro h
    by_cases hb : keyBefore c k0 = true
    · simp only [setProp, h0, hb, if_false, if_true, List.mem_cons]
      rcases h with h | h
      · exact Or.inl h
      · exact Or.inr (by simpa using h)
    · simp only [setProp, h0, hb, if_false, List.mem_cons, Bool.false_eq_true]
      rcases h with h | h
      · exact Or.inr (ih hc' (Or.inl h))
      · rcases List.mem_cons.1 h with h | h
        · exact Or.inl h
        · exact Or.inr (ih hc' (Or.inr h))

theorem keyBefore_asymm {a b : String} (h : keyBefore a b = true) :
    keyBefore b a = false := by
  unfold keyBefore at *
  cases ha : arrayIndex a <;> cases hb : arrayIndex b <;> simp [ha, hb] at h ⊢
  omega

theorem canonical_cons {e : String × Val} {es : List (String × Val)} :
    Canonical (e :: es) ↔ (∀ f ∈ es, keyBefore f.1 e.1 = false) ∧ Canonical es := by
  unfold Canonical
  exact List.pairwise_cons

theorem canonical_deleteProp {es : List (String × Val)} (h : Canonical es) (k : String) :
    Canonical (deleteProp es k) := by
  unfold Canonical deleteProp at *
  exact h.sublist (List.filter_sublist _)

/-- In an object in enumeration order, a name that precedes the first property
precedes all of them and is none of them. -/
theorem before_all_of_before_head {k0 c : String} {v0 : Val}
    {es : List (String × Val)} (hcan : Canonical ((k0, v0) :: es))
    (hb : keyBefore c k0 = true) :
    ∀ f ∈ (k0, v0) :: es, keyBefore c f.1 = true ∧ f.1 ≠ c := by
  have key : ∀ f ∈ (k0, v0) :: es, keyBefore c f.1 = true := by
    intro f hf
    rcases List.mem_cons.1 hf with rfl | hf
    · exact hb
    · exact keyBefore_of_before_of_not hb ((canonical_cons.1 hcan).1 f hf)
  intro f hf
  refine ⟨key f hf, ?_⟩
  intro e
  have := key f hf
  rw [e, keyBefore_irrefl] at this
  exact Bool.false_ne_true this

theorem setProp_of_before_all {es : List (String × Val)} {c : String} (v : Val)
    (h : ∀ f ∈ es, keyBefore c f.1 = true ∧ f.1 ≠ c) :
    setProp es c v = (c, v) :: es := by
  cases es with
  | nil => rfl
  | cons e es =>
    obtain ⟨k0, v0⟩ := e
    obtain ⟨h1, h2⟩ := h (k0, v0) (by simp)
    simp only [] at h1 h2
    simp [setProp, h1, h2]

theorem canonical_setProp {es : List (String × Val)} (h : Canonical es) (c : String)
    (v : Val) : Canonical (setProp es c v) := by
  induction es with
  | nil => simp [setProp, Canonical]
  | cons e es ih =>
    obtain ⟨k0, v0⟩ := e
    obtain ⟨h1, h2⟩ := canonical_cons.1 h
    by_cases h0 : k0 = c
    · subst h0
      simp only [setProp, if_true]
      exact canonical_cons.2 ⟨h1, h2⟩
    · by_cases hb : keyBefore c k0 = true
      · simp only [setProp, h0, hb, if_false, if_true]
        refine canonical_cons.2 ⟨?_, h⟩
        intro f hf
        exact keyBefore_asymm (before_all_of_before_head h hb f hf).1
      · simp only [setProp, h0, hb, if_false, Bool.false_eq_true]
        refine canonical_cons.2 ⟨?_, ih h2⟩
        intro f hf
        rcases mem_setProp hf with rfl | hf
        · simpa using hb
        · exact h1 f hf

theorem nodup_keys_setProp {es : List (String × Val)} (c : String) (v : Val)
    (hcan : Canonical es) (h : (es.map Prod.fst).Nodup) :
    ((setProp es c v).map Prod.fst).Nodup := by
  induction es with
  | nil => simp [setProp]
  | cons e es ih =>
    obtain ⟨k0, v0⟩ := e
    by_cases h0 : k0 = c
    · subst h0
      simpa [setProp] using h
    · by_cases hb : keyBefore c k0 = true
      · simp only [setProp, h0, hb, if_false, if_true]
        rw [List.map_cons, List.nodup_cons]
        refine ⟨?_, h⟩
        intro hm
        obtain ⟨f, hf, hfc⟩ := List.mem_map.1 hm
        exact (before_all_of_before_head hcan hb f hf).2 hfc
      · simp only [List.map_cons, List.nodup_cons] at h
        simp only [setProp, h0, hb, if_false, List.map_cons, List.nodup_cons,
          Bool.false_eq_true]
        refine ⟨?_, ih (canonical_cons.1 hcan).2 h.2⟩
        rw [mem_keys_setProp]
        intro hm
        rcases hm with hm | hm
        · exact h0 hm
        · exact h.1 hm

theorem deleteProp_cons_self (k : String) (v : Val) (es : List (String × Val))
    (h : k ∉ es.map Prod.fst) : deleteProp ((k, v) :: es) k = es := by
  unfold deleteProp
  rw [List.filter_cons]
  simp only [bne_self_eq_false, Bool.false_eq_true, if_false]
  apply List.filter_eq_self.2
  intro e he
  simp only [bne_iff_ne, ne_eq]
  intro hk
  exact h (List.mem_map.2 ⟨e, he, hk⟩)

theorem deleteProp_setProp {es : List (String × Val)} (hcan : Canonical es)
    {c k : String} (hck : c ≠ k) (v : Val) :
    deleteProp (setProp es c v) k = setProp (deleteProp es k) c v := by
  induction es with
  | nil => simp [setProp, deleteProp, hck]
  | cons e es ih =>
    obtain ⟨k0, v0⟩ := e
    obtain ⟨h1, h2⟩ := canonical_cons.1 hcan
    by_cases h0 : k0 = c
    · subst h0
      simp [setProp, deleteProp, List.filter_cons, hck]
    · by_cases hb : keyBefore c k0 = true
      · have hall := before_all_of_before_head hcan hb
        have hD : setProp (deleteProp ((k0, v0) :: es) k) c v
            = (c, v) :: deleteProp ((k0, v0) :: es) k := by
          apply setProp_of_before_all
          intro f hf
          exact hall f (List.mem_of_mem_filter hf)
        rw [hD]
        simp only [setProp, h0, hb, if_false, if_true]
        show List.filter _ _ = _
        rw [List.filter_cons]
        simp [hck]
        rfl
      · have ih' := ih h2
        simp only [setProp, h0, hb, if_false, Bool.false_eq_true]
        by_cases hk : k0 = k
        · subst hk
          have e1 : deleteProp ((k0, v0) :: setProp es c v) k0
              = deleteProp (setProp es c v) k0 := by
            simp [deleteProp, List.filter_cons]
          have e2 : deleteProp ((k0, v0) :: es) k0 = deleteProp es k0 := by
            simp [deleteProp, List.filter_cons]
          rw [e1, e2, ih']
        · have e1 : deleteProp ((k0, v0) :: setProp es c v) k
              = (k0, v0) :: deleteProp (setProp es c v) k := by
            simp [deleteProp, List.filter_cons, hk]
          have e2 : deleteProp ((k0, v0) :: es) k = (k0, v0) :: deleteProp es k := by
            simp [deleteProp, List.filter_cons, hk]
          rw [e1, e2, ih']
          simp [setProp, h0, hb]

/-! ## Lemmas on `assignAll` -/

theorem assignAll_nil (o : List (String × Val)) : assignAll o [] = o := rfl

theorem assignAll_cons (o : List (String × Val)) (e : String × Val)
    (l : List (String × Val)) :
    assignAll o (e :: l) = assignAll (setProp o e.1 e.2) l := rfl

theorem assignAll_append_singleton (o l : List (String × Val)) (e : String × Val) :
    assignAll o (l ++ [e]) = setProp (assignAll o l) e.1 e.2 := by
  simp [assignAll, List.foldl_append]

theorem canonical_assignAll (l : List (String × Val)) :
    ∀ {o : List (String × Val)}, Canonical o → Canonical (assignAll o l) := by
  induction l with
  | nil => intro o h; exact h
  | cons e l ih => intro o h; exact ih (canonical_setProp h _ _)

theorem nodup_keys_assignAll (l : List (String × Val)) :
    ∀ {o : List (String × Val)}, Canonical o → (o.map Prod.fst).Nodup →
      ((assignAll o l).map Prod.fst).Nodup := by
  induction l with
  | nil => intro o _ h; exact h
  | cons e l ih =>
    intro o hc h
    exact ih (canonical_setProp hc _ _) (nodup_keys_setProp _ _ hc h)

theorem mem_assignAll (l : List (String × Val)) :
    ∀ {o : List (String × Val)} {e : String × Val}, e ∈ assignAll o l → e ∈ o ∨ e ∈ l := by
  induction l with
  | nil => intro o e h; exact Or.inl h
  | cons e0 l ih =>
    intro o e h
    rcases ih h with h | h
    · rcases mem_setProp h with h | h
      · exact Or.inr (by simp [h])
      · exact Or.inl h
    · exact Or.inr (List.mem_cons_of_mem _ h)

theorem getOwn_assignAll_of_not_mem (l : List (String × Val)) :
    ∀ (o : List (String × Val)) {k : String}, k ∉ l.map Prod.fst →
      getOwn (assignAll o l) k = getOwn o k := by
  induction l with
  | nil => intro o k _; rfl
  | cons e l ih =>
    intro o k hk
    simp only [List.map_cons, List.mem_cons, not_or] at hk
    rw [assignAll_cons, ih _ hk.2, getOwn_setProp]
    simp [Ne.symm hk.1]

theorem deleteProp_assignAll (l : List (String × Val)) :
    ∀ {o : List (String × Val)} {k : String}, Canonical o → k ∉ l.map Prod.fst →
      deleteProp (assignAll o l) k = assignAll (deleteProp o k) l := by
  induction l with
  | nil => intro o k _ _; rfl
  | cons e l ih =>
    intro o k hc hk
    simp only [List.map_cons, List.mem_cons, not_or] at hk
    rw [assignAll_cons, ih (canonical_setProp hc _ _) hk.2,
      deleteProp_setProp hc (Ne.symm hk.1), assignAll_cons]

theorem assignAll_eq_append (l : List (String × Val)) :
    ∀ (o : List (String × Val)), Canonical (o ++ l) → ((o ++ l).map Prod.fst).Nodup →
      assignAll o l = o ++ l := by
  induction l with
  | nil => intro o _ _; simp [assignAll]
  | cons e l ih =>
    intro o hc hn
    obtain ⟨k, v⟩ := e
    have hk : k ∉ o.map Prod.fst := by
      intro hm
      rw [List.map_append, List.nodup_append] at hn
      exact hn.2.2 hm (by simp)
    have hb : ∀ f ∈ o, keyBefore k f.1 = false := fun f hf =>
      (List.pairwise_append.1 hc).2.2 f hf (k, v) (by simp)
    rw [assignAll_cons, setProp_of_not_mem _ _ _ hk hb,
      ih _ (by simpa using hc) (by simpa using hn)]
    simp


/-! ## Lemmas on `formatKeyAsCamelCase` -/

theorem keyRenamable_iff {cc : String → String} {k : String} :
    keyRenamable cc k = true ↔
      cc (cc k) = cc k ∧ k ≠ "length" ∧ cc k ≠ "length" ∧ cc k ≠ "__proto__" ∧
        (cc k = k ∨ cc k ∉ inheritedNames) := by
  simp [keyRenamable, and_assoc]

/-- The loop over the property names of a mapping whose keys are
`keyRenamable` and have pairwise different camelCase forms: when the loop has
renamed the properties `done` and still has to rename the properties `todo`,
it ends with all of them renamed.  `ref` is the value that the code computes
for a property value. -/
theorem forEachM_formatKey (format : Val → Option Val) (cc : String → String)
    (ref : Val → Val) (todo : List (String × Val)) :
    ∀ (done : List (String × Val)), Canonical todo →
      (done.map Prod.fst ++ todo.map (fun e => cc e.1)).Nodup →
      (∀ c ∈ done.map Prod.fst, cc c = c) →
      (∀ e ∈ todo, keyRenamable cc e.1 = true) →
      (∀ e ∈ todo, formatValue format true e.2 e.2 = some (ref e.2) ∧
        formatValue format false e.2 .undefined = some (ref e.2)) →
      forEachM (formatKey format cc) (assignAll todo done) (todo.map Prod.fst)
        = some (assignAll [] (done ++ todo.map fun e => (cc e.1, ref e.2))) := by
  induction todo with
  | nil =>
    intro done _ _ _ _ _
    simp [forEachM]
  | cons e rest ih =>
    obtain ⟨k, v⟩ := e
    intro done hcan hnd hfix hkr hval
    obtain ⟨hidem, _, _, hproto, hinh⟩ := keyRenamable_iff.1 (hkr (k, v) (by simp))
    obtain ⟨hv1, hv2⟩ := hval (k, v) (by simp)
    simp only [] at hidem hproto hinh hv1 hv2
    rw [List.map_cons, List.nodup_append] at hnd
    obtain ⟨hnd1, hnd2, hdisj⟩ := hnd
    rw [List.nodup_cons] at hnd2
    have hc_done : cc k ∉ done.map Prod.fst := fun hm => hdisj hm (by simp)
    have hk_done : k ∉ done.map Prod.fst := by
      intro hm
      have := hfix k hm
      exact hc_done (by rw [this]; exact hm)
    have hk_rest : k ∉ rest.map Prod.fst := by
      intro hm
      obtain ⟨f, hf, hfk⟩ := List.mem_map.1 hm
      exact hnd2.1 (List.mem_map.2 ⟨f, hf, by rw [hfk]⟩)
    have hc_rest : cc k ∉ rest.map Prod.fst := by
      intro hm
      obtain ⟨f, hf, hfk⟩ := List.mem_map.1 hm
      exact hnd2.1 (List.mem_map.2 ⟨f, hf, by simp only []; rw [hfk, hidem]⟩)
    have hgo : getProp (assignAll ((k, v) :: rest) done) k = v := by
      unfold getProp
      rw [getOwn_assignAll_of_not_mem done _ hk_done]
      simp [getOwn]
    have hgc : getProp (assignAll ((k, v) :: rest) done) (cc k)
        = if cc k = k then v else .undefined := by
      unfold getProp
      rw [getOwn_assignAll_of_not_mem done _ hc_done]
      by_cases hck : cc k = k
      · simp [getOwn, hck]
      · have hin : cc k ∉ inheritedNames := by
          rcases hinh with h | h
          · exact absurd h hck
          · exact h
        simp [getOwn, hck, Ne.symm hck, getOwn_eq_none.2 hc_rest, hin]
    have hstate : setProp (deleteProp (assignAll ((k, v) :: rest) done) k) (cc k) (ref v)
        = assignAll rest (done ++ [(cc k, ref v)]) := by
      rw [deleteProp_assignAll done hcan hk_done, deleteProp_cons_self k v rest hk_rest,
        assignAll_append_singleton]
    have hstep : formatKey format cc (assignAll ((k, v) :: rest) done) k
        = some (assignAll rest (done ++ [(cc k, ref v)])) := by
      simp only [formatKey, hproto, if_false, hgo, hgc]
      by_cases hck : cc k = k
      · simp only [hck, beq_self_eq_true, if_true, hv1, Option.map_some'] at hstate ⊢
        rw [hstate]
      · have hb : (cc k == k) = false := by simpa using hck
        simp only [hck, hb, if_false, hv2, Option.map_some']
        rw [hstate]
    simp only [List.map_cons, forEachM, hstep, Option.some_bind]
    rw [ih (done ++ [(cc k, ref v)]) (canonical_cons.1 hcan).2]
    · simp
    · rw [List.map_append, List.append_assoc]
      simp only [List.map_cons, List.map_nil, List.singleton_append]
      rw [List.nodup_append]
      refine ⟨hnd1, List.nodup_cons.2 hnd2, ?_⟩
      intro a ha hb
      exact hdisj ha (by simpa using hb)
    · intro c hc
      simp only [List.map_append, List.map_cons, List.map_nil, List.mem_append,
        List.mem_singleton] at hc
      rcases hc with hc | hc
      · exact hfix c hc
      · rw [hc, hidem]
    · exact fun e he => hkr e (List.mem_cons_of_mem _ he)
    · exact fun e he => hval e (List.mem_cons_of_mem _ he)


theorem renameKeysEntries_eq_map (cc : String → String) (es : List (String × Val)) :
    renameKeysEntries cc es = es.map fun e => (e.1, renameKeys cc e.2) := by
  induction es with
  | nil => rfl
  | cons e es ih =>
    obtain ⟨k, v⟩ := e
    simp [renameKeysEntries, ih]

theorem renameKeysList_eq_map (cc : String → String) (xs : List Val) :
    renameKeysList cc xs = xs.map (renameKeys cc) := by
  induction xs with
  | nil => rfl
  | cons x xs ih => simp [renameKeysList, ih]

theorem renameKeys_obj (cc : String → String) (es : List (String × Val)) :
    renameKeys cc (.obj es)
      = .obj (fromEntries (es.map fun e => (cc e.1, renameKeys cc e.2))) := by
  simp [renameKeys, renameKeysEntries_eq_map, List.map_map, Function.comp_def]

theorem renameKeys_arr (cc : String → String) (xs : List Val) :
    renameKeys cc (.arr xs) = .arr (xs.map (renameKeys cc)) := by
  simp [renameKeys, renameKeysList_eq_map]

theorem renamableEntries_iff {cc : String → String} {es : List (String × Val)} :
    renamableEntries cc es = true ↔ ∀ e ∈ es, renamable cc e.2 = true := by
  induction es with
  | nil => simp [renamableEntries]
  | cons e es ih =>
    obtain ⟨k, v⟩ := e
    simp [renamableEntries, ih]

theorem renamableList_iff {cc : String → String} {xs : List Val} :
    renamableList cc xs = true ↔ ∀ x ∈ xs, renamable cc x = true := by
  induction xs with
  | nil => simp [renamableList]
  | cons x xs ih => simp [renamableList, ih]

theorem renamable_obj_iff {cc : String → String} {es : List (String × Val)} :
    renamable cc (.obj es) = true ↔
      Canonical es ∧ (es.map fun e => cc e.1).Nodup ∧
        (∀ e ∈ es, keyRenamable cc e.1 = true) ∧ ∀ e ∈ es, renamable cc e.2 = true := by
  simp only [renamable, Bool.and_eq_true, decide_eq_true_eq, List.all_eq_true,
    renamableEntries_iff, and_assoc]

theorem renamable_arr_iff {cc : String → String} {xs : List Val} :
    renamable cc (.arr xs) = true ↔ ∀ x ∈ xs, renamable cc x = true := by
  simp only [renamable, renamableList_iff]

theorem depth_le_depthEntries {es : List (String × Val)} {e : String × Val}
    (h : e ∈ es) : depth e.2 ≤ depth.depthEntries es := by
  induction es with
  | nil => simp at h
  | cons e0 es ih =>
    obtain ⟨k0, v0⟩ := e0
    rcases List.mem_cons.1 h with rfl | h
    · simp [depth.depthEntries]
    · have := ih h
      simp only [depth.depthEntries]
      omega

theorem depthEntries_le {es : List (String × Val)} {d : Nat}
    (h : ∀ e ∈ es, depth e.2 ≤ d) : depth.depthEntries es ≤ d := by
  induction es with
  | nil => simp [depth.depthEntries]
  | cons e0 es ih =>
    obtain ⟨k0, v0⟩ := e0
    have h0 := h (k0, v0) (by simp)
    have := ih fun e he => h e (List.mem_cons_of_mem _ he)
    simp only [depth.depthEntries] at h0 ⊢
    omega

theorem depth_le_depthList {xs : List Val} {x : Val} (h : x ∈ xs) :
    depth x ≤ depth.depthList xs := by
  induction xs with
  | nil => simp at h
  | cons x0 xs ih =>
    rcases List.mem_cons.1 h with rfl | h
    · simp [depth.depthList]
    · have := ih h
      simp only [depth.depthList]
      omega

theorem depthList_le {xs : List Val} {d : Nat} (h : ∀ x ∈ xs, depth x ≤ d) :
    depth.depthList xs ≤ d := by
  induction xs with
  | nil => simp [depth.depthList]
  | cons x0 xs ih =>
    have h0 := h x0 (by simp)
    have := ih fun x hx => h x (List.mem_cons_of_mem _ hx)
    simp only [depth.depthList]
    omega

theorem depth_obj (es : List (String × Val)) :
    depth (.obj es) = depth.depthEntries es + 1 := by
  simp [depth]

theorem depth_arr (xs : List Val) : depth (.arr xs) = depth.depthList xs + 1 := by
  simp [depth]

/-- A renamed property comes from a property of the original mapping. -/
theorem mem_fromEntries_map {cc : String → String} {ref : Val → Val}
    {es : List (String × Val)} {e : String × Val}
    (h : e ∈ fromEntries (es.map fun e => (cc e.1, ref e.2))) :
    ∃ f ∈ es, e = (cc f.1, ref f.2) := by
  rcases mem_assignAll _ h with h | h
  · simp at h
  · obtain ⟨f, hf, hfe⟩ := List.mem_map.1 h
    exact ⟨f, hf, hfe.symm⟩

/-- Renaming the keys does not deepen a document. -/
theorem depth_renameKeys (cc : String → String) :
    ∀ (n : Nat) (v : Val), depth v < n → depth (renameKeys cc v) ≤ depth v := by
  intro n
  induction n with
  | zero => intro v h; omega
  | succ n ih =>
    intro v h
    cases v with
    | arr xs =>
      rw [depth_arr] at h
      rw [renameKeys_arr, depth_arr, depth_arr]
      have : depth.depthList (xs.map (renameKeys cc)) ≤ depth.depthList xs := by
        apply depthList_le
        intro x hx
        obtain ⟨y, hy, hyx⟩ := List.mem_map.1 hx
        have hd := depth_le_depthList hy
        have := ih y (by omega)
        rw [← hyx]
        omega
      omega
    | obj es =>
      rw [depth_obj] at h
      rw [renameKeys_obj, depth_obj, depth_obj]
      have : depth.depthEntries (fromEntries (es.map fun e => (cc e.1, renameKeys cc e.2)))
          ≤ depth.depthEntries es := by
        apply depthEntries_le
        intro e he
        obtain ⟨f, hf, hfe⟩ := mem_fromEntries_map he
        have hd := depth_le_depthEntries hf
        have := ih f.2 (by omega)
        rw [hfe]
        simp only []
        omega
      omega
    | undefined => simp [renameKeys]
    | null => simp [renameKeys]
    | bool b => simp [renameKeys]
    | num m => simp [renameKeys]
    | str t => simp [renameKeys]
    | fn name => simp [renameKeys]


theorem canonical_nil : Canonical [] := by
  simp [Canonical]

theorem fromEntries_of_canonical {es : List (String × Val)} (hc : Canonical es)
    (hn : (es.map Prod.fst).Nodup) : fromEntries es = es := by
  have := assignAll_eq_append es [] (by simpa using hc) (by simpa using hn)
  simpa [fromEntries] using this

/-- The renamed form of a renamable document is renamable, and renaming it
again changes nothing. -/
theorem renameKeys_renamable (cc : String → String) :
    ∀ (n : Nat) (v : Val), depth v < n → renamable cc v = true →
      renamable cc (renameKeys cc v) = true ∧
        renameKeys cc (renameKeys cc v) = renameKeys cc v := by
  intro n
  induction n with
  | zero => intro v h; omega
  | succ n ih =>
    intro v h hr
    cases v with
    | arr xs =>
      rw [depth_arr] at h
      rw [renamable_arr_iff] at hr
      have hx : ∀ x ∈ xs, renamable cc (renameKeys cc x) = true ∧
          renameKeys cc (renameKeys cc x) = renameKeys cc x := fun x hx =>
        ih x (by have := depth_le_depthList hx; omega) (hr x hx)
      refine ⟨?_, ?_⟩
      · rw [renameKeys_arr, renamable_arr_iff]
        intro y hy
        obtain ⟨x, hx', hxy⟩ := List.mem_map.1 hy
        rw [← hxy]
        exact (hx x hx').1
      · rw [renameKeys_arr, renameKeys_arr, List.map_map]
        congr 1
        apply List.map_congr_left
        intro x hx'
        exact (hx x hx').2
    | obj es =>
      rw [depth_obj] at h
      obtain ⟨_, hnd, hkr, hren⟩ := renamable_obj_iff.1 hr
      have hval : ∀ f ∈ es, renamable cc (renameKeys cc f.2) = true ∧
          renameKeys cc (renameKeys cc f.2) = renameKeys cc f.2 := fun f hf =>
        ih f.2 (by have := depth_le_depthEntries hf; omega) (hren f hf)
      have hmem : ∀ e ∈ fromEntries (es.map fun e => (cc e.1, renameKeys cc e.2)),
          ∃ f ∈ es, e = (cc f.1, renameKeys cc f.2) := fun e he => mem_fromEntries_map he
      have hcanR : Canonical (fromEntries (es.map fun e => (cc e.1, renameKeys cc e.2))) :=
        canonical_assignAll _ canonical_nil
      have hndR : ((fromEntries (es.map fun e => (cc e.1, renameKeys cc e.2))).map
          Prod.fst).Nodup :=
        nodup_keys_assignAll _ canonical_nil (by simp)
      have hfixR : ∀ e ∈ fromEntries (es.map fun e => (cc e.1, renameKeys cc e.2)),
          cc e.1 = e.1 := by
        intro e he
        obtain ⟨f, hf, hfe⟩ := hmem e he
        rw [hfe]
        exact (keyRenamable_iff.1 (hkr f hf)).1
      refine ⟨?_, ?_⟩
      · rw [renameKeys_obj, renamable_obj_iff]
        refine ⟨hcanR, ?_, ?_, ?_⟩
        · rw [List.map_congr_left hfixR]
          exact hndR
        · intro e he
          obtain ⟨f, hf, hfe⟩ := hmem e he
          obtain ⟨h1, _, h3, h4, _⟩ := keyRenamable_iff.1 (hkr f hf)
          rw [hfe]
          simp only []
          rw [keyRenamable_iff, h1, h1]
          exact ⟨rfl, h3, h3, h4, Or.inl rfl⟩
        · intro e he
          obtain ⟨f, hf, hfe⟩ := hmem e he
          rw [hfe]
          exact (hval f hf).1
      · rw [renameKeys_obj, renameKeys_obj]
        congr 1
        have hid : (fromEntries (es.map fun e => (cc e.1, renameKeys cc e.2))).map
            (fun e => (cc e.1, renameKeys cc e.2))
            = fromEntries (es.map fun e => (cc e.1, renameKeys cc e.2)) := by
          conv_rhs => rw [← List.map_id (fromEntries _)]
          apply List.map_congr_left
          intro e he
          obtain ⟨f, hf, hfe⟩ := hmem e he
          have h1 := hfixR e he
          have h2 : renameKeys cc e.2 = e.2 := by
            rw [hfe]
            exact (hval f hf).2
          simp only [id]
          rw [h1, h2]
        rw [hid]
        exact fromEntries_of_canonical hcanR hndR
    | undefined => simp [renameKeys, renamable]
    | null => simp [renameKeys, renamable]
    | bool b => simp [renameKeys, renamable]
    | num m => simp [renameKeys, renamable]
    | str t => simp [renameKeys, renamable]
    | fn name => simp [renameKeys, renamable]


theorem traverse_eq_map {α β : Type} {f : α → Option β} {g : α → β} {xs : List α}
    (h : ∀ x ∈ xs, f x = some (g x)) : traverse f xs = some (xs.map g) := by
  induction xs with
  | nil => rfl
  | cons x xs ih =>
    simp [traverse, h x (by simp), ih fun y hy => h y (List.mem_cons_of_mem _ hy)]

theorem arrayLikeLength_eq_none {es : List (String × Val)}
    (h : ∀ e ∈ es, e.1 ≠ "length") : arrayLikeLength es = none := by
  have : getOwn es "length" = none := by
    rw [getOwn_eq_none]
    intro hm
    obtain ⟨e, he, hk⟩ := List.mem_map.1 hm
    exact h e he hk
  simp [arrayLikeLength, this]

theorem renameKeys_of_not_container {cc : String → String} {v : Val}
    (h : isObject v = false) : renameKeys cc v = v := by
  cases v <;> simp [isObject] at h <;> simp [renameKeys]

/-- The value that the iteratee computes for a property of a renamable
document, given that the recursive call renames renamable documents of smaller
depth: the renamed value, both when the property keeps its name (the value is
renamed twice) and when it gets a new name. -/
theorem formatValue_eq_renameKeys (cc : String → String) (n : Nat)
    (ih : ∀ v, depth v < n → renamable cc v = true → (∀ t, v ≠ .str t) →
      formatAux cc n v = some (renameKeys cc v))
    (x : Val) (hd : depth x < n) (hr : renamable cc x = true) :
    formatValue (formatAux cc n) true x x = some (renameKeys cc x) ∧
      formatValue (formatAux cc n) false x .undefined = some (renameKeys cc x) := by
  by_cases ho : isObject x = true
  · have hns : ∀ t, x ≠ .str t := by
      intro t e
      rw [e] at ho
      simp [isObject] at ho
    have hns2 : ∀ t, renameKeys cc x ≠ .str t := by
      intro t e
      cases x <;> simp [isObject] at ho <;> simp [renameKeys] at e
    have h1 := ih x hd hr hns
    obtain ⟨hr2, hidem⟩ := renameKeys_renamable cc (depth x + 1) x (by omega) hr
    have h2 := ih (renameKeys cc x)
      (by have := depth_renameKeys cc (depth x + 1) x (by omega); omega) hr2 hns2
    rw [hidem] at h2
    have ht : truthy x = true := by
      cases x <;> simp [isObject] at ho <;> simp [truthy]
    simp [formatValue, ho, h1, h2, ht, truthy]
  · have ho' : isObject x = false := by simpa using ho
    rw [renameKeys_of_not_container ho']
    simp [formatValue, ho', truthy]

/-- With enough fuel, `formatKeyAsCamelCase` renames a renamable document as
the reference renaming does. -/
theorem formatAux_eq_renameKeys (cc : String → String) :
    ∀ (n : Nat) (v : Val), depth v < n → renamable cc v = true → (∀ t, v ≠ .str t) →
      formatAux cc n v = some (renameKeys cc v) := by
  intro n
  induction n with
  | zero => intro v h; omega
  | succ n ih =>
    intro v h hr hns
    cases v with
    | arr xs =>
      rw [depth_arr] at h
      rw [renamable_arr_iff] at hr
      rw [renameKeys_arr]
      simp only [formatAux]
      rw [traverse_eq_map (g := renameKeys cc)]
      · rfl
      · intro x hx
        exact (formatValue_eq_renameKeys cc n ih x
          (by have := depth_le_depthList hx; omega) (hr x hx)).1
    | obj es =>
      rw [depth_obj] at h
      obtain ⟨hcan, hnd, hkr, hren⟩ := renamable_obj_iff.1 hr
      have hlen : arrayLikeLength es = none :=
        arrayLikeLength_eq_none fun e he => (keyRenamable_iff.1 (hkr e he)).2.1
      have hloop := forEachM_formatKey (formatAux cc n) cc (renameKeys cc) es [] hcan
        (by simpa using hnd) (by simp) hkr
        (fun e he => formatValue_eq_renameKeys cc n ih e.2
          (by have := depth_le_depthEntries he; omega) (hren e he))
      rw [assignAll_nil] at hloop
      rw [renameKeys_obj]
      simp only [formatAux, hlen, hloop, List.nil_append, Option.map_some', fromEntries]
    | undefined => simp [renameKeys, formatAux]
    | null => simp [renameKeys, formatAux]
    | bool b => simp [renameKeys, formatAux]
    | num m => simp [renameKeys, formatAux]
    | str t => exact absurd rfl (hns t)
    | fn name => simp [renameKeys, formatAux]


theorem traverse_length {α β : Type} {f : α → Option β} :
    ∀ {xs : List α} {ys : List β}, traverse f xs = some ys → ys.length = xs.length := by
  intro xs
  induction xs with
  | nil =>
    intro ys h
    simp only [traverse, Option.some.injEq] at h
    subst h
    rfl
  | cons x xs ih =>
    intro ys h
    simp only [traverse, Option.bind_eq_some, Option.map_eq_some'] at h
    obtain ⟨b, _, r, hr, hys⟩ := h
    subst hys
    simp [ih hr]

/-- Whenever `formatKeyAsCamelCase` returns from an array it returns an array
of the same length: `_.each` visits the indices, no element is moved, dropped
or added. -/
theorem formatAux_arr_length (cc : String → String) (n : Nat) (xs : List Val) (r : Val)
    (h : formatAux cc (n + 1) (.arr xs) = some r) :
    ∃ ys, r = .arr ys ∧ ys.length = xs.length := by
  simp only [formatAux, Option.map_eq_some'] at h
  obtain ⟨ys, hys, hr⟩ := h
  exact ⟨ys, hr.symm, traverse_length hys⟩

/-- `formatKeyAsCamelCase` supplies enough fuel: on a renamable document that is
not a bare non-empty string it returns the reference renaming. -/
theorem formatKeyAsCamelCase_eq_renameKeys (cc : String → String) (d : Val)
    (hstr : ∀ t, d = .str t → t = "") (hr : renamable cc d = true) :
    formatKeyAsCamelCase cc d = some (renameKeys cc d) := by
  by_cases hs : ∃ t, d = .str t
  · obtain ⟨t, rfl⟩ := hs
    have := hstr t rfl
    subst this
    simp [formatKeyAsCamelCase, formatAux, renameKeys, depth]
  · exact formatAux_eq_renameKeys cc _ d (Nat.lt_succ_self _) hr
      (fun t e => hs ⟨t, e⟩)

/-! ## Theorems on `formatKeyAsCamelCase` -/

/-- C6 (counterexample): in `{"a-b-c": 1, "aBC": 2}` the two keys have
different camelCase forms (`aBC` and `aBc`) and no key is `length`, yet the
result is `{"aBc": 2}` and not the reference renaming
`{"aBC": 1, "aBc": 2}`: the value `1` is lost.  Likewise `{"x": {"a-b-c": 1}}`
becomes `{"x": {"aBc": 1}}` and not `{"x": {"aBC": 1}}`. -/
theorem rename_counterexample :
    camelCase "a-b-c" = "aBC" ∧ camelCase "aBC" = "aBc" ∧
    formatKeyAsCamelCase camelCase (.obj [("a-b-c", .num 1), ("aBC", .num 2)])
      = some (.obj [("aBc", .num 2)]) ∧
    renameKeys camelCase (.obj [("a-b-c", .num 1), ("aBC", .num 2)])
      = .obj [("aBC", .num 1), ("aBc", .num 2)] ∧
    formatKeyAsCamelCase camelCase (.obj [("a-b-c", .num 1), ("aBC", .num 2)])
      ≠ some (renameKeys camelCase (.obj [("a-b-c", .num 1), ("aBC", .num 2)])) ∧
    formatKeyAsCamelCase camelCase (.obj [("x", .obj [("a-b-c", .num 1)])])
      = some (.obj [("x", .obj [("aBc", .num 1)])]) ∧
    renameKeys camelCase (.obj [("x", .obj [("a-b-c", .num 1)])])
      = .obj [("x", .obj [("aBC", .num 1)])] := by
  decide

/-- C6 (amended): for every function in the place of `_.camelCase` and every
document that is `renamable` (in every mapping, at every depth: no two keys with
the same camelCase form; every camelCase form a fixed point of `camelCase`;
`length` neither a key nor a camelCase form; no camelCase form `__proto__`, and
none inherited from `Object.prototype` unless it is the key itself) and is not
a bare non-empty string, `formatKeyAsCamelCase` returns the reference renaming:
every key `k` replaced by `camelCase(k)`, every other value unchanged.  With
lodash's `camelCase`, `{"item-id": 5, "nested-thing": {"sub-key": 1}}` becomes
`{"itemId": 5, "nestedThing": {"subKey": 1}}`. -/
theorem formatKeyAsCamelCase_renames :
    (∀ (cc : String → String) (d : Val), (∀ t, d = .str t → t = "") →
      renamable cc d = true → formatKeyAsCamelCase cc d = some (renameKeys cc d)) ∧
    formatKeyAsCamelCase camelCase
        (.obj [("item-id", .num 5), ("nested-thing", .obj [("sub-key", .num 1)])])
      = some (.obj [("itemId", .num 5), ("nestedThing", .obj [("subKey", .num 1)])]) := by
  refine ⟨?_, by decide⟩
  intro cc d hstr hr
  exact formatKeyAsCamelCase_eq_renameKeys cc d hstr hr

/-- Instance of `formatKeyAsCamelCase_renames`: a renamable mapping with a
nested mapping under a key that keeps its name, an array and a numeric key. -/
theorem formatKeyAsCamelCase_renames_witness :
    formatKeyAsCamelCase camelCase
        (.obj [("7", .null), ("level", .obj [("max-speed", .num 3), ("Name", .str "a")]),
          ("item-list", .arr [.obj [("item-id", .num 0)], .bool false])])
      = some (renameKeys camelCase
        (.obj [("7", .null), ("level", .obj [("max-speed", .num 3), ("Name", .str "a")]),
          ("item-list", .arr [.obj [("item-id", .num 0)], .bool false])])) :=
  formatKeyAsCamelCase_renames.1 camelCase
    (.obj [("7", .null), ("level", .obj [("max-speed", .num 3), ("Name", .str "a")]),
      ("item-list", .arr [.obj [("item-id", .num 0)], .bool false])])
    (by intro t e; cases e) (by decide)

/-- C7 (the code at the failing input): the array `[{"a-b-c": 1}]` is returned
as `[{"aBc": 1}]`, although the key-renamed form of its element
`{"a-b-c": 1}` is `{"aBC": 1}`: the element of an array is renamed twice, and
`camelCase("aBC")` is `aBc`. -/
theorem array_element_renamed_twice :
    formatKeyAsCamelCase camelCase (.arr [.obj [("a-b-c", .num 1)]])
      = some (.arr [.obj [("aBc", .num 1)]]) ∧
    formatKeyAsCamelCase camelCase (.obj [("a-b-c", .num 1)])
      = some (.obj [("aBC", .num 1)]) ∧
    renameKeys camelCase (.obj [("a-b-c", .num 1)]) = .obj [("aBC", .num 1)] ∧
    camelCase "a-b-c" = "aBC" ∧ camelCase "aBC" = "aBc" := by
  decide

/-- C8 (the code at the failing input): in `{"fooBar": 0, "foo-bar": 1}` the
key `foo-bar` is processed while its camelCase form `fooBar` holds `0`; the
result holds `1` at `fooBar`, the value `0` that was there first is lost. -/
theorem falsy_first_writer_loses :
    camelCase "foo-bar" = "fooBar" ∧ camelCase "fooBar" = "fooBar" ∧
    formatKeyAsCamelCase camelCase (.obj [("fooBar", .num 0), ("foo-bar", .num 1)])
      = some (.obj [("fooBar", .num 1)]) ∧
    formatKeyAsCamelCase camelCase (.obj [("fooBar", .num 2), ("foo-bar", .num 1)])
      = some (.obj [("fooBar", .num 2)]) := by
  decide


theorem toLower_of_isLower (c : Char) (h : c.isLower = true) : c.toLower = c := by
  simp only [Char.isLower, Bool.and_eq_true, decide_eq_true_eq] at h
  have h1 : 97 ≤ c.toNat := (UInt32.le_def).1 h.1
  simp only [Char.toLower]
  rw [if_neg]
  omega

theorem wordsAux_nil (n : Nat) : wordsAux n [] = [] := by
  cases n <;> rfl

/-- A word of lower-case letters is its own camelCase form. -/
theorem camelCase_of_lower (key : String)
    (h : key.toList.all Char.isLower = true) : camelCase key = key := by
  obtain ⟨cs⟩ := key
  simp only [String.toList] at h
  rw [List.all_eq_true] at h
  have hfilter : cs.filter (fun c => c != Char.ofNat 39) = cs := by
    apply List.filter_eq_self.2
    intro c hc
    have := h c hc
    simp only [bne_iff_ne, ne_eq]
    intro e
    rw [e] at this
    revert this
    decide
  have hmap : cs.map Char.toLower = cs := by
    conv_rhs => rw [← List.map_id cs]
    exact List.map_congr_left fun c hc => toLower_of_isLower c (h c hc)
  unfold camelCase
  simp only [String.toList, hfilter]
  cases cs with
  | nil => rfl
  | cons c rest =>
    have hc : c.isLower = true := h c (by simp)
    have hrest : ∀ x ∈ rest, x.isLower = true := fun x hx => h x (List.mem_cons_of_mem _ hx)
    have htake : rest.takeWhile Char.isLower = rest :=
      List.takeWhile_eq_self_iff.2 hrest
    have hdrop : rest.dropWhile Char.isLower = [] :=
      List.dropWhile_eq_nil_iff.2 hrest
    have hw : words (c :: rest) = [c :: rest] := by
      simp [words, wordsAux, nextWord, hc, htake, hdrop, wordsAux_nil]
    rw [hw]
    simp only [List.map_cons, List.map_nil, hmap, List.flatten_nil, List.append_nil]

/-- C13 (counterexample): the single words `Foo` and `URL` and the camelCase
key `gameID` are not left unchanged: they become `foo`, `url` and `gameId`,
and `{"URL": 1}` is renamed to `{"url": 1}`. -/
theorem single_word_counterexample :
    camelCase "Foo" = "foo" ∧ camelCase "URL" = "url" ∧ camelCase "gameID" = "gameId" ∧
    formatKeyAsCamelCase camelCase (.obj [("URL", .num 1)]) = some (.obj [("url", .num 1)]) ∧
    formatKeyAsCamelCase camelCase (.obj [("gameID", .num 1)])
      = some (.obj [("gameId", .num 1)]) := by
  decide

/-- C13 (amended): a key that is a single word of lower-case letters is its
own camelCase form, and so are the camelCase keys `fooBar` and `itemId`; keys
are split at separators, at case boundaries and between letters and digits,
and every word is put in lower case before the words after the first are
capitalized: `Foo`, `URL`, `gameID`, `a1b` become `foo`, `url`, `gameId`,
`a1B`. -/
theorem single_lower_word_unchanged :
    (∀ key : String, key.toList.all Char.isLower = true → camelCase key = key) ∧
    camelCase "fooBar" = "fooBar" ∧ camelCase "itemId" = "itemId" ∧
    camelCase "Foo" = "foo" ∧ camelCase "URL" = "url" ∧ camelCase "gameID" = "gameId" ∧
    camelCase "a1b" = "a1B" :=
  ⟨camelCase_of_lower, by decide, by decide, by decide, by decide, by decide, by decide⟩

/-- Instance of `single_lower_word_unchanged` at the key `speed`. -/
theorem single_lower_word_unchanged_witness : camelCase "speed" = "speed" :=
  single_lower_word_unchanged.1 "speed" (by decide)

/-- C14 (counterexample): the array `[{"a-b": 1}, {"a-b": 2}]` is not returned
as `[{"ab": 1}, {"ab": 2}]`: the camelCase form of `a-b` is `aB`. -/
theorem array_example_counterexample :
    formatKeyAsCamelCase camelCase
        (.arr [.obj [("a-b", .num 1)], .obj [("a-b", .num 2)]])
      ≠ some (.arr [.obj [("ab", .num 1)], .obj [("ab", .num 2)]]) ∧
    camelCase "a-b" = "aB" := by
  decide

/-- C14 (amended): `formatKeyAsCamelCase` applied to the array
`[{"a-b": 1}, {"a-b": 2}]` returns `[{"aB": 1}, {"aB": 2}]`. -/
theorem array_example :
    formatKeyAsCamelCase camelCase
        (.arr [.obj [("a-b", .num 1)], .obj [("a-b", .num 2)]])
      = some (.arr [.obj [("aB", .num 1)], .obj [("aB", .num 2)]]) := by
  decide

/-- C16: when the iteratee processes a key `k` whose camelCase form `c` holds
a value `v` in the mapping, the value stored at `c` is chosen by the
truthiness of `v`.  If the value `o` of `k` is a scalar, `c` receives `v` when
`v` is truthy and `o` when `v` is falsy.  If `o` is an object or array, `c`
receives the renamed `o` when `v` is falsy, and when `v` is truthy it receives
what the recursive call returns for `v` (for the renamed `o` when `c` is `k`
itself, `v` being `o` then). -/
theorem stored_value_by_truthiness (format : Val → Option Val) (cc : String → String)
    (collection : List (String × Val)) (key : String) (v : Val)
    (hproto : cc key ≠ "__proto__")
    (hold : getOwn collection (cc key) = some v) :
    (isObject (getProp collection key) = false →
      ∃ c', formatKey format cc collection key = some c' ∧
        getOwn c' (cc key) = some (if truthy v = true then v else getProp collection key)) ∧
    (isObject (getProp collection key) = true →
      ∀ fo, format (getProp collection key) = some fo →
        (truthy v = false →
          ∃ c', formatKey format cc collection key = some c' ∧
            getOwn c' (cc key) = some fo) ∧
        (truthy v = true →
          ∀ fv, format (if cc key = key then fo else v) = some fv →
            ∃ c', formatKey format cc collection key = some c' ∧
              getOwn c' (cc key) = some fv)) := by
  have hgc : getProp collection (cc key) = v := by simp [getProp, hold]
  refine ⟨?_, ?_⟩
  · intro ho
    refine ⟨setProp (deleteProp collection key) (cc key)
      (if truthy v = true then v else getProp collection key), ?_, ?_⟩
    · simp only [formatKey, hproto, if_false, formatValue, ho, hgc, Option.map_some',
        Bool.false_eq_true]
    · rw [getOwn_setProp]
      simp
  · intro ho fo hfo
    refine ⟨?_, ?_⟩
    · intro hv
      refine ⟨setProp (deleteProp collection key) (cc key) fo, ?_, ?_⟩
      · simp only [formatKey, hproto, if_false, formatValue, ho, hgc, hfo, hv, if_true,
          Option.some_bind, Option.map_some', Bool.false_eq_true]
      · rw [getOwn_setProp]
        simp
    · intro hv fv hfv
      refine ⟨setProp (deleteProp collection key) (cc key) fv, ?_, ?_⟩
      · by_cases hck : cc key = key
        · have hb : (cc key == key) = true := by simpa using hck
          simp only [hck, if_true] at hfv
          simp only [formatKey, hproto, if_false, formatValue, ho, hgc, hfo, hv, hb,
            if_true, hfv, Option.some_bind, Option.map_some']
        · have hb : (cc key == key) = false := by simpa using hck
          simp only [hck, if_false] at hfv
          simp only [formatKey, hproto, if_false, formatValue, ho, hgc, hfo, hv, hb,
            if_true, hfv, Option.some_bind, Option.map_some', Bool.false_eq_true]
      · rw [getOwn_setProp]
        simp

/-- Instance of `stored_value_by_truthiness`: `foo-bar` is processed while
`fooBar` holds `0`, and receives the value `1` of `foo-bar`. -/
theorem stored_value_by_truthiness_witness :
    ∃ c', formatKey (formatAux camelCase 1) camelCase
        [("fooBar", .num 0), ("foo-bar", .num 1)] "foo-bar" = some c' ∧
      getOwn c' (camelCase "foo-bar")
        = some (if truthy (.num 0) = true then .num 0
            else getProp [("fooBar", .num 0), ("foo-bar", .num 1)] "foo-bar") :=
  (stored_value_by_truthiness (formatAux camelCase 1) camelCase
    [("fooBar", .num 0), ("foo-bar", .num 1)] "foo-bar" (.num 0)
    (by decide) (by decide)).1 (by decide)

/-- C17 (counterexample): `{"a-b-c": 1}` is renamed to `{"aBC": 1}`, and
`{"aBC": 1}` is renamed to `{"aBc": 1}`: applying `formatKeyAsCamelCase` twice
is not applying it once. -/
theorem idempotent_counterexample :
    formatKeyAsCamelCase camelCase (.obj [("a-b-c", .num 1)])
      = some (.obj [("aBC", .num 1)]) ∧
    formatKeyAsCamelCase camelCase (.obj [("aBC", .num 1)])
      = some (.obj [("aBc", .num 1)]) ∧
    (formatKeyAsCamelCase camelCase (.obj [("a-b-c", .num 1)])).bind
        (formatKeyAsCamelCase camelCase)
      ≠ formatKeyAsCamelCase camelCase (.obj [("a-b-c", .num 1)]) := by
  decide

/-- C17 (amended): on every `renamable` document (no two keys of a mapping with
the same camelCase form, every camelCase form a fixed point of `camelCase`,
`length` and `__proto__` apart as in `keyRenamable`) that is not a bare
non-empty string, `formatKeyAsCamelCase` is idempotent: it returns a document,
all of whose keys are fixed points of `camelCase`, that a second call returns
unchanged. -/
theorem formatKeyAsCamelCase_idempotent (cc : String → String) (d : Val)
    (hstr : ∀ t, d = .str t → t = "") (hr : renamable cc d = true) :
    ∃ r, formatKeyAsCamelCase cc d = some r ∧ formatKeyAsCamelCase cc r = some r := by
  refine ⟨renameKeys cc d, formatKeyAsCamelCase_eq_renameKeys cc d hstr hr, ?_⟩
  obtain ⟨hr2, hidem⟩ := renameKeys_renamable cc _ _ (Nat.lt_succ_self _) hr
  have hstr2 : ∀ t, renameKeys cc d = .str t → t = "" := by
    intro t e
    cases d <;> simp [renameKeys] at e
    exact hstr t (by rw [e])
  have := formatKeyAsCamelCase_eq_renameKeys cc (renameKeys cc d) hstr2 hr2
  rw [hidem] at this
  exact this

/-- Instance of `formatKeyAsCamelCase_idempotent`. -/
theorem formatKeyAsCamelCase_idempotent_witness :
    ∃ r, formatKeyAsCamelCase camelCase
        (.obj [("item-id", .num 5), ("nested-thing", .obj [("sub-key", .num 1)])]) = some r ∧
      formatKeyAsCamelCase camelCase r = some r :=
  formatKeyAsCamelCase_idempotent camelCase
    (.obj [("item-id", .num 5), ("nested-thing", .obj [("sub-key", .num 1)])])
    (by intro t e; cases e) (by decide)

/-- C18 (the code at the failing input): `{"length": 2, "a-b": 1}` has a
numeric `length`, so `_.each` visits the indices `0` and `1` instead of the
keys: the key `a-b` is not renamed, and the properties `0` and `1` are created
with the value `undefined`. -/
theorem length_key_not_renamed :
    formatKeyAsCamelCase camelCase (.obj [("length", .num 2), ("a-b", .num 1)])
      = some (.obj [("0", .undefined), ("1", .undefined), ("length", .num 2),
          ("a-b", .num 1)]) ∧
    formatKeyAsCamelCase camelCase (.obj [("length", .num 2), ("a-b", .num 1)])
      ≠ some (.obj [("length", .num 2), ("aB", .num 1)]) ∧
    formatKeyAsCamelCase camelCase (.obj [("size", .num 2), ("a-b", .num 1)])
      = some (.obj [("size", .num 2), ("aB", .num 1)]) := by
  decide


/-! ## Theorems on `createFinalDataJsonFiles` -/

theorem requireAndMerge_of_throws (require : String → Option Val) (files : List String) :
    ∀ (gameData : Option Val), (∃ f ∈ files, require f = none) →
      requireAndMerge require gameData files = none := by
  induction files with
  | nil => intro _ h; simp at h
  | cons file rest ih =>
    intro gameData h
    obtain ⟨f, hf, hnone⟩ := h
    cases hr : require file with
    | none => simp [requireAndMerge, hr]
    | some fragment =>
      simp only [requireAndMerge, hr]
      apply ih
      rcases List.mem_cons.1 hf with rfl | hf
      · rw [hr] at hnone
        cases hnone
      · exact ⟨f, hf, hnone⟩

/-- When every file can be loaded, the loop with `require` is the merge loop
over the loaded fragments. -/
theorem requireAndMerge_eq_mergeLoop (require : String → Option Val)
    (files : List String) (fragments : List Val)
    (h : files.map require = fragments.map some) :
    ∀ gameData : Val, requireAndMerge require (some gameData) files
      = some (mergeLoop gameData fragments) := by
  induction files generalizing fragments with
  | nil =>
    intro gameData
    cases fragments with
    | nil => rfl
    | cons _ _ => simp at h
  | cons file rest ih =>
    intro gameData
    cases fragments with
    | nil => simp at h
    | cons fragment frest =>
      simp only [List.map_cons, List.cons.injEq] at h
      simp only [requireAndMerge, h.1, Option.some_bind, mergeLoop]
      cases hm : merge [] [gameData, fragment] with
      | none =>
        simp only [Option.map_none', Option.none_bind]
        clear ih
        induction rest generalizing frest with
        | nil => cases frest <;> simp_all [requireAndMerge]
        | cons f r ihr =>
          cases frest with
          | nil => simp at h
          | cons fr frr =>
            have h2 := h.2
            simp only [List.map_cons, List.cons.injEq] at h2
            simp only [requireAndMerge, h2.1, Option.none_bind]
            exact ihr frr ⟨h.1, h2.2⟩
      | some o =>
        simp only [Option.map_some', Option.some_bind]
        exact ih frest h.2 (.obj o)

/-- C11 (the code at the failing input): when no fragment file is found the
loop never runs, `gameData` is still `undefined`, and both calls of `writeFile`
receive the result `undefined` of `JSON.stringify(undefined)` instead of the
text `{}` (which is the text of the empty mapping). -/
theorem empty_input_writes_undefined (cc : String → String)
    (require : String → Option Val) :
    createFinalDataJsonFiles cc require []
      = some [⟨"data/game-data.json", none⟩,
          ⟨"data/game-data-in-camel-case.json", none⟩] ∧
    mergeFragments [] = some .undefined ∧
    jsonStringify (.obj []) = some "\x7b\x7d" := by
  refine ⟨?_, rfl, by decide⟩
  simp [createFinalDataJsonFiles, sortFiles, sortBy, requireAndMerge, cloneDeep,
    formatKeyAsCamelCase, formatAux, depth, jsonStringify, serialize]

/-- C12: when loading at least one of the fragment files throws,
`createFinalDataJsonFiles` makes no call of `writeFile` and returns. -/
theorem malformed_fragment_writes_nothing (cc : String → String)
    (require : String → Option Val) (dataFiles : List String)
    (h : ∃ f ∈ dataFiles, require f = none) :
    createFinalDataJsonFiles cc require dataFiles = some [] := by
  obtain ⟨f, hf, hnone⟩ := h
  have hmem : f ∈ sortFiles dataFiles := (sortBy_perm slashCount dataFiles).symm.subset hf
  simp [createFinalDataJsonFiles,
    requireAndMerge_of_throws require _ (some .undefined) ⟨f, hmem, hnone⟩]

/-- Instance of `malformed_fragment_writes_nothing`: the second of two fragment
files cannot be loaded. -/
theorem malformed_fragment_writes_nothing_witness :
    createFinalDataJsonFiles camelCase
      (fun f => if f = "components/data.json" then some (.obj [("a", .num 1)]) else none)
      ["components/x/data.json", "components/data.json"] = some [] :=
  malformed_fragment_writes_nothing camelCase
    (fun f => if f = "components/data.json" then some (.obj [("a", .num 1)]) else none)
    ["components/x/data.json", "components/data.json"]
    ⟨"components/x/data.json", by decide, by decide⟩


/-! ## Lemmas on the heap -/

theorem framePres_refl {N : Nat} {h : Heap} (hc : ClosedAbove h N) : FramePres N h h :=
  ⟨fun _ _ => rfl, hc⟩

theorem framePres_trans {N : Nat} {h h1 h2 : Heap} (h01 : FramePres N h h1)
    (h12 : FramePres N h1 h2) : FramePres N h h2 :=
  ⟨fun b hb => (h12.1 b hb).trans (h01.1 b hb), h12.2⟩

theorem framePres_set {N : Nat} {h : Heap} (hc : ClosedAbove h N) {a : Nat}
    (ha : N ≤ a) {c : Cell} (hvals : ∀ x ∈ cellVals c, Above N x) :
    FramePres N h (h.set a c) := by
  refine ⟨?_, ?_⟩
  · intro b hb
    rw [List.getElem?_set_ne (by omega)]
  · intro a' cell' ha' hget x hx
    by_cases e : a = a'
    · subst e
      rw [List.getElem?_set_self'] at hget
      cases hlt : h[a]? with
      | none => simp [hlt] at hget
      | some old =>
        simp [hlt] at hget
        subst hget
        exact hvals x hx
    · rw [List.getElem?_set_ne e] at hget
      exact hc a' cell' ha' hget x hx

theorem above_hGetOwn {N : Nat} {es : List (String × HVal)}
    (h : ∀ x ∈ es.map Prod.snd, Above N x) {k : String} {v : HVal}
    (hk : hGetOwn es k = some v) : Above N v := by
  induction es with
  | nil => simp [hGetOwn] at hk
  | cons e es ih =>
    obtain ⟨k0, v0⟩ := e
    by_cases h0 : k0 = k
    · simp [hGetOwn, h0] at hk
      subst hk
      exact h v0 (by simp)
    · simp [hGetOwn, h0] at hk
      exact ih (fun x hx => h x (by simp at hx ⊢; exact Or.inr hx)) hk

theorem above_hGetProp {N : Nat} {es : List (String × HVal)}
    (h : ∀ x ∈ es.map Prod.snd, Above N x) (k : String) : Above N (hGetProp es k) := by
  unfold hGetProp
  cases hk : hGetOwn es k with
  | some v => exact above_hGetOwn h hk
  | none =>
    simp only []
    split <;> simp [Above]

theorem vals_hSetProp {es : List (String × HVal)} {k : String} {v x : HVal}
    (h : x ∈ (hSetProp es k v).map Prod.snd) : x = v ∨ x ∈ es.map Prod.snd := by
  induction es with
  | nil => simpa [hSetProp] using h
  | cons e es ih =>
    obtain ⟨k0, v0⟩ := e
    by_cases h0 : k0 = k
    · simp only [hSetProp, h0, if_true, List.map_cons, List.mem_cons] at h ⊢
      rcases h with h | h
      · exact Or.inl h
      · exact Or.inr (Or.inr h)
    · by_cases hb : keyBefore k k0 = true
      · simp only [hSetProp, h0, hb, if_false, if_true, List.map_cons, List.mem_cons] at h ⊢
        exact h
      · simp only [hSetProp, h0, hb, if_false, List.map_cons, List.mem_cons,
          Bool.false_eq_true] at h ⊢
        rcases h with h | h
        · exact Or.inr (Or.inl h)
        · rcases ih h with h | h
          · exact Or.inl h
          · exact Or.inr (Or.inr h)

theorem vals_hDeleteProp {es : List (String × HVal)} {k : String} {x : HVal}
    (h : x ∈ (hDeleteProp es k).map Prod.snd) : x ∈ es.map Prod.snd := by
  obtain ⟨e, he, hx⟩ := List.mem_map.1 h
  exact List.mem_map.2 ⟨e, List.mem_of_mem_filter he, hx⟩

theorem deleteAt_frame {N : Nat} {h h' : Heap} (hc : ClosedAbove h N) {a : Nat}
    (ha : N ≤ a) {key : String} (hd : deleteAt h a key = some h') : FramePres N h h' := by
  unfold deleteAt at hd
  split at hd
  · rename_i es hes
    simp only [Option.some.injEq] at hd
    subst hd
    apply framePres_set hc ha
    intro x hx
    exact hc a _ ha hes x (vals_hDeleteProp hx)
  · simp at hd

theorem assignAt_frame {N : Nat} {h h' : Heap} (hc : ClosedAbove h N) {a : Nat}
    (ha : N ≤ a) {key : String} {v : HVal} (hv : Above N v)
    (hd : assignAt h a key v = some h') : FramePres N h h' := by
  unfold assignAt at hd
  split at hd
  · rename_i es hes
    simp only [Option.some.injEq] at hd
    subst hd
    apply framePres_set hc ha
    intro x hx
    rcases vals_hSetProp hx with rfl | hx
    · exact hv
    · exact hc a _ ha hes x hx
  · simp at hd

theorem assignIndexAt_frame {N : Nat} {h h' : Heap} (hc : ClosedAbove h N) {a : Nat}
    (ha : N ≤ a) {i : Nat} {v : HVal} (hv : Above N v)
    (hd : assignIndexAt h a i v = some h') : FramePres N h h' := by
  unfold assignIndexAt at hd
  split at hd
  · rename_i xs hxs
    simp only [Option.some.injEq] at hd
    subst hd
    apply framePres_set hc ha
    intro x hx
    rcases List.mem_or_eq_of_mem_set hx with hx | rfl
    · exact hc a _ ha hxs x hx
    · exact hv
  · simp at hd

theorem forEachM_frame {κ : Type} {N : Nat} {step : Heap → κ → Option Heap}
    (hstep : ∀ s k t, ClosedAbove s N → step s k = some t → FramePres N s t)
    (ks : List κ) :
    ∀ h h', ClosedAbove h N → forEachM step h ks = some h' → FramePres N h h' := by
  induction ks with
  | nil =>
    intro h h' hc hf
    simp only [forEachM, Option.some.injEq] at hf
    subst hf
    exact framePres_refl hc
  | cons k ks ih =>
    intro h h' hc hf
    simp only [forEachM, Option.bind_eq_some] at hf
    obtain ⟨t, ht, hrest⟩ := hf
    have h1 := hstep h k t hc ht
    exact framePres_trans h1 (ih t h' h1.2 hrest)


theorem above_ite {N : Nat} {c : Bool} {x y : HVal} (hx : Above N x) (hy : Above N y) :
    Above N (if c = true then x else y) := by
  cases c <;> simpa

theorem formatKeyInPlace_frame {N : Nat} {format : Heap → HVal → Option Heap}
    (hfmt : FormatOK N format) (cc : String → String) {a : Nat} (ha : N ≤ a)
    (h : Heap) (key : String) (h' : Heap) (hc : ClosedAbove h N)
    (hf : formatKeyInPlace format cc a h key = some h') : FramePres N h h' := by
  unfold formatKeyInPlace at hf
  split at hf
  · rename_i es hes
    have hvals : ∀ x ∈ es.map Prod.snd, Above N x := hc a _ ha hes
    have ho := above_hGetProp hvals key
    have hold := above_hGetProp hvals (cc key)
    simp only [] at hf
    split at hf
    · simp at hf
    · split at hf
      · simp only [Option.bind_eq_some] at hf
        obtain ⟨h1, hf1, h2, hf2, h3, hf3, hf4⟩ := hf
        have p1 := hfmt h _ h1 hc ho hf1
        have p2 := deleteAt_frame p1.2 ha hf2
        have p3 : FramePres N h2 h3 := by
          split at hf3
          · exact hfmt h2 _ h3 p2.2 hold hf3
          · simp only [Option.some.injEq] at hf3
            subst hf3
            exact framePres_refl p2.2
        have p4 := assignAt_frame p3.2 ha (above_ite hold ho) hf4
        exact framePres_trans p1 (framePres_trans p2 (framePres_trans p3 p4))
      · simp only [Option.bind_eq_some] at hf
        obtain ⟨h2, hf2, hf4⟩ := hf
        have p2 := deleteAt_frame hc ha hf2
        have p4 := assignAt_frame p2.2 ha (above_ite hold ho) hf4
        exact framePres_trans p2 p4
  · simp at hf

theorem above_getD {N : Nat} {xs : List HVal} (h : ∀ x ∈ xs, Above N x) (i : Nat) :
    Above N (xs.getD i .undefined) := by
  rw [List.getD_eq_getElem?_getD]
  cases hi : xs[i]? with
  | none => simp [Above]
  | some v => exact h v (List.getElem?_mem hi)

theorem formatIndexInPlace_frame {N : Nat} {format : Heap → HVal → Option Heap}
    (hfmt : FormatOK N format) {a : Nat} (ha : N ≤ a)
    (h : Heap) (i : Nat) (h' : Heap) (hc : ClosedAbove h N)
    (hf : formatIndexInPlace format a h i = some h') : FramePres N h h' := by
  unfold formatIndexInPlace at hf
  split at hf
  · rename_i xs hxs
    have hvals : ∀ x ∈ xs, Above N x := hc a _ ha hxs
    have ho := above_getD hvals i
    have hu : Above N HVal.undefined := by simp [Above]
    simp only [] at hf
    split at hf
    · simp only [Option.bind_eq_some] at hf
      obtain ⟨h1, hf1, h2, hf2, h3, hf3, hf4⟩ := hf
      have p1 := hfmt h _ h1 hc ho hf1
      have p2 := assignIndexAt_frame p1.2 ha hu hf2
      have p3 : FramePres N h2 h3 := by
        split at hf3
        · exact hfmt h2 _ h3 p2.2 ho hf3
        · simp only [Option.some.injEq] at hf3
          subst hf3
          exact framePres_refl p2.2
      have p4 := assignIndexAt_frame p3.2 ha ho hf4
      exact framePres_trans p1 (framePres_trans p2 (framePres_trans p3 p4))
    · simp only [Option.bind_eq_some] at hf
      obtain ⟨h2, hf2, hf4⟩ := hf
      have p2 := assignIndexAt_frame hc ha hu hf2
      have p4 := assignIndexAt_frame p2.2 ha ho hf4
      exact framePres_trans p2 p4
  · simp at hf

/-- Renaming in place an object from address `N` on, in a heap whose cells
from `N` on hold addresses from `N` on only, changes no cell below `N`. -/
theorem formatInPlaceAux_frame (cc : String → String) (N : Nat) :
    ∀ fuel, FormatOK N (formatInPlaceAux cc fuel) := by
  intro fuel
  induction fuel with
  | zero =>
    intro h x h' _ _ hf
    simp [formatInPlaceAux] at hf
  | succ fuel ih =>
    intro h x h' hc hx hf
    cases x with
    | ref a =>
      have ha : N ≤ a := hx
      simp only [formatInPlaceAux] at hf
      split at hf
      · exact forEachM_frame
          (fun s k t hs hst => formatIndexInPlace_frame ih ha s k t hs hst) _ h h' hc hf
      · split at hf
        · exact forEachM_frame
            (fun s k t hs hst => formatKeyInPlace_frame ih id ha s k t hs hst) _ h h' hc hf
        · exact forEachM_frame
            (fun s k t hs hst => formatKeyInPlace_frame ih cc ha s k t hs hst) _ h h' hc hf
      · simp at hf
    | str t =>
      simp only [formatInPlaceAux] at hf
      split at hf
      · simp only [Option.some.injEq] at hf
        subst hf
        exact framePres_refl hc
      · simp at hf
    | undefined =>
      simp only [formatInPlaceAux, Option.some.injEq] at hf
      subst hf
      exact framePres_refl hc
    | null =>
      simp only [formatInPlaceAux, Option.some.injEq] at hf
      subst hf
      exact framePres_refl hc
    | bool b =>
      simp only [formatInPlaceAux, Option.some.injEq] at hf
      subst hf
      exact framePres_refl hc
    | num n =>
      simp only [formatInPlaceAux, Option.some.injEq] at hf
      subst hf
      exact framePres_refl hc
    | fn name =>
      simp only [formatInPlaceAux, Option.some.injEq] at hf
      subst hf
      exact framePres_refl hc


theorem store_arr (h : Heap) (xs : List Val) :
    store h (.arr xs)
      = ((storeList h xs).1 ++ [Cell.arr (storeList h xs).2],
          .ref (storeList h xs).1.length) := by
  simp only [store]

theorem store_obj (h : Heap) (es : List (String × Val)) :
    store h (.obj es)
      = ((storeEntries h es).1 ++ [Cell.obj (storeEntries h es).2],
          .ref (storeEntries h es).1.length) := by
  simp only [store]

theorem storeList_cons (h : Heap) (x : Val) (xs : List Val) :
    storeList h (x :: xs)
      = ((storeList (store h x).1 xs).1, (store h x).2 :: (storeList (store h x).1 xs).2) := by
  simp only [storeList]

theorem storeEntries_cons (h : Heap) (k : String) (v : Val) (es : List (String × Val)) :
    storeEntries h ((k, v) :: es)
      = ((storeEntries (store h v).1 es).1,
          (k, (store h v).2) :: (storeEntries (store h v).1 es).2) := by
  simp only [storeEntries]

theorem above_mono {N M : Nat} {x : HVal} (h : Above N x) (hle : M ≤ N) : Above M x := by
  cases x <;> simp only [Above] at h ⊢
  omega

theorem below_mono {N M : Nat} {x : HVal} (h : Below N x) (hle : N ≤ M) : Below M x := by
  cases x <;> simp only [Below] at h ⊢
  omega

mutual
/-- Allocation appends cells; the new cells and the result hold addresses of
new cells only. -/
theorem store_spec : ∀ (v : Val) (h : Heap),
    ∃ ext, (store h v).1 = h ++ ext ∧
      (∀ cell ∈ ext, ∀ y ∈ cellVals cell,
        Above h.length y ∧ Below (h.length + ext.length) y) ∧
      Above h.length (store h v).2 ∧ Below (h.length + ext.length) (store h v).2
  | .undefined, h => ⟨[], by simp [store, Above, Below]⟩
  | .null, h => ⟨[], by simp [store, Above, Below]⟩
  | .bool _, h => ⟨[], by simp [store, Above, Below]⟩
  | .num _, h => ⟨[], by simp [store, Above, Below]⟩
  | .str _, h => ⟨[], by simp [store, Above, Below]⟩
  | .fn _, h => ⟨[], by simp [store, Above, Below]⟩
  | .arr xs, h => by
    obtain ⟨ext, he, hcells, hys⟩ := storeList_spec xs h
    refine ⟨ext ++ [Cell.arr (storeList h xs).2], ?_, ?_, ?_, ?_⟩
    · rw [store_arr, he, List.append_assoc]
    · intro cell hcell y hy
      rcases List.mem_append.1 hcell with hcell | hcell
      · obtain ⟨h1, h2⟩ := hcells cell hcell y hy
        exact ⟨h1, below_mono h2 (by simp only [List.length_append, List.length_cons, List.length_nil]; omega)⟩
      · simp only [List.mem_singleton] at hcell
        subst hcell
        obtain ⟨h1, h2⟩ := hys y hy
        exact ⟨h1, below_mono h2 (by simp only [List.length_append, List.length_cons, List.length_nil]; omega)⟩
    · rw [store_arr, he]
      simp [Above]
    · rw [store_arr, he]
      simp [Below]
  | .obj es, h => by
    obtain ⟨ext, he, hcells, hys⟩ := storeEntries_spec es h
    refine ⟨ext ++ [Cell.obj (storeEntries h es).2], ?_, ?_, ?_, ?_⟩
    · rw [store_obj, he, List.append_assoc]
    · intro cell hcell y hy
      rcases List.mem_append.1 hcell with hcell | hcell
      · obtain ⟨h1, h2⟩ := hcells cell hcell y hy
        exact ⟨h1, below_mono h2 (by simp only [List.length_append, List.length_cons, List.length_nil]; omega)⟩
      · simp only [List.mem_singleton] at hcell
        subst hcell
        obtain ⟨h1, h2⟩ := hys y hy
        exact ⟨h1, below_mono h2 (by simp only [List.length_append, List.length_cons, List.length_nil]; omega)⟩
    · rw [store_obj, he]
      simp [Above]
    · rw [store_obj, he]
      simp [Below]
/-- Allocation of the elements of an array. -/
theorem storeList_spec : ∀ (xs : List Val) (h : Heap),
    ∃ ext, (storeList h xs).1 = h ++ ext ∧
      (∀ cell ∈ ext, ∀ y ∈ cellVals cell,
        Above h.length y ∧ Below (h.length + ext.length) y) ∧
      ∀ y ∈ (storeList h xs).2, Above h.length y ∧ Below (h.length + ext.length) y
  | [], h => ⟨[], by simp [storeList]⟩
  | x :: xs, h => by
    obtain ⟨e1, he1, hc1, ha1, hb1⟩ := store_spec x h
    obtain ⟨e2, he2, hc2, hy2⟩ := storeList_spec xs (store h x).1
    have hlen : (store h x).1.length = h.length + e1.length := by rw [he1]; simp
    refine ⟨e1 ++ e2, ?_, ?_, ?_⟩
    · rw [storeList_cons]
      simp only []
      rw [he2, he1, List.append_assoc]
    · intro cell hcell y hy
      rcases List.mem_append.1 hcell with hcell | hcell
      · obtain ⟨h1, h2⟩ := hc1 cell hcell y hy
        exact ⟨h1, below_mono h2 (by simp only [List.length_append, List.length_cons, List.length_nil]; omega)⟩
      · obtain ⟨h1, h2⟩ := hc2 cell hcell y hy
        rw [hlen] at h1 h2
        exact ⟨above_mono h1 (by omega), below_mono h2 (by simp only [List.length_append, List.length_cons, List.length_nil]; omega)⟩
    · intro y hy
      rw [storeList_cons] at hy
      rcases List.mem_cons.1 hy with rfl | hy
      · exact ⟨ha1, below_mono hb1 (by simp only [List.length_append, List.length_cons, List.length_nil]; omega)⟩
      · obtain ⟨h1, h2⟩ := hy2 y hy
        rw [hlen] at h1 h2
        exact ⟨above_mono h1 (by omega), below_mono h2 (by simp only [List.length_append, List.length_cons, List.length_nil]; omega)⟩
/-- Allocation of the property values of a mapping. -/
theorem storeEntries_spec : ∀ (es : List (String × Val)) (h : Heap),
    ∃ ext, (storeEntries h es).1 = h ++ ext ∧
      (∀ cell ∈ ext, ∀ y ∈ cellVals cell,
        Above h.length y ∧ Below (h.length + ext.length) y) ∧
      ∀ y ∈ (storeEntries h es).2.map Prod.snd,
        Above h.length y ∧ Below (h.length + ext.length) y
  | [], h => ⟨[], by simp [storeEntries]⟩
  | (k, v) :: es, h => by
    obtain ⟨e1, he1, hc1, ha1, hb1⟩ := store_spec v h
    obtain ⟨e2, he2, hc2, hy2⟩ := storeEntries_spec es (store h v).1
    have hlen : (store h v).1.length = h.length + e1.length := by rw [he1]; simp
    refine ⟨e1 ++ e2, ?_, ?_, ?_⟩
    · rw [storeEntries_cons]
      simp only []
      rw [he2, he1, List.append_assoc]
    · intro cell hcell y hy
      rcases List.mem_append.1 hcell with hcell | hcell
      · obtain ⟨h1, h2⟩ := hc1 cell hcell y hy
        exact ⟨h1, below_mono h2 (by simp only [List.length_append, List.length_cons, List.length_nil]; omega)⟩
      · obtain ⟨h1, h2⟩ := hc2 cell hcell y hy
        rw [hlen] at h1 h2
        exact ⟨above_mono h1 (by omega), below_mono h2 (by simp only [List.length_append, List.length_cons, List.length_nil]; omega)⟩
    · intro y hy
      rw [storeEntries_cons] at hy
      simp only [List.map_cons, List.mem_cons] at hy
      rcases hy with rfl | hy
      · exact ⟨ha1, below_mono hb1 (by simp only [List.length_append, List.length_cons, List.length_nil]; omega)⟩
      · obtain ⟨h1, h2⟩ := hy2 y hy
        rw [hlen] at h1 h2
        exact ⟨above_mono h1 (by omega), below_mono h2 (by simp only [List.length_append, List.length_cons, List.length_nil]; omega)⟩
end


theorem store_prefix (v : Val) (h : Heap) (b : Nat) (hb : b < h.length) :
    (store h v).1[b]? = h[b]? := by
  obtain ⟨ext, he, _⟩ := store_spec v h
  rw [he, List.getElem?_append_left hb]

theorem storeList_prefix (xs : List Val) (h : Heap) (b : Nat) (hb : b < h.length) :
    (storeList h xs).1[b]? = h[b]? := by
  obtain ⟨ext, he, _⟩ := storeList_spec xs h
  rw [he, List.getElem?_append_left hb]

theorem storeEntries_prefix (es : List (String × Val)) (h : Heap) (b : Nat)
    (hb : b < h.length) : (storeEntries h es).1[b]? = h[b]? := by
  obtain ⟨ext, he, _⟩ := storeEntries_spec es h
  rw [he, List.getElem?_append_left hb]

theorem depthList_cons (x : Val) (xs : List Val) :
    depth.depthList (x :: xs) = max (depth x) (depth.depthList xs) := rfl

theorem depthEntries_cons (k : String) (v : Val) (es : List (String × Val)) :
    depth.depthEntries ((k, v) :: es) = max (depth v) (depth.depthEntries es) := rfl

mutual
/-- A document that has been allocated is read back from every heap that has
the cells of the allocation. -/
theorem load_store : ∀ (v : Val) (h h2 : Heap) (fuel : Nat), depth v < fuel →
    (∀ b, b < (store h v).1.length → h2[b]? = (store h v).1[b]?) →
    load h2 fuel (store h v).2 = some v
  | .undefined, h, h2, fuel, _, _ => by cases fuel <;> simp [store, load]
  | .null, h, h2, fuel, _, _ => by cases fuel <;> simp [store, load]
  | .bool _, h, h2, fuel, _, _ => by cases fuel <;> simp [store, load]
  | .num _, h, h2, fuel, _, _ => by cases fuel <;> simp [store, load]
  | .str _, h, h2, fuel, _, _ => by cases fuel <;> simp [store, load]
  | .fn _, h, h2, fuel, _, _ => by cases fuel <;> simp [store, load]
  | .arr xs, h, h2, fuel, hd, hag => by
    rw [depth_arr] at hd
    cases fuel with
    | zero => omega
    | succ f =>
      rw [store_arr] at hag ⊢
      simp only [] at hag ⊢
      have hcell : h2[(storeList h xs).1.length]? = some (Cell.arr (storeList h xs).2) := by
        rw [hag _ (by simp)]
        simp
      have := load_storeList xs h h2 f (by omega) (by
        intro b hb
        rw [hag b (by simp; omega), List.getElem?_append_left hb])
      simp [load, hcell, this]
  | .obj es, h, h2, fuel, hd, hag => by
    rw [depth_obj] at hd
    cases fuel with
    | zero => omega
    | succ f =>
      rw [store_obj] at hag ⊢
      simp only [] at hag ⊢
      have hcell : h2[(storeEntries h es).1.length]?
          = some (Cell.obj (storeEntries h es).2) := by
        rw [hag _ (by simp)]
        simp
      have := load_storeEntries es h h2 f (by omega) (by
        intro b hb
        rw [hag b (by simp; omega), List.getElem?_append_left hb])
      simp [load, hcell, this]
/-- The elements of an array that has been allocated are read back. -/
theorem load_storeList : ∀ (xs : List Val) (h h2 : Heap) (fuel : Nat),
    depth.depthList xs < fuel →
    (∀ b, b < (storeList h xs).1.length → h2[b]? = (storeList h xs).1[b]?) →
    traverse (load h2 fuel) (storeList h xs).2 = some xs
  | [], h, h2, fuel, _, _ => by simp [storeList, traverse]
  | x :: xs, h, h2, fuel, hd, hag => by
    rw [depthList_cons] at hd
    rw [storeList_cons] at hag ⊢
    simp only [] at hag ⊢
    obtain ⟨e2, he2, _⟩ := storeList_spec xs (store h x).1
    have h1 := load_store x h h2 fuel (by omega) (by
      intro b hb
      rw [hag b (by rw [he2]; simp; omega), storeList_prefix xs _ b hb])
    have h2' := load_storeList xs (store h x).1 h2 fuel (by omega) hag
    simp [traverse, h1, h2']
/-- The properties of a mapping that has been allocated are read back. -/
theorem load_storeEntries : ∀ (es : List (String × Val)) (h h2 : Heap) (fuel : Nat),
    depth.depthEntries es < fuel →
    (∀ b, b < (storeEntries h es).1.length → h2[b]? = (storeEntries h es).1[b]?) →
    traverse (fun e => (load h2 fuel e.2).map fun v => (e.1, v)) (storeEntries h es).2
      = some es
  | [], h, h2, fuel, _, _ => by simp [storeEntries, traverse]
  | (k, v) :: es, h, h2, fuel, hd, hag => by
    rw [depthEntries_cons] at hd
    rw [storeEntries_cons] at hag ⊢
    simp only [] at hag ⊢
    obtain ⟨e2, he2, _⟩ := storeEntries_spec es (store h v).1
    have h1 := load_store v h h2 fuel (by omega) (by
      intro b hb
      rw [hag b (by rw [he2]; simp; omega), storeEntries_prefix es _ b hb])
    have h2' := load_storeEntries es (store h v).1 h2 fuel (by omega) hag
    simp [traverse, h1, h2']
end

theorem reach_above {h : Heap} {N : Nat} (hc : ClosedAbove h N) {x : HVal} {b : Nat}
    (hr : Reach h x b) : Above N x → N ≤ b := by
  induction hr with
  | here a => exact fun ha => ha
  | step a cell x b hget hx _ ih =>
    intro ha
    exact ih (hc a cell ha hget x hx)

theorem reach_below {h : Heap} {N : Nat} (hc : ClosedBelow h N) {x : HVal} {b : Nat}
    (hr : Reach h x b) : Below N x → b < N := by
  induction hr with
  | here a => exact fun ha => ha
  | step a cell x b hget hx _ ih =>
    intro ha
    exact ih (hc a cell ha hget x hx)

theorem cloneDeep_eq : ∀ v : Val, cloneDeep v = v := by
  intro v
  have key : ∀ n (v : Val), depth v < n → cloneDeep v = v := by
    intro n
    induction n with
    | zero => intro v h; omega
    | succ n ih =>
      intro v h
      cases v with
      | arr xs =>
        rw [depth_arr] at h
        have : ∀ l : List Val, (∀ x ∈ l, depth x < n) → cloneDeepList l = l := by
          intro l
          induction l with
          | nil => intro _; rfl
          | cons x l ihl =>
            intro hl
            simp only [cloneDeepList]
            rw [ih x (hl x (by simp)), ihl fun y hy => hl y (List.mem_cons_of_mem _ hy)]
        simp only [cloneDeep]
        rw [this xs fun x hx => by have := depth_le_depthList hx; omega]
      | obj es =>
        rw [depth_obj] at h
        have : ∀ l : List (String × Val), (∀ e ∈ l, depth e.2 < n) →
            cloneDeepEntries l = l := by
          intro l
          induction l with
          | nil => intro _; rfl
          | cons e l ihl =>
            obtain ⟨k, w⟩ := e
            intro hl
            simp only [cloneDeepEntries]
            rw [ih w (hl (k, w) (by simp)), ihl fun y hy => hl y (List.mem_cons_of_mem _ hy)]
        simp only [cloneDeep]
        rw [this es fun e he => by have := depth_le_depthEntries he; omega]
      | undefined => rfl
      | null => rfl
      | bool b => rfl
      | num m => rfl
      | str t => rfl
      | fn name => rfl
  exact key (depth v + 1) v (Nat.lt_succ_self _)


/-- C15: independence of the two outputs.  Let the merged document `gameData`
be in the heap, let `_.cloneDeep(gameData)` allocate its copy, and let
`formatKeyAsCamelCase` rename the copy in place.  Then the copy held the same
document as `gameData` before the renaming; after the renaming the heap still
holds under `gameData` the merged document as it was (so this is what
`JSON.stringify(gameData)` serialises), no cell of it has been changed, and no
cell is reachable both from `gameData` and from the renamed copy. -/
theorem renamed_copy_is_independent (cc : String → String) (gameData : Val)
    (h3 : Heap)
    (hfmt : formatInPlace cc (store (store [] gameData).1 (cloneDeep gameData)).1
      (store (store [] gameData).1 (cloneDeep gameData)).2 = some h3) :
    load (store (store [] gameData).1 (cloneDeep gameData)).1 (depth gameData + 1)
        (store (store [] gameData).1 (cloneDeep gameData)).2 = some gameData ∧
    load h3 (depth gameData + 1) (store [] gameData).2 = some gameData ∧
    (∀ b, b < (store [] gameData).1.length → h3[b]? = (store [] gameData).1[b]?) ∧
    ∀ a, ¬ (Reach h3 (store [] gameData).2 a ∧
      Reach h3 (store (store [] gameData).1 (cloneDeep gameData)).2 a) := by
  obtain ⟨e1, he1, hc1, _, hg⟩ := store_spec gameData []
  obtain ⟨e2, he2, hc2, hc, _⟩ := store_spec (cloneDeep gameData) (store [] gameData).1
  simp only [List.nil_append, List.length_nil, Nat.zero_add] at he1 hc1 hg
  have hN : (store [] gameData).1.length = e1.length := by rw [he1]
  have hclosed2 : ClosedAbove (store (store [] gameData).1 (cloneDeep gameData)).1
      (store [] gameData).1.length := by
    intro a cell ha hget x hx
    rw [he2, List.getElem?_append_right ha] at hget
    exact (hc2 cell (List.getElem?_mem hget) x hx).1
  have hframe := formatInPlaceAux_frame cc (store [] gameData).1.length _ _ _ h3
    hclosed2 hc hfmt
  have hagree : ∀ b, b < (store [] gameData).1.length →
      h3[b]? = (store [] gameData).1[b]? := by
    intro b hb
    rw [hframe.1 b hb, store_prefix _ _ b hb]
  have hbelow : ClosedBelow h3 (store [] gameData).1.length := by
    intro a cell ha hget x hx
    rw [hagree a ha] at hget
    have hmem : cell ∈ e1 := by
      rw [he1] at hget
      exact List.getElem?_mem hget
    rw [hN]
    exact (hc1 cell hmem x hx).2
  refine ⟨?_, load_store gameData [] h3 _ (Nat.lt_succ_self _) hagree, hagree, ?_⟩
  · have := load_store (cloneDeep gameData) (store [] gameData).1
      (store (store [] gameData).1 (cloneDeep gameData)).1 (depth gameData + 1)
      (by rw [cloneDeep_eq]; exact Nat.lt_succ_self _) (fun _ _ => rfl)
    rw [this, cloneDeep_eq]
  · intro a hreach
    have h1 := reach_below hbelow hreach.1 (by rw [hN]; exact hg)
    have h2 := reach_above hframe.2 hreach.2 hc
    omega

/-- Instance of `renamed_copy_is_independent`: the merged document
`{"a-b": {"q-r": 1}}` occupies the cells 0 and 1, its copy the cells 2 and 3;
the renaming rewrites the cells 2 and 3 only. -/
theorem renamed_copy_is_independent_witness :
    load (store (store [] (.obj [("a-b", .obj [("q-r", .num 1)])])).1
          (cloneDeep (.obj [("a-b", .obj [("q-r", .num 1)])]))).1
        (depth (.obj [("a-b", .obj [("q-r", .num 1)])]) + 1)
        (store (store [] (.obj [("a-b", .obj [("q-r", .num 1)])])).1
          (cloneDeep (.obj [("a-b", .obj [("q-r", .num 1)])]))).2
      = some (.obj [("a-b", .obj [("q-r", .num 1)])]) ∧
    load [Cell.obj [("q-r", .num 1)], Cell.obj [("a-b", .ref 0)],
          Cell.obj [("qR", .num 1)], Cell.obj [("aB", .ref 2)]]
        (depth (.obj [("a-b", .obj [("q-r", .num 1)])]) + 1)
        (store [] (.obj [("a-b", .obj [("q-r", .num 1)])])).2
      = some (.obj [("a-b", .obj [("q-r", .num 1)])]) ∧
    (∀ b, b < (store [] (.obj [("a-b", .obj [("q-r", .num 1)])])).1.length →
      [Cell.obj [("q-r", .num 1)], Cell.obj [("a-b", .ref 0)],
          Cell.obj [("qR", .num 1)], Cell.obj [("aB", .ref 2)]][b]?
        = (store [] (.obj [("a-b", .obj [("q-r", .num 1)])])).1[b]?) ∧
    ∀ a, ¬ (Reach [Cell.obj [("q-r", .num 1)], Cell.obj [("a-b", .ref 0)],
          Cell.obj [("qR", .num 1)], Cell.obj [("aB", .ref 2)]]
        (store [] (.obj [("a-b", .obj [("q-r", .num 1)])])).2 a ∧
      Reach [Cell.obj [("q-r", .num 1)], Cell.obj [("a-b", .ref 0)],
          Cell.obj [("qR", .num 1)], Cell.obj [("aB", .ref 2)]]
        (store (store [] (.obj [("a-b", .obj [("q-r", .num 1)])])).1
          (cloneDeep (.obj [("a-b", .obj [("q-r", .num 1)])]))).2 a) :=
  renamed_copy_is_independent camelCase (.obj [("a-b", .obj [("q-r", .num 1)])])
    [Cell.obj [("q-r", .num 1)], Cell.obj [("a-b", .ref 0)],
      Cell.obj [("qR", .num 1)], Cell.obj [("aB", .ref 2)]]
    (by decide)


/-! ## The merge of plain fragments is defined -/

theorem isPlainEntries_iff {es : List (String × Val)} :
    isPlainEntries es = true ↔ ∀ e ∈ es, e.1 ≠ "__proto__" ∧ isPlain e.2 = true := by
  induction es with
  | nil => simp [isPlainEntries]
  | cons e es ih =>
    obtain ⟨k, v⟩ := e
    simp [isPlainEntries, ih, and_assoc]

theorem assignMergeValue_of_isPlain (os : List (String × Val)) (k : String) {v : Val}
    (h : isPlain v = true) : assignMergeValue os k v = setProp os k v := by
  cases v <;> simp [isPlain] at h <;> simp [assignMergeValue]

mutual
/-- Merging a plain document onto nothing or onto a plain document gives a
plain document. -/
theorem mergeValue_defined : ∀ (src : Val) (cur : Option Val), isPlain src = true →
    (∀ c, cur = some c → isPlain c = true) →
    ∃ r, mergeValue cur src = some r ∧ isPlain r = true
  | .undefined, _, h, _ => by simp [isPlain] at h
  | .fn _, _, h, _ => by simp [isPlain] at h
  | .arr _, _, h, _ => by simp [isPlain] at h
  | .null, _, _, _ => ⟨.null, by simp [mergeValue], rfl⟩
  | .bool b, _, _, _ => ⟨.bool b, by simp [mergeValue], rfl⟩
  | .num n, _, _, _ => ⟨.num n, by simp [mergeValue], rfl⟩
  | .str t, _, _, _ => ⟨.str t, by simp [mergeValue], rfl⟩
  | .obj ss, cur, h, hcur => by
    have hss : isPlainEntries ss = true := by simpa [isPlain] using h
    cases cur with
    | none =>
      obtain ⟨r, hr, hp⟩ := mergeProps_defined ss [] hss (by simp)
      exact ⟨.obj r, by simp [mergeValue, hr], by simpa [isPlain] using isPlainEntries_iff.2 hp⟩
    | some c =>
      have hc := hcur c rfl
      cases c with
      | obj os =>
        have hos : isPlainEntries os = true := by simpa [isPlain] using hc
        obtain ⟨r, hr, hp⟩ := mergeProps_defined ss os hss (isPlainEntries_iff.1 hos)
        exact ⟨.obj r, by simp [mergeValue, hr],
          by simpa [isPlain] using isPlainEntries_iff.2 hp⟩
      | arr _ => simp [isPlain] at hc
      | undefined => simp [isPlain] at hc
      | fn _ => simp [isPlain] at hc
      | null =>
        obtain ⟨r, hr, hp⟩ := mergeProps_defined ss [] hss (by simp)
        exact ⟨.obj r, by simp [mergeValue, hr],
          by simpa [isPlain] using isPlainEntries_iff.2 hp⟩
      | bool _ =>
        obtain ⟨r, hr, hp⟩ := mergeProps_defined ss [] hss (by simp)
        exact ⟨.obj r, by simp [mergeValue, hr],
          by simpa [isPlain] using isPlainEntries_iff.2 hp⟩
      | num _ =>
        obtain ⟨r, hr, hp⟩ := mergeProps_defined ss [] hss (by simp)
        exact ⟨.obj r, by simp [mergeValue, hr],
          by simpa [isPlain] using isPlainEntries_iff.2 hp⟩
      | str _ =>
        obtain ⟨r, hr, hp⟩ := mergeProps_defined ss [] hss (by simp)
        exact ⟨.obj r, by simp [mergeValue, hr],
          by simpa [isPlain] using isPlainEntries_iff.2 hp⟩
/-- Merging plain properties into a plain mapping gives a plain mapping. -/
theorem mergeProps_defined : ∀ (ss os : List (String × Val)), isPlainEntries ss = true →
    (∀ e ∈ os, e.1 ≠ "__proto__" ∧ isPlain e.2 = true) →
    ∃ r, mergeProps os ss = some r ∧ ∀ e ∈ r, e.1 ≠ "__proto__" ∧ isPlain e.2 = true
  | [], os, _, hos => ⟨os, by simp [mergeProps], hos⟩
  | (key, sv) :: rest, os, hss, hos => by
    simp only [isPlainEntries, Bool.and_eq_true, bne_iff_ne, ne_eq] at hss
    obtain ⟨⟨hkey, hsv⟩, hrest⟩ := hss
    obtain ⟨nv, hnv, hpnv⟩ := mergeValue_defined sv (getOwn os key) hsv
      (fun c hc => (hos _ (mem_of_getOwn hc)).2)
    obtain ⟨r, hr, hp⟩ := mergeProps_defined rest (setProp os key nv) hrest (by
      intro e he
      rcases mem_setProp he with rfl | he
      · exact ⟨hkey, hpnv⟩
      · exact hos e he)
    refine ⟨r, ?_, hp⟩
    simp [mergeProps, hkey, hnv, assignMergeValue_of_isPlain os key hpnv, hr]
end

/-- The merge loop over plain mappings is defined at every step. -/
theorem mergeLoop_defined (fragments : List Val) :
    ∀ (gameData : Val), (gameData = .undefined ∨
        (isMapping gameData = true ∧ isPlain gameData = true)) →
      (∀ f ∈ fragments, isMapping f = true ∧ isPlain f = true) →
      ∃ merged, mergeLoop gameData fragments = some merged := by
  induction fragments with
  | nil => intro g _ _; exact ⟨g, rfl⟩
  | cons f rest ih =>
    intro g hg hfr
    obtain ⟨hfm, hfp⟩ := hfr f (by simp)
    obtain ⟨ss, rfl⟩ := isMapping_iff.1 hfm
    have hss : isPlainEntries ss = true := by simpa [isPlain] using hfp
    have hstart : ∃ o, (if truthy g then (sourceEntries g).bind (mergeProps []) else some [])
        = some o ∧ ∀ e ∈ o, e.1 ≠ "__proto__" ∧ isPlain e.2 = true := by
      rcases hg with rfl | ⟨hgm, hgp⟩
      · exact ⟨[], by simp [truthy], by simp⟩
      · obtain ⟨gs, rfl⟩ := isMapping_iff.1 hgm
        have hgs : isPlainEntries gs = true := by simpa [isPlain] using hgp
        obtain ⟨o, ho, hp⟩ := mergeProps_defined gs [] hgs (by simp)
        exact ⟨o, by simp [truthy, sourceEntries, ho], hp⟩
    obtain ⟨o, ho, hpo⟩ := hstart
    obtain ⟨r, hr, hpr⟩ := mergeProps_defined ss o hss hpo
    obtain ⟨merged, hm⟩ := ih (.obj r)
      (Or.inr ⟨rfl, by simpa [isPlain] using isPlainEntries_iff.2 hpr⟩)
      (fun f' hf' => hfr f' (List.mem_cons_of_mem _ hf'))
    refine ⟨merged, ?_⟩
    simp only [mergeLoop, merge_pair, ho, Option.some_bind, hr]
    exact hm

/-- On fragments that are plain mappings (scalars and mappings only, no key
`__proto__`) the merge loop stays inside the model: it returns a document. -/
theorem mergeFragments_defined (fragments : List Val)
    (h : ∀ f ∈ fragments, isMapping f = true ∧ isPlain f = true) :
    ∃ merged, mergeFragments fragments = some merged :=
  mergeLoop_defined fragments .undefined (Or.inl rfl) h

/-- The heap model and the value model of `formatKeyAsCamelCase` agree on
sample documents: renaming the allocated document in place and reading it
back gives what `formatKeyAsCamelCase` returns. -/
theorem formatInPlace_agrees_on_samples :
    (∀ d ∈ [Val.obj [("item-id", .num 5), ("nested-thing", .obj [("sub-key", .num 1)])],
          .obj [("x", .obj [("a-b-c", .num 1)])],
          .obj [("a-b-c", .num 1), ("aBC", .num 2)],
          .arr [.obj [("a-b-c", .num 1)], .num 3],
          .obj [("fooBar", .num 0), ("foo-bar", .num 1)],
          .obj [("length", .num 2), ("a-b", .num 1)],
          .obj [("to-string", .num 2), ("a-b", .obj [("q-r", .arr [.obj [("s-t", .null)]])]),
            ("aB", .obj [("u-v", .num 1)])]],
      (formatInPlace camelCase (store [] d).1 (store [] d).2).bind
          (fun h => load h (depth d + 1) (store [] d).2)
        = formatKeyAsCamelCase camelCase d) := by
  decide


end DataJsonOptimizer
